import Mathlib

/-!
SacredGeometry (`sg.c`): a verification development.

A shallow embedding of the solver in `sg.c` and theorems about it.

Conventions of the embedding.

* A C array handed over together with its length (`int data[], int length`)
  is a `List Int` whose length is that `length`; `dice[0 .. count-1]` in
  `main` is the list `dice`.
* A C `int` is an `Int`.  Addition, subtraction and multiplication are
  followed by `wrapInt`, the reduction to the 32-bit two's complement range
  (the spec's "native fixed-width integer wraparound").  Wherever a
  statement speaks of evaluating an expression, it is in this arithmetic.
* A function that can read or write outside its arrays, or divide by zero,
  returns a `Run`: `Run.ret` for a normal return, `Run.fault` for the
  undefined operation, `Run.outOfFuel` when the step budget of the model is
  used up (an artefact of the model, never a behaviour of the program).
* `l < l2` on lists is the lexicographic order.
-/

namespace SacredGeometry

/-! ## Constants and machine integers -/

/-- Capacity of the `dice` and `ops` buffers of `main` (`#define MAXCOUNT 20`). -/
def MAXCOUNT : Nat := 20

/-- Size of the input line buffer (`#define MAXBUF 1024`). -/
def MAXBUF : Nat := 1024

/-- The table `const int goals[9][3]`. -/
def goals : List (List Int) :=
  [[3, 5, 7],
   [11, 13, 17],
   [19, 23, 29],
   [31, 37, 41],
   [43, 47, 53],
   [59, 61, 67],
   [71, 73, 79],
   [83, 89, 97],
   [101, 103, 107]]

/-- Smallest value of a C `int` (32 bits). -/
def INT_MIN : Int := -2147483648

/-- Largest value of a C `int` (32 bits). -/
def INT_MAX : Int := 2147483647

/-- Reduction of an exact integer to the 32-bit two's complement range:
the value a C `int` holds after an operation whose exact result is `x`. -/
def wrapInt (x : Int) : Int :=
  (x + 2147483648) % 4294967296 - 2147483648

/-- Outcome of running a piece of the program. -/
inductive Run (α : Type) where
  /-- Normal return with a value. -/
  | ret (a : α) : Run α
  /-- An undefined operation was reached: an access outside an array, or a
  division whose result is not defined. -/
  | fault : Run α
  /-- The step budget of the model ran out. -/
  | outOfFuel : Run α
  deriving DecidableEq, Repr

/-! ## Supporting utilities: `swap`, `reverse`, `intCompare` -/

/-- The C function `swap(&data[a], &data[b])`:
`temp = *b; *b = *a; *a = temp;`. -/
def swap (data : List Int) (a b : Nat) : List Int :=
  let temp := data.getD b 0
  let data := data.set b (data.getD a 0)
  data.set a temp

/-- The loop of `reverse`, run for the iterations `i, i+1, ..., i+n-1`, on
the segment of `data` that starts at `off` and has `length` entries
(`reverse(&data[off], length)`). -/
def reverseLoop (off length : Nat) : Nat → Nat → List Int → List Int
  | 0, _, data => data
  | n + 1, i, data => reverseLoop off length n (i + 1) (swap data (off + i) (off + (length - 1 - i)))

/-- The C function `reverse(&data[off], length)`:
`for (i = 0; i < length/2; i++) swap(&array[i], &array[length-1-i]);`. -/
def reverse (data : List Int) (off length : Nat) : List Int :=
  reverseLoop off length (length / 2) 0 data

/-- The C function `intCompare`, the comparison handed to `qsort`. -/
def intCompare (a b : Int) : Int :=
  if a < b then -1
  else if a > b then 1
  else 0

/-- The call `qsort(dice, count, sizeof(int), intCompare)`: the entries
arranged in the ascending order that `intCompare` defines. -/
def qsort (dice : List Int) : List Int :=
  dice.insertionSort (fun a b => intCompare a b ≤ 0)

/-! ## Permutation generator -/

/-- First loop of `nextPermutation`:
`for (i = length-2; i >= 0; i--) if (data[i] < data[i+1]) { k = i; break; }`.
The argument is `i + 1`; `none` stands for `k == -1`. -/
def findK (data : List Int) : Nat → Option Nat
  | 0 => none
  | i + 1 => if data.getD i 0 < data.getD (i + 1) 0 then some i else findK data i

/-- Second loop of `nextPermutation`:
`for (i = length-1; i >= k; i--) if (data[k] < data[i]) { l = i; break; }`,
with `l` initially `0`.  The argument is `i + 1`. -/
def findL (data : List Int) (k : Nat) : Nat → Nat
  | 0 => 0
  | i + 1 =>
    if i < k then 0
    else if data.getD k 0 < data.getD i 0 then i
    else findL data k i

/-- The C function `nextPermutation(data, length)` with `length` the length
of the list: the returned flag and the contents of `data` afterwards. -/
def nextPermutation (data : List Int) : Bool × List Int :=
  let length := data.length
  match findK data (length - 1) with
  | none => (false, data)
  | some k =>
    let l := findL data k length
    if l ≤ k then (false, data)
    else
      let data := swap data k l
      let data := reverse data (k + 1) (length - k - 1)
      (true, data)

/-! ## Expression searcher -/

/-- The `switch (i)` of the loop body of `computeTest`: the accumulator that
operator `i` hands to the recursive call.  `Run.ret none` is the pruned
Divide branch (`ret = -1` without a call).  `working % d` is undefined for
`d == 0`, and for `INT_MIN % -1`. -/
def opArg (i : Nat) (working d : Int) : Run (Option Int) :=
  match i with
  | 0 => Run.ret (some (wrapInt (working + d)))
  | 1 => Run.ret (some (wrapInt (working - d)))
  | 2 => Run.ret (some (wrapInt (working * d)))
  | _ =>
    if d = 0 ∨ (working = INT_MIN ∧ d = -1) then Run.fault
    else if working.tmod d = 0 then Run.ret (some (working.tdiv d))
    else Run.ret none

/-- The assignment `ops[index-1] = i`. -/
def writeOp (ops : List Int) (index : Nat) (i : Nat) : Run (List Int) :=
  if 1 ≤ index ∧ index - 1 < ops.length then Run.ret (ops.set (index - 1) (i : Int))
  else Run.fault

/-- The loop `for (int i = 0; i < 4; i++)` of `computeTest`, from iteration
`i` on, with `n` iterations left and `ret` the value of the variable `ret`;
`call working ops` is the recursive call
`computeTest(working, index+1, lvl, data, ops, length)`. -/
def opLoop (call : Int → List Int → Run (Int × List Int)) (working d : Int) (index : Nat) :
    Nat → Nat → Int → List Int → Run (Int × List Int)
  | 0, _, ret, ops => Run.ret (ret, ops)
  | n + 1, i, _, ops =>
    match opArg i working d with
    | Run.fault => Run.fault
    | Run.outOfFuel => Run.outOfFuel
    | Run.ret none => opLoop call working d index n (i + 1) (-1) ops
    | Run.ret (some w) =>
      match call w ops with
      | Run.fault => Run.fault
      | Run.outOfFuel => Run.outOfFuel
      | Run.ret (ret, ops) =>
        if ret ≥ 0 then
          match writeOp ops index i with
          | Run.ret ops => Run.ret (ret, ops)
          | Run.fault => Run.fault
          | Run.outOfFuel => Run.outOfFuel
        else opLoop call working d index n (i + 1) ret ops

/-- The C function `computeTest(working, index, lvl, data, ops, length)`,
`length` being the length of `data`, with a budget of `fuel` nested calls:
the returned value and the contents of `ops` afterwards. -/
def computeTestFuel (lvl : Nat) (data : List Int) :
    Nat → Int → Nat → List Int → Run (Int × List Int)
  | 0, _, _, _ => Run.outOfFuel
  | fuel + 1, working, index, ops =>
    let length := data.length
    if index = length then
      match goals[lvl]? with
      | some [g0, g1, g2] =>
        if working = g0 then Run.ret (0, ops)
        else if working = g1 then Run.ret (1, ops)
        else if working = g2 then Run.ret (2, ops)
        else Run.ret (-1, ops)
      | _ => Run.fault
    else
      match data[index]? with
      | none => Run.fault
      | some d =>
        opLoop (fun w ops => computeTestFuel lvl data fuel w (index + 1) ops) working d index
          4 0 (-1) ops

/-- The C function `computeTest`.  A call at `index` nests at most
`length - index + 1` deep, so the budget `length + 1` is never used up. -/
def computeTest (working : Int) (index : Nat) (lvl : Nat) (data : List Int) (ops : List Int) :
    Run (Int × List Int) :=
  computeTestFuel lvl data (data.length + 1) working index ops

/-! ## Orchestrator (`main`, lines 106-121) -/

/-- The loop
`while ((goal < 0) && nextPermutation(dice, count)) goal = computeTest(dice[0], 1, lvl, dice, ops, count);`
with a budget of `fuel` evaluations of its condition: the final `goal`,
`dice` and `ops`. -/
def searchLoop (lvl : Nat) : Nat → Int → List Int → List Int → Run (Int × List Int × List Int)
  | 0, _, _, _ => Run.outOfFuel
  | fuel + 1, goal, dice, ops =>
    if goal < 0 then
      match nextPermutation dice with
      | (true, dice) =>
        match computeTest (dice.getD 0 0) 1 lvl dice ops with
        | Run.ret (goal, ops) => searchLoop lvl fuel goal dice ops
        | Run.fault => Run.fault
        | Run.outOfFuel => Run.outOfFuel
      | (false, dice) => Run.ret (goal, dice, ops)
    else Run.ret (goal, dice, ops)

/-- Lines 106-114 of `main`: sort the dice, search the sorted arrangement,
then the following arrangements.  `ops` is the operator buffer on entry. -/
def search (fuel : Nat) (dice : List Int) (lvl : Nat) (ops : List Int) :
    Run (Int × List Int × List Int) :=
  let dice := qsort dice
  match computeTest (dice.getD 0 0) 1 lvl dice ops with
  | Run.ret (goal, ops) => searchLoop lvl fuel goal dice ops
  | Run.fault => Run.fault
  | Run.outOfFuel => Run.outOfFuel

/-- The text `printf("%i", x)` writes. -/
def fmtInt (x : Int) : String := toString x

/-- The text the `switch (ops[i-1])` of `printResult` writes. -/
def opText (op : Int) : List String :=
  if op = 0 then ["+ "]
  else if op = 1 then ["- "]
  else if op = 2 then ["* "]
  else if op = 3 then ["/ "]
  else []

/-- The C function `printResult(dice, ops, length, result)`, `length` being
the length of `dice`: the pieces of text in the order they are written.
`ops` is read up to index `length - 1`; `main` hands over a buffer of
`MAXCOUNT` entries. -/
def printResultChunks (dice ops : List Int) (result : Int) : List String :=
  let length := dice.length
  ["Valid: ", fmtInt result, " = "]
  ++ (List.range (length - 1)).flatMap
      (fun i => if ops.getD i 0 < 2 ∧ ops.getD (i + 1) 0 ≥ 2 then ["("] else [])
  ++ [fmtInt (dice.getD 0 0), " "]
  ++ (List.range (length - 1)).flatMap
      (fun j =>
        let i := j + 1
        opText (ops.getD (i - 1) 0)
        ++ [fmtInt (dice.getD i 0)]
        ++ (if ops.getD (i - 1) 0 < 2 ∧ ops.getD i 0 ≥ 2 then [")"] else [])
        ++ [" "])
  ++ ["\n"]

/-- The text `printResult` writes to standard output. -/
def printResult (dice ops : List Int) (result : Int) : String :=
  String.join (printResultChunks dice ops result)

/-- The entry `goals[lvl][goal]` read by `main`. -/
def goalValue (lvl : Nat) (goal : Int) : Int :=
  (goals.getD lvl []).getD goal.toNat 0

/-- Lines 116-121 of `main`: the text printed once the search is over. -/
def report (dice ops : List Int) (lvl : Nat) (goal : Int) : String :=
  if goal ≥ 0 then printResult dice ops (goalValue lvl goal)
  else "No valid result found!\n"

/-- The initial contents `int ops[MAXCOUNT] = {0}` of the operator buffer. -/
def opsInit : List Int := List.replicate MAXCOUNT 0

/-- Lines 106-121 of `main`, for the `count` values `dice` and the tier
`lvl`: the final `goal`, `dice`, `ops` and the text printed. -/
def solve (fuel : Nat) (dice : List Int) (lvl : Nat) : Run (Int × List Int × List Int × String) :=
  match search fuel dice lvl opsInit with
  | Run.ret (goal, dice, ops) => Run.ret (goal, dice, ops, report dice ops lvl goal)
  | Run.fault => Run.fault
  | Run.outOfFuel => Run.outOfFuel

/-! ## Input parsing: `split` -/

/-- The library call `atoi(temp_buf)` on a string of decimal digits: its
value, undefined when the value does not fit an `int`. -/
def atoi (buf : List Char) : Run Int :=
  let v : Nat := buf.foldl (fun acc c => 10 * acc + (c.toNat - 48)) 0
  if (v : Int) ≤ INT_MAX then Run.ret (v : Int) else Run.fault

/-- The loop of `split` from position `i` on.  The first argument is what is
left of `str` from `str[i]` up to its terminator, `buf` is the text in
`temp_buf` (so `j` is its length), `dice` the values stored so far (so
`tmp_cnt` is its length).  `temp_buf` has 33 bytes: the write
`temp_buf[j+1] = 0` at `j == 32` falls outside it. -/
def splitLoop : List Char → Nat → List Char → List Int → Run (List Int)
  | [], _, _, dice => Run.ret dice
  | c :: rest, i, buf, dice =>
    if dice.length < MAXCOUNT ∧ c ≠ '\x00' ∧ i < MAXBUF then
      if c.isDigit then
        if buf.length < 33 then
          if buf.length + 1 < 33 then splitLoop rest (i + 1) (buf ++ [c]) dice
          else Run.fault
        else splitLoop rest (i + 1) buf dice
      else
        if buf.length ≠ 0 then
          match atoi buf with
          | Run.ret v => splitLoop rest (i + 1) [] (dice ++ [v])
          | Run.fault => Run.fault
          | Run.outOfFuel => Run.outOfFuel
        else splitLoop rest (i + 1) buf dice
    else Run.ret dice

/-- The C function `split(str, dice_array, &count)`: the values stored in
`dice_array[0 .. count-1]` and `count`. -/
def split (str : List Char) : Run (List Int × Nat) :=
  match splitLoop str 0 [] [] with
  | Run.ret dice => Run.ret (dice, dice.length)
  | Run.fault => Run.fault
  | Run.outOfFuel => Run.outOfFuel

/-! ## Reference evaluation of an expression -/

/-- One step of left-to-right evaluation with the operator tag `op`
(0 Add, 1 Subtract, 2 Multiply, 3 Divide) in `int` arithmetic; a division
is taken only when it is exact. -/
def evalStep (op : Int) (working d : Int) : Option Int :=
  if op = 0 then some (wrapInt (working + d))
  else if op = 1 then some (wrapInt (working - d))
  else if op = 2 then some (wrapInt (working * d))
  else if op = 3 then (if d ≠ 0 ∧ d ∣ working then some (working / d) else none)
  else none

/-- Strict left-to-right evaluation `((working o1 d1) o2 d2) ...` of the
values `ds` with the operator tags `os`, one tag per value. -/
def evalFrom : Int → List Int → List Int → Option Int
  | working, [], [] => some working
  | working, d :: ds, op :: os =>
    match evalStep op working d with
    | some w => evalFrom w ds os
    | none => none
  | _, _, _ => none

/-- Value of the expression `dice[0] ops[0] dice[1] ops[1] ... dice[N-1]`
read strictly left to right, with `N - 1` operator tags. -/
def evalExpr (dice ops : List Int) : Option Int :=
  match dice with
  | [] => none
  | d :: ds => evalFrom d ds ops

/-- The three goal values of tier `lvl`. -/
def tierGoals (lvl : Nat) : List Int := goals.getD lvl []

/-! ## Definitions used by the statements -/

/-- The contents of `data` before the first call of `nextPermutation` and
after each successful call, for at most `fuel` successful calls. -/
def arrangements : Nat → List Int → List (List Int)
  | 0, data => [data]
  | fuel + 1, data =>
    match nextPermutation data with
    | (true, next) => data :: arrangements fuel next
    | (false, _) => [data]

/-- The number `N!/(m1! * ... * mr!)` for a sequence of length `N` whose
distinct values occur `m1, ..., mr` times. -/
def permCount (data : List Int) : Nat :=
  data.length.factorial / (data.dedup.map (fun v => (data.count v).factorial)).prod

/-- The arrangements of `data` that come after `cur`. -/
def later (data cur : List Int) : Finset (List Int) :=
  data.permutations.toFinset.filter (fun p => cur < p)

/-- What a call `computeTest(w, index, lvl, data, ops, length)` that returns
`g` and leaves `ops2` in the operator buffer has established: either it
returned `-1`, left the buffer alone, and no operator sequence leads from
`w` over `data[index ..]` to a goal of the tier; or `g` is a goal index and
the buffer holds, from `index - 1` on, an operator sequence `os` leading to
`goals[lvl][g]`, the rest of the buffer being as before. -/
def SearchPost (lvl : Nat) (data : List Int) (index : Nat) (w : Int) (ops : List Int)
    (g : Int) (ops2 : List Int) : Prop :=
  (g = -1 ∧ ops2 = ops ∧
    ∀ os v, evalFrom w (data.drop index) os = some v → v ∉ tierGoals lvl) ∨
  (0 ≤ g ∧ g < 3 ∧ ∃ os : List Int, os.length = data.length - index ∧
    (∀ o ∈ os, 0 ≤ o ∧ o ≤ 3) ∧
    evalFrom w (data.drop index) os = some (goalValue lvl g) ∧
    ops2 = ops.take (index - 1) ++ os ++ ops.drop (data.length - 1))

/-- No operator sequence makes the arrangement `p` evaluate to a goal of
tier `lvl`. -/
def NoSolution (lvl : Nat) (p : List Int) : Prop :=
  ∀ os v, evalExpr p os = some v → v ∉ tierGoals lvl

/-- The operator tags `os` make the arrangement `p` evaluate, strictly left
to right and with exact divisions only, to the goal `goals[lvl][g]`. -/
def Solves (lvl : Nat) (p : List Int) (os : List Int) (g : Int) : Prop :=
  0 ≤ g ∧ g < 3 ∧ os.length = p.length - 1 ∧ (∀ o ∈ os, 0 ≤ o ∧ o ≤ 3) ∧
    evalExpr p os = some (goalValue lvl g)

/-- State of `main` between two evaluations of the loop condition: `goal`
and `ops` come from the search of the arrangement `cur`. -/
def LoopInv (lvl : Nat) (cur : List Int) (goal : Int) (ops : List Int) : Prop :=
  (goal = -1 ∧ NoSolution lvl cur) ∨
  (∃ os, Solves lvl cur os goal ∧ ops.take (cur.length - 1) = os)

/-- What every call `computeTest(w, index, lvl, data, ops, length)` that
returns has done, whatever the values in `data`: it returned `-1` and left
the operator buffer alone, or it returned a goal index `g` and the buffer
holds, from `index - 1` on, an operator sequence `os` leading from `w` over
`data[index ..]` to `goals[lvl][g]`, the rest of the buffer being as before. -/
def SoundPost (lvl : Nat) (data : List Int) (index : Nat) (w : Int) (ops : List Int)
    (g : Int) (ops2 : List Int) : Prop :=
  (g = -1 ∧ ops2 = ops) ∨
  (0 ≤ g ∧ g < 3 ∧ ops2.length = ops.length ∧ ∃ os : List Int,
    os.length = data.length - index ∧ (∀ o ∈ os, 0 ≤ o ∧ o ≤ 3) ∧
    evalFrom w (data.drop index) os = some (goalValue lvl g) ∧
    ops2 = ops.take (index - 1) ++ os ++ ops.drop (data.length - 1))

/-- One operator applied the way `computeTest` computes it, with no check:
`/` is the division of C. -/
def applyOp (op w d : Int) : Int :=
  if op = 0 then wrapInt (w + d)
  else if op = 1 then wrapInt (w - d)
  else if op = 2 then wrapInt (w * d)
  else w.tdiv d

/-- The accumulator just before operator number `j` of `os` is applied, in
the left-to-right evaluation of the values `ds` that starts from `w`. -/
def accBefore : Int → List Int → List Int → Nat → Int
  | w, _, _, 0 => w
  | w, d :: ds, o :: os, j + 1 => accBefore (applyOp o w d) ds os j
  | w, _, _, _ + 1 => w

/-- Lines 82-84 of `main`, from the integer `lvl` read at the prompt to the
tier index: `lvl = (lvl > 9) ? 9 : lvl; lvl = (lvl < 1) ? 1 : lvl; lvl--;`. -/
def tierOf (lvl : Int) : Int :=
  let lvl := if lvl > 9 then 9 else lvl
  let lvl := if lvl < 1 then 1 else lvl
  lvl - 1

/-- Smallest value of a 64-bit `long`. -/
def LONG_MIN : Int := -9223372036854775808

/-- Largest value of a 64-bit `long`. -/
def LONG_MAX : Int := 9223372036854775807

/-- The value `scanf("%i", &lvl)` of line 81 leaves in the 32-bit `int`
`lvl` when the integer `entered` is typed.  An integer that an `int` can
hold is stored as it is.  For any other integer C leaves the conversion
undefined; the C library converts the digits to a 64-bit `long`, saturating
at its two ends, and stores the low 32 bits of that. -/
def scanInt (entered : Int) : Int :=
  wrapInt (max LONG_MIN (min LONG_MAX entered))

/-- What every call `computeTest(w, index, lvl, data, ops, length)` that
returns has done, whatever the values in `data`: it returned `-1`, left the
operator buffer alone, and no operator sequence leads from `w` over
`data[index ..]` to a goal of the tier; or it returned a goal index `g` and
the buffer holds, from `index - 1` on, an operator sequence `os` leading to
`goals[lvl][g]` that is lexicographically least among the sequences leading
to a goal of the tier, the rest of the buffer being as before. -/
def LeastPost (lvl : Nat) (data : List Int) (index : Nat) (w : Int) (ops : List Int)
    (g : Int) (ops2 : List Int) : Prop :=
  (g = -1 ∧ ops2 = ops ∧
    ∀ os v, evalFrom w (data.drop index) os = some v → v ∉ tierGoals lvl) ∨
  (0 ≤ g ∧ g < 3 ∧ ops2.length = ops.length ∧ ∃ os : List Int,
    os.length = data.length - index ∧ (∀ o ∈ os, 0 ≤ o ∧ o ≤ 3) ∧
    evalFrom w (data.drop index) os = some (goalValue lvl g) ∧
    ops2 = ops.take (index - 1) ++ os ++ ops.drop (data.length - 1) ∧
    ∀ os2 v, evalFrom w (data.drop index) os2 = some v → v ∈ tierGoals lvl → os ≤ os2)

/-- One piece of the output of `printResult`: a fixed text (a `putchar`, or
the fixed part of a `printf`), or an integer written with `%i`. -/
inductive Piece where
  /-- A fixed text. -/
  | lit (s : String) : Piece
  /-- An integer written with `%i`. -/
  | int (x : Int) : Piece
  deriving DecidableEq, Repr

/-- The characters a piece puts on the output. -/
def Piece.text : Piece → String
  | Piece.lit s => s
  | Piece.int x => fmtInt x

/-- The `switch (ops[i-1])` of `printResult`, as pieces. -/
def opPieces (op : Int) : List Piece :=
  if op = 0 then [Piece.lit "+ "]
  else if op = 1 then [Piece.lit "- "]
  else if op = 2 then [Piece.lit "* "]
  else if op = 3 then [Piece.lit "/ "]
  else []

/-- The C function `printResult(dice, ops, length, result)` once more, call
by call, with the integers kept as integers: the pieces of output in the
order they are written. -/
def printResultPieces (dice ops : List Int) (result : Int) : List Piece :=
  let length := dice.length
  [Piece.lit "Valid: ", Piece.int result, Piece.lit " = "]
  ++ (List.range (length - 1)).flatMap
      (fun i => if ops.getD i 0 < 2 ∧ ops.getD (i + 1) 0 ≥ 2 then [Piece.lit "("] else [])
  ++ [Piece.int (dice.getD 0 0), Piece.lit " "]
  ++ (List.range (length - 1)).flatMap
      (fun j =>
        let i := j + 1
        opPieces (ops.getD (i - 1) 0)
        ++ [Piece.int (dice.getD i 0)]
        ++ (if ops.getD (i - 1) 0 < 2 ∧ ops.getD i 0 ≥ 2 then [Piece.lit ")"] else [])
        ++ [Piece.lit " "])
  ++ [Piece.lit "\n"]

/-- A token of an arithmetic expression. -/
inductive Tok where
  /-- An opening parenthesis. -/
  | lparen : Tok
  /-- A closing parenthesis. -/
  | rparen : Tok
  /-- A number. -/
  | num (n : Int) : Tok
  /-- An operator, by its tag: 0 `+`, 1 `-`, 2 `*`, 3 `/`. -/
  | op (o : Int) : Tok
  deriving DecidableEq, Repr

/-- The token a piece of output stands for; blanks and the newline stand
for none. -/
def lexPiece : Piece → List Tok
  | Piece.int x => [Tok.num x]
  | Piece.lit s =>
    if s = "(" then [Tok.lparen]
    else if s = ")" then [Tok.rparen]
    else if s = "+ " then [Tok.op 0]
    else if s = "- " then [Tok.op 1]
    else if s = "* " then [Tok.op 2]
    else if s = "/ " then [Tok.op 3]
    else []

/-- The tokens of the expression that `printResult` writes after
`Valid: <result> = `. -/
def exprTokens (dice ops : List Int) (result : Int) : List Tok :=
  ((printResultPieces dice ops result).drop 3).flatMap lexPiece

/-- Number of positions `i < n` at which an add/subtract operator is
followed by a multiply/divide operator, `ops[i] < 2` and `ops[i+1] >= 2`
(entries past the end of `ops` read as 0). -/
def transitions : Nat → List Int → Nat
  | 0, _ => 0
  | n + 1, ops =>
    (if ops.headD 0 < 2 ∧ ops.tail.headD 0 ≥ 2 then 1 else 0) + transitions n ops.tail

/-- The expression after its first operand, by the rule: each further
operand `d` is written after its operator, and is followed by a closing
parenthesis exactly when its operator is add/subtract and the next operator
is multiply/divide; then a blank. -/
def tailPieces : List Int → List Int → List Piece
  | [], _ => []
  | d :: ds, ops =>
    opPieces (ops.headD 0) ++ [Piece.int d]
    ++ (if ops.headD 0 < 2 ∧ ops.tail.headD 0 ≥ 2 then [Piece.lit ")"] else [])
    ++ [Piece.lit " "] ++ tailPieces ds ops.tail

/-- Precedence class of an operator tag in the conventional reading: 2 for
`*` and `/`, 1 for `+` and `-`. -/
def prec (o : Int) : Nat := if o = 2 ∨ o = 3 then 2 else 1

/-- Apply the operator `o` to the two topmost values of the value stack. -/
def applyTop (o : Int) : List Int → Option (List Int)
  | b :: a :: vs =>
    match evalStep o a b with
    | some c => some (c :: vs)
    | none => none
  | _ => none

/-- Apply the pending operators on top of the operator stack whose
precedence is at least `p` (operators of equal precedence group to the
left); `none` on the stack is an open parenthesis. -/
def reduceOps (p : Nat) : List (Option Int) → List Int → Option (List (Option Int) × List Int)
  | some o :: st, vs =>
    if p ≤ prec o then
      match applyTop o vs with
      | some vs2 => reduceOps p st vs2
      | none => none
    else some (some o :: st, vs)
  | st, vs => some (st, vs)

/-- A closing parenthesis: apply the pending operators down to the matching
open parenthesis and remove it. -/
def closeParen : List (Option Int) → List Int → Option (List (Option Int) × List Int)
  | some o :: st, vs =>
    match applyTop o vs with
    | some vs2 => closeParen st vs2
    | none => none
  | none :: st, vs => some (st, vs)
  | [], _ => none

/-- End of the expression: apply what is pending; exactly one value must
remain and no parenthesis may be open. -/
def finishOps : List (Option Int) → List Int → Option Int
  | some o :: st, vs =>
    match applyTop o vs with
    | some vs2 => finishOps st vs2
    | none => none
  | none :: _, _ => none
  | [], [v] => some v
  | [], _ => none

/-- Evaluation of a token sequence in the conventional reading of
arithmetic, with an operator stack and a value stack: parentheses first,
`*` and `/` before `+` and `-`, operators of equal precedence from left to
right; `int` arithmetic, a division only when it is exact. -/
def runToks : List Tok → List (Option Int) → List Int → Option Int
  | [], st, vs => finishOps st vs
  | Tok.num n :: ts, st, vs => runToks ts st (n :: vs)
  | Tok.op o :: ts, st, vs =>
    match reduceOps (prec o) st vs with
    | some (st2, vs2) => runToks ts (some o :: st2) vs2
    | none => none
  | Tok.lparen :: ts, st, vs => runToks ts (none :: st) vs
  | Tok.rparen :: ts, st, vs =>
    match closeParen st vs with
    | some (st2, vs2) => runToks ts st2 vs2
    | none => none

/-- Value of a token sequence in the conventional reading of arithmetic. -/
def convEval (ts : List Tok) : Option Int := runToks ts [] []

/-- The tokens of the expression after its first operand, for operator tags
in 0..3. -/
def tailToks : List Int → List Int → List Tok
  | [], _ => []
  | d :: ds, ops =>
    [Tok.op (ops.headD 0), Tok.num d]
    ++ (if ops.headD 0 < 2 ∧ ops.tail.headD 0 ≥ 2 then [Tok.rparen] else [])
    ++ tailToks ds ops.tail

/-! ## The search with its calls recorded -/

/-- The C function `roll_d(num)`, `r` being the value `rand()` returns.
The remainder is undefined for `num == 0` and for `INT_MIN % -1`. -/
def roll_d (r num : Int) : Run Int :=
  if num = 0 ∨ (r = INT_MIN ∧ num = -1) then Run.fault
  else Run.ret (wrapInt (r.tmod num + 1))

/-- The `switch (i)` of the loop body of `computeTest` as in `opArg`, with
the result of `+`, `-` and `*` passed through `norm`: `wrapInt` is the
machine `int`, `id` is arithmetic on exact integers. -/
def opArgG (norm : Int → Int) (i : Nat) (working d : Int) : Run (Option Int) :=
  match i with
  | 0 => Run.ret (some (norm (working + d)))
  | 1 => Run.ret (some (norm (working - d)))
  | 2 => Run.ret (some (norm (working * d)))
  | _ =>
    if d = 0 ∨ (working = INT_MIN ∧ d = -1) then Run.fault
    else if working.tmod d = 0 then Run.ret (some (working.tdiv d))
    else Run.ret none

/-- The loop of `computeTest` as in `opLoop`, over the arithmetic `norm`,
together with the list of the calls of `computeTest` made, each as the pair
of its `index` and its `working` argument, in the order they are made. -/
def opLoopT (norm : Int → Int)
    (call : Int → List Int → List (Nat × Int) × Run (Int × List Int)) (working d : Int)
    (index : Nat) : Nat → Nat → Int → List Int → List (Nat × Int) × Run (Int × List Int)
  | 0, _, ret, ops => ([], Run.ret (ret, ops))
  | n + 1, i, _, ops =>
    match opArgG norm i working d with
    | Run.fault => ([], Run.fault)
    | Run.outOfFuel => ([], Run.outOfFuel)
    | Run.ret none => opLoopT norm call working d index n (i + 1) (-1) ops
    | Run.ret (some w) =>
      match (call w ops).2 with
      | Run.fault => ((call w ops).1, Run.fault)
      | Run.outOfFuel => ((call w ops).1, Run.outOfFuel)
      | Run.ret (ret, ops2) =>
        if ret ≥ 0 then
          match writeOp ops2 index i with
          | Run.ret ops3 => ((call w ops).1, Run.ret (ret, ops3))
          | Run.fault => ((call w ops).1, Run.fault)
          | Run.outOfFuel => ((call w ops).1, Run.outOfFuel)
        else
          ((call w ops).1 ++ (opLoopT norm call working d index n (i + 1) ret ops2).1,
            (opLoopT norm call working d index n (i + 1) ret ops2).2)

/-- The C function `computeTest` as in `computeTestFuel`, over the
arithmetic `norm`, together with the list of all calls of `computeTest`
made, this one included: the pairs of `index` and `working`. -/
def computeTestT (norm : Int → Int) (lvl : Nat) (data : List Int) :
    Nat → Int → Nat → List Int → List (Nat × Int) × Run (Int × List Int)
  | 0, working, index, _ => ([(index, working)], Run.outOfFuel)
  | fuel + 1, working, index, ops =>
    let length := data.length
    if index = length then
      ([(index, working)],
        match goals[lvl]? with
        | some [g0, g1, g2] =>
          if working = g0 then Run.ret (0, ops)
          else if working = g1 then Run.ret (1, ops)
          else if working = g2 then Run.ret (2, ops)
          else Run.ret (-1, ops)
        | _ => Run.fault)
    else
      match data[index]? with
      | none => ([(index, working)], Run.fault)
      | some d =>
        ((index, working) ::
          (opLoopT norm (fun w ops => computeTestT norm lvl data fuel w (index + 1) ops)
            working d index 4 0 (-1) ops).1,
          (opLoopT norm (fun w ops => computeTestT norm lvl data fuel w (index + 1) ops)
            working d index 4 0 (-1) ops).2)

/-- The loop of `main` as in `searchLoop`, over the arithmetic `norm`,
together with the calls of `computeTest` made. -/
def searchLoopT (norm : Int → Int) (lvl : Nat) :
    Nat → Int → List Int → List Int → List (Nat × Int) × Run (Int × List Int × List Int)
  | 0, _, _, _ => ([], Run.outOfFuel)
  | fuel + 1, goal, dice, ops =>
    if goal < 0 then
      match nextPermutation dice with
      | (true, dice) =>
        match (computeTestT norm lvl dice (dice.length + 1) (dice.getD 0 0) 1 ops).2 with
        | Run.ret (goal, ops2) =>
          ((computeTestT norm lvl dice (dice.length + 1) (dice.getD 0 0) 1 ops).1
              ++ (searchLoopT norm lvl fuel goal dice ops2).1,
            (searchLoopT norm lvl fuel goal dice ops2).2)
        | Run.fault =>
          ((computeTestT norm lvl dice (dice.length + 1) (dice.getD 0 0) 1 ops).1, Run.fault)
        | Run.outOfFuel =>
          ((computeTestT norm lvl dice (dice.length + 1) (dice.getD 0 0) 1 ops).1,
            Run.outOfFuel)
      | (false, dice) => ([], Run.ret (goal, dice, ops))
    else ([], Run.ret (goal, dice, ops))

/-- Lines 106-114 of `main` as in `search`, over the arithmetic `norm`,
together with the calls of `computeTest` made during the whole search. -/
def searchT (norm : Int → Int) (fuel : Nat) (dice : List Int) (lvl : Nat) (ops : List Int) :
    List (Nat × Int) × Run (Int × List Int × List Int) :=
  let dice := qsort dice
  match (computeTestT norm lvl dice (dice.length + 1) (dice.getD 0 0) 1 ops).2 with
  | Run.ret (goal, ops2) =>
    ((computeTestT norm lvl dice (dice.length + 1) (dice.getD 0 0) 1 ops).1
        ++ (searchLoopT norm lvl fuel goal dice ops2).1,
      (searchLoopT norm lvl fuel goal dice ops2).2)
  | Run.fault =>
    ((computeTestT norm lvl dice (dice.length + 1) (dice.getD 0 0) 1 ops).1, Run.fault)
  | Run.outOfFuel =>
    ((computeTestT norm lvl dice (dice.length + 1) (dice.getD 0 0) 1 ops).1, Run.outOfFuel)

/-! ## Lemmas -/

/-! ### `swap` and `reverse` -/

theorem length_swap (data : List Int) (a b : Nat) : (swap data a b).length = data.length := by
  simp [swap]

theorem getElem?_swap (data : List Int) (a b i : Nat) (ha : a < data.length)
    (hb : b < data.length) :
    (swap data a b)[i]? = if i = a then data[b]? else if i = b then data[a]? else data[i]? := by
  simp only [swap, List.getD_eq_getElem?_getD, List.getElem?_set, List.length_set]
  by_cases h1 : i = a
  · subst h1
    simp [ha, hb, List.getElem?_eq_getElem]
  · by_cases h2 : i = b
    · subst h2
      simp [ha, hb, List.getElem?_eq_getElem, Ne.symm h1, h1]
    · simp [h1, h2, Ne.symm h1, Ne.symm h2]

theorem length_reverseLoop (off len : Nat) (n i : Nat) (data : List Int) :
    (reverseLoop off len n i data).length = data.length := by
  induction n generalizing i data with
  | zero => rfl
  | succ n ih => simp [reverseLoop, ih, length_swap]

/-- Entries after the iterations `i .. i+n-1` of the loop of `reverse`. -/
theorem getElem?_reverseLoop (off len : Nat) (n i : Nat) (data : List Int)
    (hlen : off + len ≤ data.length) (hn : 2 * (i + n) ≤ len) (j : Nat) :
    (reverseLoop off len n i data)[j]? =
      if (off + i ≤ j ∧ j < off + i + n) ∨ (off + len - i - n ≤ j ∧ j < off + len - i)
      then data[off + (len - 1 - (j - off))]? else data[j]? := by
  induction n generalizing i data with
  | zero =>
    simp only [reverseLoop]
    rw [if_neg]
    omega
  | succ n ih =>
    simp only [reverseLoop]
    rw [ih (i + 1) _ (by rw [length_swap]; exact hlen) (by omega)]
    have h1 : off + i < data.length := by omega
    have h2 : off + (len - 1 - i) < data.length := by omega
    rw [getElem?_swap _ _ _ _ h1 h2, getElem?_swap _ _ _ _ h1 h2]
    by_cases c1 : j = off + i
    · subst c1
      have e1 : off + (len - 1 - (off + i - off)) = off + (len - 1 - i) := by omega
      rw [e1]
      split_ifs <;> first | rfl | omega
    · by_cases c2 : j = off + (len - 1 - i)
      · subst c2
        have e1 : off + (len - 1 - (off + (len - 1 - i) - off)) = off + i := by omega
        rw [e1]
        split_ifs <;> first | rfl | omega
      · split_ifs <;> first | rfl | omega

theorem getElem?_reverse_seg (data : List Int) (off len : Nat) (hlen : off + len ≤ data.length)
    (j : Nat) :
    (reverse data off len)[j]? =
      if off ≤ j ∧ j < off + len then data[off + (len - 1 - (j - off))]? else data[j]? := by
  unfold reverse
  rw [getElem?_reverseLoop off len (len / 2) 0 data hlen (by omega)]
  by_cases h : off ≤ j ∧ j < off + len
  · rw [if_pos h]
    split_ifs with h1
    · rfl
    · have : j = off + (len - 1 - (j - off)) := by omega
      rw [← this]
  · rw [if_neg h, if_neg]
    omega

/-! ### The two scans of `nextPermutation` -/

theorem findK_some {data : List Int} {n k : Nat} (h : findK data n = some k) :
    k < n ∧ data.getD k 0 < data.getD (k + 1) 0 ∧
      ∀ i, k < i → i < n → ¬ data.getD i 0 < data.getD (i + 1) 0 := by
  induction n with
  | zero => simp [findK] at h
  | succ n ih =>
    simp only [findK] at h
    split at h
    · rename_i hlt
      have hk : n = k := by simpa using h
      subst hk
      exact ⟨by omega, hlt, fun i h1 h2 => by omega⟩
    · rename_i hlt
      obtain ⟨h1, h2, h3⟩ := ih h
      refine ⟨by omega, h2, fun i hi1 hi2 => ?_⟩
      by_cases hin : i = n
      · subst hin; exact hlt
      · exact h3 i hi1 (by omega)

theorem findK_none {data : List Int} {n : Nat} (h : findK data n = none) :
    ∀ i, i < n → ¬ data.getD i 0 < data.getD (i + 1) 0 := by
  induction n with
  | zero => intro i hi; omega
  | succ n ih =>
    simp only [findK] at h
    split at h
    · simp at h
    · rename_i hlt
      intro i hi
      by_cases hin : i = n
      · subst hin; exact hlt
      · exact ih h i (by omega)

theorem findL_spec (data : List Int) (k n : Nat)
    (hex : ∃ i, k < i ∧ i < n ∧ data.getD k 0 < data.getD i 0) :
    k < findL data k n ∧ findL data k n < n ∧ data.getD k 0 < data.getD (findL data k n) 0 ∧
      ∀ i, findL data k n < i → i < n → ¬ data.getD k 0 < data.getD i 0 := by
  induction n with
  | zero => obtain ⟨i, _, h, _⟩ := hex; omega
  | succ n ih =>
    obtain ⟨i, hi1, hi2, hi3⟩ := hex
    simp only [findL]
    have hk : ¬ n < k := by omega
    rw [if_neg hk]
    by_cases hlt : data.getD k 0 < data.getD n 0
    · rw [if_pos hlt]
      have : k ≠ n := by
        rintro rfl
        exact lt_irrefl _ hlt
      exact ⟨by omega, by omega, hlt, fun j h1 h2 => by omega⟩
    · rw [if_neg hlt]
      have hin : i ≠ n := by
        rintro rfl
        exact hlt hi3
      obtain ⟨h1, h2, h3, h4⟩ := ih ⟨i, hi1, by omega, hi3⟩
      refine ⟨h1, by omega, h3, fun j hj1 hj2 => ?_⟩
      by_cases hjn : j = n
      · subst hjn; exact hlt
      · exact h4 j hj1 (by omega)

/-- The second scan never comes back with `l <= k` when the first found `k`. -/
theorem findL_gt {data : List Int} {k : Nat} (h : findK data (data.length - 1) = some k) :
    k < findL data k data.length ∧ findL data k data.length < data.length ∧
      data.getD k 0 < data.getD (findL data k data.length) 0 ∧
      ∀ i, findL data k data.length < i → i < data.length → ¬ data.getD k 0 < data.getD i 0 := by
  obtain ⟨h1, h2, _⟩ := findK_some h
  exact findL_spec data k data.length ⟨k + 1, by omega, by omega, h2⟩

/-- The contents after a successful call, as a list expression. -/
theorem nextPermutation_eq (data : List Int) (k l : Nat) (hkl : k < l) (hl : l < data.length) :
    reverse (swap data k l) (k + 1) (data.length - k - 1) =
      data.take k ++ data.getD l 0 ::
        ((data.drop (k + 1)).set (l - k - 1) (data.getD k 0)).reverse := by
  apply List.ext_getElem?
  intro j
  rw [getElem?_reverse_seg _ _ _ (by rw [length_swap]; omega)]
  have hk : k < data.length := by omega
  rw [getElem?_swap _ _ _ _ hk hl, getElem?_swap _ _ _ _ hk hl]
  rw [List.getElem?_append]
  by_cases hj : j < k
  · have : j < (List.take k data).length := by simp; omega
    rw [if_pos this, List.getElem?_take_of_lt hj]
    split_ifs <;> first | rfl | omega
  · have : ¬ j < (List.take k data).length := by simp; omega
    rw [if_neg this]
    have e : (List.take k data).length = k := by simp; omega
    rw [e, List.getElem?_cons]
    by_cases hjk : j = k
    · subst hjk
      simp [List.getD_eq_getElem?_getD, List.getElem?_eq_getElem hl]
    · have hne : ¬ j - k = 0 := by omega
      rw [if_neg hne]
      by_cases hjn : j < data.length
      · have hlen : j - k - 1 < ((data.drop (k + 1)).set (l - k - 1) (data.getD k 0)).length := by
          simp; omega
        rw [List.getElem?_reverse hlen]
        simp only [List.length_set, List.length_drop, List.getElem?_set, List.getElem?_drop,
          List.getD_eq_getElem?_getD, List.getElem?_eq_getElem hk]
        have e2 : k + 1 + (data.length - k - 1 - 1 - (j - (k + 1))) = data.length + k - j := by
          omega
        have e3 : k + 1 + (data.length - (k + 1) - 1 - (j - k - 1)) = data.length + k - j := by
          omega
        rw [e2, e3]
        split_ifs <;> first | rfl | omega
      · have hlen : ((data.drop (k + 1)).set (l - k - 1) (data.getD k 0)).reverse.length
            ≤ j - k - 1 := by
          simp; omega
        rw [List.getElem?_eq_none hlen]
        have : data.length ≤ j := by omega
        split_ifs <;> first | omega | (rw [List.getElem?_eq_none this])

theorem antitone_after (data : List Int) (lo n : Nat)
    (h : ∀ i, lo ≤ i → i < n → ¬ data.getD i 0 < data.getD (i + 1) 0) :
    ∀ d i, lo ≤ i → i + d ≤ n → data.getD (i + d) 0 ≤ data.getD i 0 := by
  intro d
  induction d with
  | zero => intro i _ _; simp
  | succ d ih =>
    intro i hi hid
    have h1 := ih i hi (by omega)
    have h2 := h (i + d) (by omega) (by omega)
    have : i + (d + 1) = i + d + 1 := by omega
    rw [this]
    omega

theorem nextPermutation_shape (data : List Int) (h : (nextPermutation data).1 = true) :
    ∃ pre a s1 b s2, data = pre ++ a :: (s1 ++ b :: s2) ∧ a < b ∧ (∀ x ∈ s1, b ≤ x) ∧
      (∀ x ∈ s2, x ≤ a) ∧ (s1 ++ b :: s2).Pairwise (· ≥ ·) ∧
      (nextPermutation data).2 = pre ++ b :: (s2.reverse ++ a :: s1.reverse) := by
  unfold nextPermutation at h ⊢
  cases hK : findK data (data.length - 1) with
  | none => simp [hK] at h
  | some k =>
    obtain ⟨hl1, hl2, hl3, hl4⟩ := findL_gt hK
    obtain ⟨hk1, hk2, hk3⟩ := findK_some hK
    simp only [hK]
    rw [if_neg (by omega)]
    simp only
    rw [nextPermutation_eq data k _ hl1 hl2]
    generalize findL data k data.length = l at hl1 hl2 hl3 hl4
    have hk : k < data.length := by omega
    have hm : l - k - 1 < (data.drop (k + 1)).length := by simp; omega
    have hsufm : (data.drop (k + 1))[l - k - 1] = data[l] := by
      simp only [List.getElem_drop]
      congr 1
      omega
    have hdl : data.getD l 0 = data[l] := by simp [List.getElem?_eq_getElem hl2]
    have hdk : data.getD k 0 = data[k] := by simp [List.getElem?_eq_getElem hk]
    have hsplit : data.drop (k + 1) =
        (data.drop (k + 1)).take (l - k - 1) ++ data[l] :: (data.drop (k + 1)).drop (l - k) := by
      conv_lhs => rw [← List.take_append_drop (l - k - 1) (data.drop (k + 1))]
      rw [List.drop_eq_getElem_cons hm, hsufm]
      have : l - k - 1 + 1 = l - k := by omega
      rw [this]
    have hmono : (data.drop (k + 1)).Pairwise (· ≥ ·) := by
      rw [List.pairwise_iff_getElem]
      intro i j hi hj hij
      simp only [List.length_drop] at hi hj
      have := antitone_after data (k + 1) (data.length - 1) (fun i h1 h2 => hk3 i (by omega) h2)
        (j - i) (k + 1 + i)
        (by omega) (by omega)
      have e : k + 1 + i + (j - i) = k + 1 + j := by omega
      rw [e] at this
      have hi2 : k + 1 + i < data.length := by omega
      have hj2 : k + 1 + j < data.length := by omega
      rw [List.getD_eq_getElem data 0 hi2, List.getD_eq_getElem data 0 hj2] at this
      simpa [List.getElem_drop] using this
    refine ⟨data.take k, data[k], (data.drop (k + 1)).take (l - k - 1), data[l],
      (data.drop (k + 1)).drop (l - k), ?_, ?_, ?_, ?_, ?_, ?_⟩
    · rw [← hsplit, ← List.drop_eq_getElem_cons hk, List.take_append_drop]
    · rw [← hdk, ← hdl]; exact hl3
    · rw [hsplit] at hmono
      intro x hx
      exact (List.pairwise_append.1 hmono).2.2 x hx _ (List.mem_cons_self _ _)
    · intro x hx
      rw [List.drop_drop] at hx
      obtain ⟨i, hi, rfl⟩ := List.getElem_of_mem hx
      simp only [List.length_drop] at hi
      have hi2 : k + 1 + (l - k) + i < data.length := by omega
      have := hl4 (k + 1 + (l - k) + i) (by omega) hi2
      rw [hdk, List.getD_eq_getElem data 0 hi2] at this
      simp only [List.getElem_drop]
      omega
    · rw [← hsplit]; exact hmono
    · rw [hdl, hdk]
      congr 2
      rw [List.set_eq_take_append_cons_drop, if_pos hm]
      have : l - k - 1 + 1 = l - k := by omega
      rw [this]
      simp

/-! ### Lexicographic order and rearrangements -/

theorem cons_lt_cons_iff (a b : Int) (l l2 : List Int) :
    a :: l < b :: l2 ↔ a < b ∨ (a = b ∧ l < l2) := by
  constructor
  · intro h
    cases h with
    | cons h => exact Or.inr ⟨rfl, h⟩
    | rel h => exact Or.inl h
  · rintro (h | ⟨rfl, h⟩)
    · exact List.Lex.rel h
    · exact List.Lex.cons h

theorem perm_cons_exists {a : Int} {s p : List Int} (h : p.Perm (a :: s)) :
    ∃ c p2, p = c :: p2 := by
  cases p with
  | nil => simpa using h.length_eq
  | cons c p2 => exact ⟨c, p2, rfl⟩

/-- A non-increasing list is the greatest arrangement of its entries. -/
theorem le_of_perm_antitone : ∀ (s p : List Int), s.Pairwise (· ≥ ·) → p.Perm s → p ≤ s := by
  intro s
  induction s with
  | nil => intro p _ hp; rw [List.perm_nil.1 hp]
  | cons a s ih =>
    intro p hs hp
    obtain ⟨c, p2, rfl⟩ := perm_cons_exists hp
    have hc : c ∈ a :: s := hp.subset (List.mem_cons_self _ _)
    have hca : c ≤ a := by
      rcases List.mem_cons.1 hc with rfl | hc
      · exact le_rfl
      · exact (List.pairwise_cons.1 hs).1 c hc
    rcases lt_or_eq_of_le hca with hlt | rfl
    · exact le_of_lt ((cons_lt_cons_iff _ _ _ _).2 (Or.inl hlt))
    · exact List.cons_le_cons _ (ih p2 (List.pairwise_cons.1 hs).2 (List.Perm.cons_inv hp))

/-- A non-decreasing list is the least arrangement of its entries. -/
theorem le_of_perm_sorted : ∀ (s p : List Int), s.Pairwise (· ≤ ·) → p.Perm s → s ≤ p := by
  intro s
  induction s with
  | nil => intro p _ hp; rw [List.perm_nil.1 hp]
  | cons a s ih =>
    intro p hs hp
    obtain ⟨c, p2, rfl⟩ := perm_cons_exists hp
    have hc : c ∈ a :: s := hp.subset (List.mem_cons_self _ _)
    have hca : a ≤ c := by
      rcases List.mem_cons.1 hc with rfl | hc
      · exact le_rfl
      · exact (List.pairwise_cons.1 hs).1 c hc
    rcases lt_or_eq_of_le hca with hlt | rfl
    · exact le_of_lt ((cons_lt_cons_iff _ _ _ _).2 (Or.inl hlt))
    · exact List.cons_le_cons _ (ih p2 (List.pairwise_cons.1 hs).2 (List.Perm.cons_inv hp))

theorem succ_core (a b : Int) (s1 s2 : List Int) (hab : a < b) (hs1 : ∀ x ∈ s1, b ≤ x)
    (hs2 : ∀ x ∈ s2, x ≤ a) (hanti : (s1 ++ b :: s2).Pairwise (· ≥ ·)) (q : List Int)
    (hq : q.Perm (a :: (s1 ++ b :: s2))) (hlt : a :: (s1 ++ b :: s2) < q) :
    b :: (s2.reverse ++ a :: s1.reverse) ≤ q := by
  obtain ⟨c, q2, rfl⟩ := perm_cons_exists hq
  rcases (cons_lt_cons_iff _ _ _ _).1 hlt with hac | ⟨rfl, hlt2⟩
  · have hc : c ∈ a :: (s1 ++ b :: s2) := hq.subset (List.mem_cons_self _ _)
    have hbc : b ≤ c := by
      simp only [List.mem_cons, List.mem_append] at hc
      rcases hc with rfl | h | rfl | h
      · exact absurd hac (lt_irrefl _)
      · exact hs1 c h
      · exact le_rfl
      · exact absurd (hs2 c h) (not_le.2 hac)
    rcases lt_or_eq_of_le hbc with h | rfl
    · exact le_of_lt ((cons_lt_cons_iff _ _ _ _).2 (Or.inl h))
    · apply List.cons_le_cons
      have hp1 : (b :: q2).Perm (b :: (s1 ++ a :: s2)) := by
        refine hq.trans ?_
        have e1 : List.Perm (a :: (s1 ++ b :: s2)) (a :: b :: (s1 ++ s2)) :=
          List.Perm.cons _ List.perm_middle
        have e2 : List.Perm (b :: (s1 ++ a :: s2)) (b :: a :: (s1 ++ s2)) :=
          List.Perm.cons _ List.perm_middle
        exact e1.trans ((List.Perm.swap _ _ _).trans e2.symm)
      have hp2 : q2.Perm (s2.reverse ++ a :: s1.reverse) := by
        refine (List.Perm.cons_inv hp1).trans ?_
        have : s2.reverse ++ a :: s1.reverse = (s1 ++ a :: s2).reverse := by simp
        rw [this]
        exact (List.reverse_perm _).symm
      refine le_of_perm_sorted _ _ ?_ hp2
      have : s2.reverse ++ a :: s1.reverse = (s1 ++ a :: s2).reverse := by simp
      rw [this, List.pairwise_reverse]
      obtain ⟨h1, h2, h3⟩ := List.pairwise_append.1 hanti
      refine List.pairwise_append.2 ⟨h1, ?_, ?_⟩
      · exact List.pairwise_cons.2 ⟨fun y hy => hs2 y hy, (List.pairwise_cons.1 h2).2⟩
      · intro x hx y hy
        rcases List.mem_cons.1 hy with rfl | hy
        · exact le_of_lt (lt_of_lt_of_le hab (hs1 x hx))
        · exact h3 x hx y (List.mem_cons_of_mem _ hy)
  · exact absurd (le_of_perm_antitone _ _ hanti (List.Perm.cons_inv hq)) (not_le.2 hlt2)

theorem succ_prefix (x y : List Int) (H : ∀ q : List Int, q.Perm x → x < q → y ≤ q) :
    ∀ (pre p : List Int), p.Perm (pre ++ x) → pre ++ x < p → pre ++ y ≤ p := by
  intro pre
  induction pre with
  | nil => intro p hp hlt; exact H p hp hlt
  | cons c pre ih =>
    intro p hp hlt
    obtain ⟨d, p2, rfl⟩ := perm_cons_exists hp
    rcases (cons_lt_cons_iff _ _ _ _).1 hlt with h | ⟨rfl, h⟩
    · exact le_of_lt ((cons_lt_cons_iff _ _ _ _).2 (Or.inl h))
    · exact List.cons_le_cons _ (ih p2 (List.Perm.cons_inv hp) h)

theorem append_lt_append_left (pre : List Int) {x y : List Int} (h : x < y) :
    pre ++ x < pre ++ y :=
  List.Lex.append_left _ h pre

/-- Everything a successful call of `nextPermutation` does. -/
theorem nextPermutation_succ (data : List Int) (h : (nextPermutation data).1 = true) :
    (nextPermutation data).2.Perm data ∧ data < (nextPermutation data).2 ∧
      ∀ p : List Int, p.Perm data → data < p → (nextPermutation data).2 ≤ p := by
  obtain ⟨pre, a, s1, b, s2, hd, hab, hs1, hs2, hanti, hr⟩ := nextPermutation_shape data h
  rw [hr]
  refine ⟨?_, ?_, ?_⟩
  · rw [hd]
    apply List.Perm.append_left
    have e1 : List.Perm (a :: (s1 ++ b :: s2)) (a :: b :: (s1 ++ s2)) := List.Perm.cons _ List.perm_middle
    have e2 : List.Perm (b :: (s2.reverse ++ a :: s1.reverse)) (b :: a :: (s1 ++ s2)) := by
      apply List.Perm.cons
      refine List.perm_middle.trans (List.Perm.cons _ ?_)
      exact List.perm_append_comm.trans
        (List.Perm.append (List.reverse_perm _) (List.reverse_perm _))
    exact e2.trans ((List.Perm.swap _ _ _).trans e1.symm)
  · conv_lhs => rw [hd]
    exact append_lt_append_left pre ((cons_lt_cons_iff _ _ _ _).2 (Or.inl hab))
  · intro p hp hlt
    rw [hd] at hp hlt
    exact succ_prefix _ _ (succ_core a b s1 s2 hab hs1 hs2 hanti) pre p hp hlt

/-! ### Counting the arrangements of a multiset -/

/-- Arrangements of a non-empty multiset, split by first entry. -/
theorem lists_eq_biUnion (m : Multiset Int) (hm : m ≠ 0) :
    m.lists = m.toFinset.biUnion (fun a => (m.erase a).lists.image (List.cons a)) := by
  ext l
  simp only [Multiset.mem_lists_iff, Finset.mem_biUnion, Multiset.mem_toFinset, Finset.mem_image]
  constructor
  · intro h
    cases l with
    | nil => exact absurd (by simpa using h) hm
    | cons a l =>
      refine ⟨a, ?_, l, ?_, rfl⟩
      · rw [h]; simp
      · rw [h]
        simp
  · rintro ⟨a, ha, l2, hl2, rfl⟩
    have : (⟦a :: l2⟧ : Multiset Int) = a ::ₘ (⟦l2⟧ : Multiset Int) := rfl
    rw [this, ← hl2, Multiset.cons_erase ha]

theorem card_lists_succ (m : Multiset Int) (hm : m ≠ 0) :
    m.lists.card = ∑ a ∈ m.toFinset, (m.erase a).lists.card := by
  rw [lists_eq_biUnion m hm, Finset.card_biUnion]
  · apply Finset.sum_congr rfl
    intro a _
    exact Finset.card_image_of_injective _ (List.cons_injective)
  · intro a _ b _ hab
    rw [Finset.disjoint_left]
    intro l h1 h2
    simp only [Finset.mem_image] at h1 h2
    obtain ⟨l1, _, rfl⟩ := h1
    obtain ⟨l2, _, h⟩ := h2
    exact hab (List.cons.inj h).1.symm

theorem prod_factorial_erase (m : Multiset Int) (a : Int) (ha : a ∈ m) :
    ∏ b ∈ m.toFinset, (m.count b).factorial =
      m.count a * ∏ b ∈ (m.erase a).toFinset, ((m.erase a).count b).factorial := by
  have hsub : (m.erase a).toFinset ⊆ m.toFinset :=
    Multiset.toFinset_subset.2 (Multiset.erase_subset a m)
  have hone : ∀ x ∈ m.toFinset, x ∉ (m.erase a).toFinset →
      ((m.erase a).count x).factorial = 1 := by
    intro b _ hb
    have : (m.erase a).count b = 0 := by
      rw [Multiset.count_eq_zero]
      simpa using hb
    rw [this]; rfl
  rw [Finset.prod_subset hsub hone]
  have ha2 : a ∈ m.toFinset := Multiset.mem_toFinset.2 ha
  rw [← Finset.mul_prod_erase _ _ ha2, ← Finset.mul_prod_erase _ _ ha2, ← mul_assoc]
  congr 1
  · rw [Multiset.count_erase_self]
    have : 1 ≤ m.count a := Multiset.one_le_count_iff_mem.2 ha
    obtain ⟨c, hc⟩ : ∃ c, m.count a = c + 1 := ⟨m.count a - 1, by omega⟩
    rw [hc, Nat.factorial_succ]
    simp
  · apply Finset.prod_congr rfl
    intro b hb
    rw [Multiset.count_erase_of_ne (Finset.ne_of_mem_erase hb)]

/-- The number of distinct arrangements of a multiset, times the factorials
of the multiplicities, is the factorial of the size. -/
theorem card_lists_mul (n : Nat) : ∀ m : Multiset Int, Multiset.card m = n →
    m.lists.card * ∏ b ∈ m.toFinset, (m.count b).factorial = n.factorial := by
  induction n with
  | zero =>
    intro m hm
    rw [Multiset.card_eq_zero] at hm
    subst hm
    have : (0 : Multiset Int) = ((([] : List Int)) : Multiset Int) := rfl
    rw [this, Multiset.lists_coe]
    simp
  | succ n ih =>
    intro m hm
    have hne : m ≠ 0 := by
      rintro rfl
      simp at hm
    rw [card_lists_succ m hne, Finset.sum_mul]
    have : ∀ a ∈ m.toFinset,
        (m.erase a).lists.card * ∏ b ∈ m.toFinset, (m.count b).factorial
          = m.count a * n.factorial := by
      intro a ha
      have ha2 : a ∈ m := Multiset.mem_toFinset.1 ha
      rw [prod_factorial_erase m a ha2, mul_left_comm,
        ih (m.erase a) (by rw [Multiset.card_erase_of_mem ha2, hm]; rfl)]
    rw [Finset.sum_congr rfl this, ← Finset.sum_mul, Multiset.toFinset_sum_count_eq, hm,
      Nat.factorial_succ]

/-! ### Exhaustion and the run of `nextPermutation` -/

theorem nextPermutation_false_iff (data : List Int) :
    (nextPermutation data).1 = false ↔
      ∀ i, i + 1 < data.length → ¬ data.getD i 0 < data.getD (i + 1) 0 := by
  unfold nextPermutation
  cases hK : findK data (data.length - 1) with
  | none =>
    simp only [hK, true_iff]
    intro i hi
    exact findK_none hK i (by omega)
  | some k =>
    obtain ⟨hl1, _⟩ := findL_gt hK
    obtain ⟨hk1, hk2, _⟩ := findK_some hK
    simp only [hK]
    rw [if_neg (by omega)]
    simp only [Bool.true_eq_false, false_iff, not_forall]
    exact ⟨k, by omega, not_not.2 hk2⟩

theorem nextPermutation_false_snd (data : List Int) (h : (nextPermutation data).1 = false) :
    (nextPermutation data).2 = data := by
  unfold nextPermutation at h ⊢
  cases hK : findK data (data.length - 1) with
  | none => simp only [hK]
  | some k =>
    obtain ⟨hl1, _⟩ := findL_gt hK
    simp only [hK] at h
    rw [if_neg (by omega)] at h
    simp at h

theorem antitone_of_false (data : List Int) (h : (nextPermutation data).1 = false) :
    data.Pairwise (· ≥ ·) := by
  rw [nextPermutation_false_iff] at h
  rw [List.pairwise_iff_getElem]
  intro i j hi hj hij
  have := antitone_after data 0 (data.length - 1) (fun i _ h2 => h i (by omega))
    (j - i) i (by omega) (by omega)
  have e : i + (j - i) = j := by omega
  rw [e, List.getD_eq_getElem data 0 hi, List.getD_eq_getElem data 0 hj] at this
  exact this

theorem mem_later {data cur p : List Int} : p ∈ later data cur ↔ p.Perm data ∧ cur < p := by
  simp [later]

theorem later_next {data cur : List Int} (hcur : cur.Perm data)
    (h : (nextPermutation cur).1 = true) :
    later data (nextPermutation cur).2 = (later data cur).erase (nextPermutation cur).2 := by
  obtain ⟨h1, h2, h3⟩ := nextPermutation_succ cur h
  ext p
  simp only [mem_later, Finset.mem_erase]
  constructor
  · rintro ⟨hp, hlt⟩
    exact ⟨ne_of_gt hlt, hp, lt_trans h2 hlt⟩
  · rintro ⟨hne, hp, hlt⟩
    exact ⟨hp, lt_of_le_of_ne (h3 p (hp.trans hcur.symm) hlt) (Ne.symm hne)⟩

theorem next_mem_later {data cur : List Int} (hcur : cur.Perm data)
    (h : (nextPermutation cur).1 = true) : (nextPermutation cur).2 ∈ later data cur := by
  obtain ⟨h1, h2, _⟩ := nextPermutation_succ cur h
  exact mem_later.2 ⟨h1.trans hcur, h2⟩

/-- With a budget that covers the arrangements after `cur`, the run from
`cur` lists exactly the arrangements from `cur` on, in increasing order. -/
theorem arrangements_spec (data : List Int) : ∀ (fuel : Nat) (cur : List Int), cur.Perm data →
    (later data cur).card ≤ fuel →
    (arrangements fuel cur).Chain' (· < ·) ∧
    (arrangements fuel cur).head? = some cur ∧
    (∀ p, p ∈ arrangements fuel cur ↔ p.Perm data ∧ cur ≤ p) ∧
    (arrangements fuel cur).length = (later data cur).card + 1 ∧
    (∀ last ∈ (arrangements fuel cur).getLast?, (nextPermutation last).1 = false) := by
  intro fuel
  induction fuel with
  | zero =>
    intro cur hcur hfuel
    have hfalse : (nextPermutation cur).1 = false := by
      by_contra hne
      have ht : (nextPermutation cur).1 = true := by simpa using hne
      have := Finset.card_pos.2 ⟨_, next_mem_later hcur ht⟩
      omega
    have hanti := antitone_of_false cur hfalse
    refine ⟨by simp [arrangements], by simp [arrangements], ?_, ?_, ?_⟩
    · intro p
      simp only [arrangements, List.mem_singleton]
      constructor
      · rintro rfl; exact ⟨hcur, le_rfl⟩
      · rintro ⟨hp, hle⟩
        exact le_antisymm (le_of_perm_antitone cur p hanti (hp.trans hcur.symm)) hle
    · simp only [arrangements, List.length_singleton]
      omega
    · simp [arrangements, hfalse]
  | succ fuel ih =>
    intro cur hcur hfuel
    cases hnp : nextPermutation cur with
    | mk flag next =>
      cases flag with
      | false =>
        have hfalse : (nextPermutation cur).1 = false := by rw [hnp]
        have hanti := antitone_of_false cur hfalse
        have hempty : later data cur = ∅ := by
          ext p
          simp only [mem_later, Finset.not_mem_empty, iff_false, not_and, not_lt]
          intro hp
          exact le_of_perm_antitone cur p hanti (hp.trans hcur.symm)
        simp only [arrangements, hnp]
        refine ⟨by simp, by simp, ?_, ?_, ?_⟩
        · intro p
          simp only [List.mem_singleton]
          constructor
          · rintro rfl; exact ⟨hcur, le_rfl⟩
          · rintro ⟨hp, hle⟩
            exact le_antisymm (le_of_perm_antitone cur p hanti (hp.trans hcur.symm)) hle
        · simp [hempty]
        · simp [hfalse]
      | true =>
        have htrue : (nextPermutation cur).1 = true := by rw [hnp]
        have hnext : (nextPermutation cur).2 = next := by rw [hnp]
        obtain ⟨h1, h2, h3⟩ := nextPermutation_succ cur htrue
        rw [hnext] at h1 h2 h3
        have hmem := next_mem_later hcur htrue
        have hlater := later_next hcur htrue
        rw [hnext] at hmem hlater
        have hcard : (later data next).card + 1 = (later data cur).card := by
          rw [hlater, Finset.card_erase_of_mem hmem]
          have := Finset.card_pos.2 ⟨_, hmem⟩
          omega
        obtain ⟨i1, i2, i3, i4, i5⟩ := ih next (h1.trans hcur) (by omega)
        simp only [arrangements, hnp]
        refine ⟨?_, by simp, ?_, ?_, ?_⟩
        · rw [List.chain'_cons']
          refine ⟨?_, i1⟩
          intro y hy
          rw [i2] at hy
          cases hy
          exact h2
        · intro p
          simp only [List.mem_cons, i3]
          constructor
          · rintro (rfl | ⟨hp, hle⟩)
            · exact ⟨hcur, le_rfl⟩
            · exact ⟨hp, le_of_lt (lt_of_lt_of_le h2 hle)⟩
          · rintro ⟨hp, hle⟩
            rcases eq_or_lt_of_le hle with heq | hlt
            · exact Or.inl heq.symm
            · exact Or.inr ⟨hp, h3 p (hp.trans hcur.symm) hlt⟩
        · simp only [List.length_cons, i4]
          omega
        · intro last hlast
          apply i5
          cases harr : arrangements fuel next with
          | nil => simp [harr] at i2
          | cons x xs =>
            rw [harr] at hlast
            simpa using hlast

/-! ### `computeTest` on positive data -/

theorem goals_row (lvl : Nat) (h : lvl < 9) :
    ∃ g0 g1 g2 : Int, goals[lvl]? = some [g0, g1, g2] ∧ tierGoals lvl = [g0, g1, g2] ∧
      goalValue lvl 0 = g0 ∧ goalValue lvl 1 = g1 ∧ goalValue lvl 2 = g2 := by
  interval_cases lvl <;> exact ⟨_, _, _, rfl, rfl, rfl, rfl, rfl⟩

theorem evalFrom_nil (w : Int) (os : List Int) (v : Int) (h : evalFrom w [] os = some v) :
    os = [] ∧ v = w := by
  cases os with
  | nil => simp [evalFrom] at h; exact ⟨rfl, h.symm⟩
  | cons o os => simp [evalFrom] at h

theorem evalFrom_cons (w d : Int) (ds : List Int) (o : Int) (os : List Int) :
    evalFrom w (d :: ds) (o :: os) = (evalStep o w d).bind (fun w2 => evalFrom w2 ds os) := by
  simp only [evalFrom]
  cases evalStep o w d <;> rfl

/-- The `switch` of `computeTest` and the reference step agree on a
positive operand. -/
theorem opArg_eq (i : Nat) (hi : i < 4) (w d : Int) (hd : 0 < d) :
    opArg i w d = Run.ret (evalStep (i : Int) w d) := by
  have hd0 : d ≠ 0 := ne_of_gt hd
  have hd1 : ¬ (w = INT_MIN ∧ d = -1) := by
    rintro ⟨_, h⟩
    omega
  interval_cases i
  · simp [opArg, evalStep]
  · simp [opArg, evalStep]
  · simp [opArg, evalStep]
  · simp only [opArg, evalStep]
    rw [if_neg (by simp [hd0, hd1])]
    by_cases hdiv : d ∣ w
    · rw [if_pos (Int.tmod_eq_zero_of_dvd hdiv), Int.tdiv_eq_ediv_of_dvd hdiv]
      simp [hd0, hdiv]
    · rw [if_neg (fun h => hdiv (Int.dvd_of_tmod_eq_zero h))]
      simp [hdiv]

theorem evalStep_tag {o w d w2 : Int} (h : evalStep o w d = some w2) :
    ∃ j : Nat, j < 4 ∧ o = (j : Int) := by
  unfold evalStep at h
  split_ifs at h with h0 h1 h2 h3
  · exact ⟨0, by omega, by simpa using h0⟩
  · exact ⟨1, by omega, by simpa using h1⟩
  · exact ⟨2, by omega, by simpa using h2⟩
  · exact ⟨3, by omega, by simpa using h3⟩

theorem set_take_append (ops os tail : List Int) (k : Nat) (x : Int) (hk : k < ops.length) :
    (ops.take (k + 1) ++ os ++ tail).set k x = ops.take k ++ (x :: os) ++ tail := by
  have h1 : ops.take (k + 1) = ops.take k ++ [ops[k]] := by
    rw [List.take_succ, List.getElem?_eq_getElem hk]
    rfl
  have hlen : (ops.take k).length = k := by simp; omega
  rw [h1, List.append_assoc, List.append_assoc, List.set_append_right _ _ (by omega), hlen]
  simp

/-- The operator loop, given that every recursive call meets `SearchPost`. -/
theorem opLoop_spec (lvl : Nat) (data : List Int) (index : Nat) (w d : Int) (ops : List Int)
    (call : Int → List Int → Run (Int × List Int)) (hd : 0 < d) (hidx : 1 ≤ index)
    (hlt : index < data.length) (hops : data.length ≤ ops.length + 1)
    (hdrop : data.drop index = d :: data.drop (index + 1))
    (hcall : ∀ w2, ∃ g ops2, call w2 ops = Run.ret (g, ops2) ∧
      SearchPost lvl data (index + 1) w2 ops g ops2) :
    ∀ n i, i + n = 4 → ∃ g ops2, opLoop call w d index n i (-1) ops = Run.ret (g, ops2) ∧
      ((g = -1 ∧ ops2 = ops ∧ ∀ j : Nat, i ≤ j → j < 4 → ∀ os v,
          evalFrom w (data.drop index) ((j : Int) :: os) = some v → v ∉ tierGoals lvl) ∨
       (0 ≤ g ∧ g < 3 ∧ ∃ os : List Int, os.length = data.length - index ∧
          (∀ o ∈ os, 0 ≤ o ∧ o ≤ 3) ∧
          evalFrom w (data.drop index) os = some (goalValue lvl g) ∧
          ops2 = ops.take (index - 1) ++ os ++ ops.drop (data.length - 1))) := by
  intro n
  induction n with
  | zero =>
    intro i hi
    refine ⟨-1, ops, rfl, Or.inl ⟨rfl, rfl, ?_⟩⟩
    intro j h1 h2
    omega
  | succ n ih =>
    intro i hi
    have hi4 : i < 4 := by omega
    obtain ⟨g, ops2, hrun, hpost⟩ := ih (i + 1) (by omega)
    simp only [opLoop, opArg_eq i hi4 w d hd]
    cases hstep : evalStep (i : Int) w d with
    | none =>
      simp only
      refine ⟨g, ops2, hrun, ?_⟩
      rcases hpost with ⟨hg, ho, hno⟩ | hsucc
      · refine Or.inl ⟨hg, ho, ?_⟩
        intro j h1 h2 os v hev
        by_cases hji : j = i
        · subst hji
          rw [hdrop, evalFrom_cons, hstep] at hev
          simp at hev
        · exact hno j (by omega) h2 os v hev
      · exact Or.inr hsucc
    | some w2 =>
      obtain ⟨g2, ops3, hc, hp⟩ := hcall w2
      simp only [hc]
      rcases hp with ⟨hg, ho, hno2⟩ | ⟨hg0, hg3, os, hlen, htags, hev, hops3⟩
      · subst hg ho
        rw [if_neg (by decide)]
        refine ⟨g, ops2, hrun, ?_⟩
        rcases hpost with ⟨hg, ho, hno⟩ | hsucc
        · refine Or.inl ⟨hg, ho, ?_⟩
          intro j h1 h2 os v hev
          by_cases hji : j = i
          · subst hji
            rw [hdrop, evalFrom_cons, hstep] at hev
            exact hno2 os v hev
          · exact hno j (by omega) h2 os v hev
        · exact Or.inr hsucc
      · rw [if_pos hg0]
        obtain ⟨k, rfl⟩ : ∃ k, index = k + 1 := ⟨index - 1, by omega⟩
        have hk : k < ops.length := by omega
        have hlen3 : ops3.length = ops.length := by
          rw [hops3]
          simp only [List.length_append, List.length_take, List.length_drop, hlen]
          omega
        simp only [writeOp]
        rw [if_pos ⟨by omega, by rw [hlen3]; simpa using hk⟩]
        refine ⟨g2, _, rfl, Or.inr ⟨hg0, hg3, (i : Int) :: os, ?_, ?_, ?_, ?_⟩⟩
        · simp only [List.length_cons, hlen]
          omega
        · intro o ho
          rcases List.mem_cons.1 ho with rfl | ho
          · omega
          · exact htags o ho
        · rw [hdrop, evalFrom_cons, hstep]
          exact hev
        · rw [hops3]
          simp only [Nat.add_sub_cancel]
          exact set_take_append ops os _ k _ hk

/-- Every call of `computeTest` with enough budget returns, without a
fault, a result that meets `SearchPost`. -/
theorem computeTestFuel_spec (lvl : Nat) (hlvl : lvl < 9) (data : List Int)
    (hpos : ∀ d ∈ data, 0 < d) :
    ∀ (fuel : Nat) (w : Int) (index : Nat) (ops : List Int), 1 ≤ index → index ≤ data.length →
      data.length - index < fuel → data.length ≤ ops.length + 1 →
      ∃ g ops2, computeTestFuel lvl data fuel w index ops = Run.ret (g, ops2) ∧
        SearchPost lvl data index w ops g ops2 := by
  intro fuel
  induction fuel with
  | zero => intro w index ops _ _ h; omega
  | succ fuel ih =>
    intro w index ops h1 h2 h3 h4
    obtain ⟨g0, g1, g2, hrow, htier, hv0, hv1, hv2⟩ := goals_row lvl hlvl
    simp only [computeTestFuel]
    by_cases hidx : index = data.length
    · rw [if_pos hidx, hrow]
      simp only
      have hdrop : data.drop index = [] := by rw [hidx]; simp
      have hframe : ops = ops.take (index - 1) ++ [] ++ ops.drop (data.length - 1) := by
        rw [hidx]; simp
      have hno : ∀ g : Int, w ≠ g0 → w ≠ g1 → w ≠ g2 →
          ∀ os v, evalFrom w (data.drop index) os = some v → v ∉ tierGoals lvl := by
        intro g a0 a1 a2 os v hev
        rw [hdrop] at hev
        obtain ⟨_, rfl⟩ := evalFrom_nil w os v hev
        rw [htier]
        simp [a0, a1, a2]
      have hyes : ∀ g : Int, 0 ≤ g → g < 3 → w = goalValue lvl g →
          SearchPost lvl data index w ops g ops := by
        intro g a0 a1 a2
        refine Or.inr ⟨a0, a1, [], by rw [hidx]; simp, by simp, ?_, hframe⟩
        rw [hdrop, a2]
        rfl
      split_ifs with c0 c1 c2
      · exact ⟨0, ops, rfl, hyes 0 (by decide) (by decide) (by rw [hv0]; exact c0)⟩
      · exact ⟨1, ops, rfl, hyes 1 (by decide) (by decide) (by rw [hv1]; exact c1)⟩
      · exact ⟨2, ops, rfl, hyes 2 (by decide) (by decide) (by rw [hv2]; exact c2)⟩
      · exact ⟨-1, ops, rfl, Or.inl ⟨rfl, rfl, hno 0 c0 c1 c2⟩⟩
    · rw [if_neg hidx]
      have hlt : index < data.length := by omega
      rw [List.getElem?_eq_getElem hlt]
      simp only
      have hd : 0 < data[index] := hpos _ (List.getElem_mem _)
      have hdrop : data.drop index = data[index] :: data.drop (index + 1) :=
        List.drop_eq_getElem_cons hlt
      obtain ⟨g, ops2, hrun, hpost⟩ := opLoop_spec lvl data index w data[index] ops
        (fun w ops => computeTestFuel lvl data fuel w (index + 1) ops) hd h1 hlt h4 hdrop
        (fun w2 => ih w2 (index + 1) ops (by omega) (by omega) (by omega) h4) 4 0 rfl
      refine ⟨g, ops2, hrun, ?_⟩
      rcases hpost with ⟨hg, ho, hno⟩ | hsucc
      · refine Or.inl ⟨hg, ho, ?_⟩
        intro os v hev
        cases os with
        | nil => rw [hdrop] at hev; simp [evalFrom] at hev
        | cons o os =>
          have hev2 := hev
          rw [hdrop, evalFrom_cons] at hev2
          cases hstep : evalStep o w data[index] with
          | none => rw [hstep] at hev2; simp at hev2
          | some w2 =>
            obtain ⟨j, hj, rfl⟩ := evalStep_tag hstep
            exact hno j (by omega) hj os v hev
      · exact Or.inr hsucc

theorem computeTest_spec (lvl : Nat) (hlvl : lvl < 9) (data : List Int)
    (hpos : ∀ d ∈ data, 0 < d) (w : Int) (index : Nat) (ops : List Int) (h1 : 1 ≤ index)
    (h2 : index ≤ data.length) (h4 : data.length ≤ ops.length + 1) :
    ∃ g ops2, computeTest w index lvl data ops = Run.ret (g, ops2) ∧
      SearchPost lvl data index w ops g ops2 :=
  computeTestFuel_spec lvl hlvl data hpos (data.length + 1) w index ops h1 h2 (by omega) h4

/-! ### The loop of `main` on positive data -/

theorem SearchPost.length_eq {lvl : Nat} {data : List Int} {index : Nat} {w : Int}
    {ops ops2 : List Int} {g : Int} (h : SearchPost lvl data index w ops g ops2)
    (h1 : 1 ≤ index) (h2 : index ≤ data.length) (h4 : data.length ≤ ops.length + 1) :
    ops2.length = ops.length := by
  rcases h with ⟨_, rfl, _⟩ | ⟨_, _, os, hlen, _, _, rfl⟩
  · rfl
  · simp only [List.length_append, List.length_take, List.length_drop, hlen]
    omega

theorem evalExpr_eq (p : List Int) (hp : 1 ≤ p.length) (os : List Int) :
    evalExpr p os = evalFrom (p.getD 0 0) (p.drop 1) os := by
  cases p with
  | nil => simp at hp
  | cons c tl => simp [evalExpr]

theorem goalValue_mem (lvl : Nat) (hlvl : lvl < 9) (g : Int) (h0 : 0 ≤ g) (h3 : g < 3) :
    goalValue lvl g ∈ tierGoals lvl := by
  obtain ⟨g0, g1, g2, _, htier, hv0, hv1, hv2⟩ := goals_row lvl hlvl
  rw [htier]
  have : g = 0 ∨ g = 1 ∨ g = 2 := by omega
  rcases this with rfl | rfl | rfl
  · rw [hv0]; simp
  · rw [hv1]; simp
  · rw [hv2]; simp

theorem loopInv_of_post {lvl : Nat} {cur : List Int} {ops ops2 : List Int} {g : Int}
    (hlen : 1 ≤ cur.length)
    (h : SearchPost lvl cur 1 (cur.getD 0 0) ops g ops2) : LoopInv lvl cur g ops2 := by
  rcases h with ⟨hg, _, hno⟩ | ⟨h0, h3, os, hl, htags, hev, hops⟩
  · refine Or.inl ⟨hg, ?_⟩
    intro os v hev
    rw [evalExpr_eq cur hlen] at hev
    exact hno os v hev
  · refine Or.inr ⟨os, ⟨h0, h3, hl, htags, ?_⟩, ?_⟩
    · rw [evalExpr_eq cur hlen]; exact hev
    · rw [hops]
      simp only [Nat.sub_self, List.take_zero, List.nil_append]
      rw [List.take_append_of_le_length (by omega), List.take_of_length_le (by omega)]

/-- The loop of `main`: with a budget above the number of arrangements that
come after `cur`, it ends on an arrangement `fin` with a solution, every
earlier arrangement having none, or with `-1` and no arrangement having one. -/
theorem searchLoop_spec (lvl : Nat) (hlvl : lvl < 9) (data : List Int)
    (hpos : ∀ d ∈ data, 0 < d) (hlen : 1 ≤ data.length) :
    ∀ (fuel : Nat) (goal : Int) (cur ops : List Int), cur.Perm data →
      (later data cur).card < fuel → data.length ≤ ops.length + 1 →
      LoopInv lvl cur goal ops → (∀ p : List Int, p.Perm data → p < cur → NoSolution lvl p) →
      ∃ g fin ops2, searchLoop lvl fuel goal cur ops = Run.ret (g, fin, ops2) ∧
        fin.Perm data ∧ ops2.length = ops.length ∧
        (∀ p : List Int, p.Perm data → p < fin → NoSolution lvl p) ∧
        ((g = -1 ∧ ∀ p : List Int, p.Perm data → NoSolution lvl p) ∨
         (∃ os, Solves lvl fin os g ∧ ops2.take (data.length - 1) = os)) := by
  intro fuel
  induction fuel with
  | zero => intro goal cur ops _ h; omega
  | succ fuel ih =>
    intro goal cur ops hcur hfuel hops hinv hbefore
    simp only [searchLoop]
    have hcl : cur.length = data.length := hcur.length_eq
    by_cases hgoal : goal < 0
    · rw [if_pos hgoal]
      have hnocur : NoSolution lvl cur := by
        rcases hinv with ⟨_, h⟩ | ⟨os, ⟨h0, _⟩, _⟩
        · exact h
        · omega
      have hg1 : goal = -1 := by
        rcases hinv with ⟨h, _⟩ | ⟨os, ⟨h0, _⟩, _⟩
        · exact h
        · omega
      cases hnp : nextPermutation cur with
      | mk flag next =>
        cases flag with
        | false =>
          simp only
          have hfalse : (nextPermutation cur).1 = false := by rw [hnp]
          have hsnd : next = cur := by
            have := nextPermutation_false_snd cur hfalse
            rw [hnp] at this
            exact this
          subst hsnd
          have hanti := antitone_of_false next hfalse
          refine ⟨goal, next, ops, rfl, hcur, rfl, hbefore, Or.inl ⟨hg1, ?_⟩⟩
          intro p hp
          rcases lt_or_eq_of_le (le_of_perm_antitone next p hanti (hp.trans hcur.symm)) with h | h
          · exact hbefore p hp h
          · rw [h]; exact hnocur
        | true =>
          simp only
          have htrue : (nextPermutation cur).1 = true := by rw [hnp]
          have hnext : (nextPermutation cur).2 = next := by rw [hnp]
          obtain ⟨h1, h2, h3⟩ := nextPermutation_succ cur htrue
          rw [hnext] at h1 h2 h3
          have hmem := next_mem_later hcur htrue
          have hlater := later_next hcur htrue
          rw [hnext] at hmem hlater
          have hcard : (later data next).card + 1 = (later data cur).card := by
            rw [hlater, Finset.card_erase_of_mem hmem]
            have := Finset.card_pos.2 ⟨_, hmem⟩
            omega
          have hnd : next.Perm data := h1.trans hcur
          have hnl : next.length = data.length := hnd.length_eq
          obtain ⟨g, ops2, hrun, hpost⟩ := computeTest_spec lvl hlvl next
            (fun d hd => hpos d (hnd.subset hd)) (next.getD 0 0) 1 ops (le_refl 1)
            (by omega) (by omega)
          rw [hrun]
          simp only
          have hlen2 : ops2.length = ops.length :=
            hpost.length_eq (le_refl 1) (by omega) (by omega)
          obtain ⟨g3, fin, ops3, hr, hf1, hf2, hf3, hf4⟩ := ih g next ops2 hnd (by omega)
            (by omega) (loopInv_of_post (by omega) hpost) (by
              intro p hp hlt
              have hle : p ≤ cur := by
                by_contra hcon
                exact absurd (h3 p (hp.trans hcur.symm) (not_le.1 hcon)) (not_le.2 hlt)
              rcases lt_or_eq_of_le hle with h | h
              · exact hbefore p hp h
              · rw [h]; exact hnocur)
          exact ⟨g3, fin, ops3, hr, hf1, by omega, hf3, hf4⟩
    · rw [if_neg hgoal]
      refine ⟨goal, cur, ops, rfl, hcur, rfl, hbefore, ?_⟩
      rcases hinv with ⟨h, _⟩ | h
      · omega
      · rw [← hcl]; exact Or.inr h

/-! ### `computeTest` on arbitrary data -/

/-- The accumulator the `switch` hands on is the reference step's. -/
theorem opArg_sound {i : Nat} (hi : i < 4) {w d w2 : Int}
    (h : opArg i w d = Run.ret (some w2)) : evalStep (i : Int) w d = some w2 := by
  interval_cases i
  · simpa [opArg, evalStep] using h
  · simpa [opArg, evalStep] using h
  · simpa [opArg, evalStep] using h
  · simp only [opArg] at h
    split_ifs at h with h1 h2
    · have hd0 : d ≠ 0 := fun h0 => h1 (Or.inl h0)
      have hdiv : d ∣ w := Int.dvd_of_tmod_eq_zero h2
      have hw : w.tdiv d = w2 := by simpa using h
      rw [Int.tdiv_eq_ediv_of_dvd hdiv] at hw
      simp [evalStep, hd0, hdiv, hw]
    · simp at h

/-- The Divide branch calls `computeTest` only after `working % d == 0`. -/
theorem opArg_divide {w d w2 : Int} (h : opArg 3 w d = Run.ret (some w2)) :
    d ≠ 0 ∧ w.tmod d = 0 ∧ w2 = w.tdiv d := by
  simp only [opArg] at h
  split_ifs at h with h1 h2
  · exact ⟨fun h0 => h1 (Or.inl h0), h2, by simpa using h.symm⟩
  · simp at h

theorem opLoop_sound (lvl : Nat) (data : List Int) (index : Nat) (w d : Int)
    (call : Int → List Int → Run (Int × List Int)) (hlt : index < data.length)
    (hdrop : data.drop index = d :: data.drop (index + 1))
    (hcall : ∀ w2 ops g ops2, call w2 ops = Run.ret (g, ops2) →
      SoundPost lvl data (index + 1) w2 ops g ops2) :
    ∀ n i ops g ops2, i + n = 4 → opLoop call w d index n i (-1) ops = Run.ret (g, ops2) →
      SoundPost lvl data index w ops g ops2 := by
  intro n
  induction n with
  | zero =>
    intro i ops g ops2 _ h
    simp only [opLoop, Run.ret.injEq, Prod.mk.injEq] at h
    exact Or.inl ⟨h.1.symm, h.2.symm⟩
  | succ n ih =>
    intro i ops g ops2 hi h
    have hi4 : i < 4 := by omega
    simp only [opLoop] at h
    cases harg : opArg i w d with
    | fault => rw [harg] at h; simp at h
    | outOfFuel => rw [harg] at h; simp at h
    | ret a =>
      rw [harg] at h
      cases a with
      | none => exact ih (i + 1) ops g ops2 (by omega) h
      | some w2 =>
        simp only at h
        have hstep := opArg_sound hi4 harg
        cases hc : call w2 ops with
        | fault => rw [hc] at h; simp at h
        | outOfFuel => rw [hc] at h; simp at h
        | ret r =>
          obtain ⟨g2, ops3⟩ := r
          rw [hc] at h
          simp only at h
          rcases hcall w2 ops g2 ops3 hc with ⟨hg, ho⟩ | ⟨hg0, hg3, hl3, os, hlen, htags, hev, hops3⟩
          · subst hg ho
            rw [if_neg (by decide)] at h
            exact ih (i + 1) ops3 g ops2 (by omega) h
          · rw [if_pos hg0] at h
            simp only [writeOp] at h
            split_ifs at h with hw
            simp only [Run.ret.injEq, Prod.mk.injEq] at h
            obtain ⟨rfl, rfl⟩ := h
            obtain ⟨k, rfl⟩ : ∃ k, index = k + 1 := ⟨index - 1, by omega⟩
            have hk : k < ops.length := by
              have := hw.2
              rw [hl3] at this
              simpa using this
            refine Or.inr ⟨hg0, hg3, by simp [hl3], (i : Int) :: os, ?_, ?_, ?_, ?_⟩
            · simp only [List.length_cons, hlen]
              omega
            · intro o ho
              rcases List.mem_cons.1 ho with rfl | ho
              · omega
              · exact htags o ho
            · rw [hdrop, evalFrom_cons, hstep]
              exact hev
            · rw [hops3]
              simp only [Nat.add_sub_cancel]
              exact set_take_append ops os _ k _ hk

/-- Soundness of `computeTest` for arbitrary data: whatever it returns
meets `SoundPost`. -/
theorem computeTestFuel_sound (lvl : Nat) (data : List Int) :
    ∀ (fuel : Nat) (w : Int) (index : Nat) (ops : List Int) (g : Int) (ops2 : List Int),
      computeTestFuel lvl data fuel w index ops = Run.ret (g, ops2) →
      SoundPost lvl data index w ops g ops2 := by
  intro fuel
  induction fuel with
  | zero => intro w index ops g ops2 h; simp [computeTestFuel] at h
  | succ fuel ih =>
    intro w index ops g ops2 h
    simp only [computeTestFuel] at h
    by_cases hidx : index = data.length
    · rw [if_pos hidx] at h
      have hdrop : data.drop index = [] := by rw [hidx]; simp
      have hframe : ops = ops.take (index - 1) ++ [] ++ ops.drop (data.length - 1) := by
        rw [hidx]; simp
      have hlvl : lvl < 9 := by
        by_contra hcon
        have : goals[lvl]? = none := by
          apply List.getElem?_eq_none
          simp only [goals, List.length_cons, List.length_nil]
          omega
        rw [this] at h
        simp at h
      obtain ⟨g0, g1, g2, hrow, htier, hv0, hv1, hv2⟩ := goals_row lvl hlvl
      rw [hrow] at h
      simp only at h
      have hyes : ∀ g : Int, 0 ≤ g → g < 3 → w = goalValue lvl g →
          SoundPost lvl data index w ops g ops := by
        intro g a0 a1 a2
        refine Or.inr ⟨a0, a1, rfl, [], by rw [hidx]; simp, by simp, ?_, hframe⟩
        rw [hdrop, a2]
        rfl
      split_ifs at h with c0 c1 c2
      · simp only [Run.ret.injEq, Prod.mk.injEq] at h
        obtain ⟨rfl, rfl⟩ := h
        exact hyes 0 (by decide) (by decide) (by rw [hv0]; exact c0)
      · simp only [Run.ret.injEq, Prod.mk.injEq] at h
        obtain ⟨rfl, rfl⟩ := h
        exact hyes 1 (by decide) (by decide) (by rw [hv1]; exact c1)
      · simp only [Run.ret.injEq, Prod.mk.injEq] at h
        obtain ⟨rfl, rfl⟩ := h
        exact hyes 2 (by decide) (by decide) (by rw [hv2]; exact c2)
      · simp only [Run.ret.injEq, Prod.mk.injEq] at h
        obtain ⟨rfl, rfl⟩ := h
        exact Or.inl ⟨rfl, rfl⟩
    · rw [if_neg hidx] at h
      by_cases hlt : index < data.length
      · rw [List.getElem?_eq_getElem hlt] at h
        simp only at h
        exact opLoop_sound lvl data index w data[index]
          (fun w ops => computeTestFuel lvl data fuel w (index + 1) ops) hlt
          (List.drop_eq_getElem_cons hlt)
          (fun w2 ops g ops2 hc => ih w2 (index + 1) ops g ops2 hc) 4 0 ops g ops2 rfl h
      · rw [List.getElem?_eq_none (by omega)] at h
        simp at h

theorem soundPost_of_computeTest (lvl : Nat) (data : List Int) (w : Int) (index : Nat)
    (ops : List Int) (g : Int) (ops2 : List Int)
    (h : computeTest w index lvl data ops = Run.ret (g, ops2)) :
    SoundPost lvl data index w ops g ops2 :=
  computeTestFuel_sound lvl data (data.length + 1) w index ops g ops2 h

theorem computeTestFuel_ret_index (lvl : Nat) (data : List Int) (fuel : Nat) (w : Int)
    (index : Nat) (ops : List Int) (r : Int × List Int)
    (h : computeTestFuel lvl data fuel w index ops = Run.ret r) : index ≤ data.length := by
  cases fuel with
  | zero => simp [computeTestFuel] at h
  | succ fuel =>
    simp only [computeTestFuel] at h
    by_cases hidx : index = data.length
    · omega
    · rw [if_neg hidx] at h
      by_cases hlt : index < data.length
      · omega
      · rw [List.getElem?_eq_none (by omega)] at h
        simp at h

/-- A returned search of the arrangement `cur` leaves a solution behind
whenever its result is not negative. -/
theorem solves_of_computeTest {lvl : Nat} {cur ops ops2 : List Int} {g : Int}
    (h : computeTest (cur.getD 0 0) 1 lvl cur ops = Run.ret (g, ops2)) (hg : 0 ≤ g) :
    ∃ os, Solves lvl cur os g ∧ ops2.take (cur.length - 1) = os := by
  have hlen : 1 ≤ cur.length := computeTestFuel_ret_index _ _ _ _ _ _ _ h
  rcases soundPost_of_computeTest lvl cur _ 1 ops g ops2 h with ⟨hg1, _⟩ |
    ⟨h0, h3, _, os, hl, htags, hev, hops⟩
  · omega
  · refine ⟨os, ⟨h0, h3, hl, htags, ?_⟩, ?_⟩
    · rw [evalExpr_eq cur hlen]; exact hev
    · rw [hops]
      simp only [Nat.sub_self, List.take_zero, List.nil_append]
      rw [List.take_append_of_le_length (by omega), List.take_of_length_le (by omega)]

theorem nextPermutation_perm (cur : List Int) : (nextPermutation cur).2.Perm cur := by
  cases h : (nextPermutation cur).1 with
  | false => rw [nextPermutation_false_snd cur h]
  | true => exact (nextPermutation_succ cur h).1

theorem searchLoop_sound (lvl : Nat) :
    ∀ (fuel : Nat) (goal : Int) (cur ops : List Int) (g : Int) (fin ops2 : List Int),
      searchLoop lvl fuel goal cur ops = Run.ret (g, fin, ops2) →
      (0 ≤ goal → ∃ os, Solves lvl cur os goal ∧ ops.take (cur.length - 1) = os) →
      fin.Perm cur ∧ (0 ≤ g → ∃ os, Solves lvl fin os g ∧ ops2.take (fin.length - 1) = os) := by
  intro fuel
  induction fuel with
  | zero => intro goal cur ops g fin ops2 h; simp [searchLoop] at h
  | succ fuel ih =>
    intro goal cur ops g fin ops2 h hinv
    simp only [searchLoop] at h
    by_cases hgoal : goal < 0
    · rw [if_pos hgoal] at h
      have hperm := nextPermutation_perm cur
      cases hnp : nextPermutation cur with
      | mk flag next =>
        rw [hnp] at h hperm
        cases flag with
        | false =>
          simp only [Run.ret.injEq, Prod.mk.injEq] at h
          obtain ⟨rfl, rfl, rfl⟩ := h
          exact ⟨hperm, fun h0 => absurd hgoal (not_lt.2 h0)⟩
        | true =>
          simp only at h hperm
          cases hc : computeTest (next.getD 0 0) 1 lvl next ops with
          | fault => rw [hc] at h; simp at h
          | outOfFuel => rw [hc] at h; simp at h
          | ret r =>
            obtain ⟨g2, ops3⟩ := r
            rw [hc] at h
            simp only at h
            obtain ⟨h1, h2⟩ := ih g2 next ops3 g fin ops2 h (fun h0 => solves_of_computeTest hc h0)
            exact ⟨h1.trans hperm, h2⟩
    · rw [if_neg hgoal] at h
      simp only [Run.ret.injEq, Prod.mk.injEq] at h
      obtain ⟨rfl, rfl, rfl⟩ := h
      exact ⟨List.Perm.refl _, hinv⟩

/-! ### Sorting -/

theorem intCompare_le (a b : Int) : intCompare a b ≤ 0 ↔ a ≤ b := by
  unfold intCompare
  split_ifs with h1 h2
  · simp; omega
  · simp; omega
  · simp; omega

theorem qsort_perm (dice : List Int) : (qsort dice).Perm dice :=
  List.perm_insertionSort _ _

theorem qsort_sorted (dice : List Int) : (qsort dice).Pairwise (· ≤ ·) := by
  have key : ∀ l : List Int,
      (List.insertionSort (fun a b => intCompare a b ≤ 0) l).Pairwise (· ≤ ·) := by
    intro l
    induction l with
    | nil => simp
    | cons a l ih =>
      simp only [List.insertionSort]
      have h := List.Sorted.orderedInsert (r := fun a b : Int => a ≤ b) a _ ih
      have e : List.orderedInsert (fun a b => intCompare a b ≤ 0) a
          (List.insertionSort (fun a b => intCompare a b ≤ 0) l) =
          List.orderedInsert (fun a b : Int => a ≤ b) a
          (List.insertionSort (fun a b => intCompare a b ≤ 0) l) := by
        generalize List.insertionSort (fun a b => intCompare a b ≤ 0) l = s
        induction s with
        | nil => rfl
        | cons b s ihs =>
          simp only [List.orderedInsert, intCompare_le, ihs]
      rw [e]
      exact h
  exact key dice

theorem search_sound (lvl fuel : Nat) (dice ops : List Int) (g : Int) (fin ops2 : List Int)
    (h : search fuel dice lvl ops = Run.ret (g, fin, ops2)) :
    fin.Perm dice ∧ (0 ≤ g → ∃ os, Solves lvl fin os g ∧ ops2.take (fin.length - 1) = os) := by
  simp only [search] at h
  cases hc : computeTest ((qsort dice).getD 0 0) 1 lvl (qsort dice) ops with
  | fault => rw [hc] at h; simp at h
  | outOfFuel => rw [hc] at h; simp at h
  | ret r =>
    obtain ⟨g2, ops3⟩ := r
    rw [hc] at h
    simp only at h
    obtain ⟨h1, h2⟩ := searchLoop_sound lvl fuel g2 (qsort dice) ops3 g fin ops2 h
      (fun h0 => solves_of_computeTest hc h0)
    exact ⟨h1.trans (qsort_perm dice), h2⟩

theorem later_card_lt (data cur : List Int) (hcur : cur.Perm data) :
    (later data cur).card < data.length.factorial := by
  have h1 : later data cur ⊂ data.permutations.toFinset := by
    have hsub : later data cur ⊆ data.permutations.toFinset := Finset.filter_subset _ _
    rw [Finset.ssubset_iff_of_subset hsub]
    exact ⟨cur, by simpa using hcur, fun h => lt_irrefl _ (mem_later.1 h).2⟩
  have h2 := Finset.card_lt_card h1
  have h3 : data.permutations.toFinset.card ≤ data.length.factorial := by
    rw [← List.length_permutations]
    exact List.toFinset_card_le _
  omega

/-- Lines 106-114 of `main` on positive dice: the search returns, on an
arrangement with a solution that no earlier arrangement has, or with `-1`
when no arrangement has one. -/
theorem search_spec (lvl : Nat) (hlvl : lvl < 9) (dice : List Int)
    (hpos : ∀ d ∈ dice, 0 < d) (hlen : 1 ≤ dice.length) (fuel : Nat)
    (hfuel : dice.length.factorial ≤ fuel) (ops : List Int)
    (hops : dice.length ≤ ops.length + 1) :
    ∃ g fin ops2, search fuel dice lvl ops = Run.ret (g, fin, ops2) ∧
      fin.Perm dice ∧ ops2.length = ops.length ∧
      (∀ p : List Int, p.Perm dice → p < fin → NoSolution lvl p) ∧
      ((g = -1 ∧ ∀ p : List Int, p.Perm dice → NoSolution lvl p) ∨
       (∃ os, Solves lvl fin os g ∧ ops2.take (dice.length - 1) = os)) := by
  have hq := qsort_perm dice
  have hql : (qsort dice).length = dice.length := hq.length_eq
  obtain ⟨g, ops2, hrun, hpost⟩ := computeTest_spec lvl hlvl (qsort dice)
    (fun d hd => hpos d (hq.subset hd)) ((qsort dice).getD 0 0) 1 ops (le_refl 1)
    (by omega) (by omega)
  have hlen2 : ops2.length = ops.length := hpost.length_eq (le_refl 1) (by omega) (by omega)
  obtain ⟨g3, fin, ops3, hr, hf1, hf2, hf3, hf4⟩ := searchLoop_spec lvl hlvl dice hpos hlen fuel
    g (qsort dice) ops2 hq (lt_of_lt_of_le (later_card_lt dice _ hq) hfuel) (by omega)
    (loopInv_of_post (by omega) hpost) (by
      intro p hp hlt
      exact absurd (le_of_perm_sorted _ p (qsort_sorted dice) (hp.trans hq.symm)) (not_le.2 hlt))
  refine ⟨g3, fin, ops3, ?_, hf1, by omega, hf3, hf4⟩
  simp only [search, hrun]
  exact hr

/-! ### The text printed -/

theorem join_cons (a : String) (l : List String) : String.join (a :: l) = a ++ String.join l := by
  apply String.ext
  simp

theorem printResult_prefix (dice ops : List Int) (result : Int) :
    ∃ rest : String, printResult dice ops result = "Valid: " ++ fmtInt result ++ " = " ++ rest := by
  refine ⟨String.join (List.drop 3 (printResultChunks dice ops result)), ?_⟩
  simp only [printResult, printResultChunks, List.cons_append, List.nil_append, join_cons,
    List.drop_succ_cons, List.drop_zero, String.append_assoc]

theorem printResult_ne (dice ops : List Int) (result : Int) :
    printResult dice ops result ≠ "No valid result found!\n" := by
  obtain ⟨rest, h⟩ := printResult_prefix dice ops result
  rw [h]
  intro hcon
  have := congrArg String.data hcon
  simp only [String.data_append] at this
  exact absurd this (by simp)

theorem card_permutations_eq (data : List Int) :
    data.permutations.toFinset.card = permCount data := by
  have h := card_lists_mul data.length (data : Multiset Int) rfl
  rw [Multiset.lists_coe] at h
  have hprod : ∏ b ∈ (data : Multiset Int).toFinset, ((data : Multiset Int).count b).factorial =
      (data.dedup.map (fun v => (data.count v).factorial)).prod := by
    have e : data.toFinset = data.dedup.toFinset := by
      ext x
      simp
    rw [List.toFinset_coe, e, List.prod_toFinset _ (List.nodup_dedup data)]
    simp only [Multiset.coe_count]
  rw [hprod] at h
  unfold permCount
  rw [← h]
  apply (Nat.mul_div_cancel _ _).symm
  apply Nat.pos_of_ne_zero
  intro h0
  rw [h0, mul_zero] at h
  exact absurd h.symm (Nat.factorial_ne_zero _)

theorem later_sorted (data : List Int) (hs : data.Pairwise (· ≤ ·)) :
    (later data data).card + 1 = permCount data := by
  have h : later data data = data.permutations.toFinset.erase data := by
    ext p
    simp only [mem_later, Finset.mem_erase, List.mem_toFinset, List.mem_permutations]
    constructor
    · rintro ⟨hp, hlt⟩
      exact ⟨ne_of_gt hlt, hp⟩
    · rintro ⟨hne, hp⟩
      exact ⟨hp, lt_of_le_of_ne (le_of_perm_sorted data p hs hp) (Ne.symm hne)⟩
  have hmem : data ∈ data.permutations.toFinset := by simp
  rw [h, Finset.card_erase_of_mem hmem, ← card_permutations_eq]
  have := Finset.card_pos.2 ⟨_, hmem⟩
  omega

theorem evalStep_applyOp {o w d w2 : Int} (h : evalStep o w d = some w2) :
    applyOp o w d = w2 := by
  unfold evalStep at h
  unfold applyOp
  split_ifs at h ⊢ with h0 h1 h2 h3 h4
  · simpa using h
  · simpa using h
  · simpa using h
  · rw [Int.tdiv_eq_ediv_of_dvd h4.2]
    simpa using h

theorem evalFrom_divide : ∀ (ds os : List Int) (w v : Int) (tail : List Int) (j : Nat),
    evalFrom w ds os = some v → j < os.length → (os ++ tail).getD j 0 = 3 →
    ds.getD j 0 ≠ 0 ∧ (accBefore w ds (os ++ tail) j).tmod (ds.getD j 0) = 0 := by
  intro ds
  induction ds with
  | nil =>
    intro os w v tail j hev hj
    obtain ⟨rfl, _⟩ := evalFrom_nil w os v hev
    simp at hj
  | cons d ds ih =>
    intro os w v tail j hev hj h3
    cases os with
    | nil => simp at hj
    | cons o os =>
      rw [evalFrom_cons] at hev
      cases hstep : evalStep o w d with
      | none => rw [hstep] at hev; simp at hev
      | some w2 =>
        rw [hstep] at hev
        simp only [Option.some_bind] at hev
        cases j with
        | zero =>
          simp only [List.cons_append, List.getD_cons_zero] at h3
          subst h3
          simp only [evalStep] at hstep
          norm_num at hstep
          simp only [List.getD_cons_zero, accBefore, List.cons_append]
          exact ⟨hstep.1.1, Int.tmod_eq_zero_of_dvd hstep.1.2⟩
        | succ j =>
          simp only [List.cons_append, List.getD_cons_succ, accBefore] at h3 ⊢
          rw [evalStep_applyOp hstep]
          exact ih os w2 v tail j hev (by simpa using hj) h3

/-- The operator loop consults the recursive call only on the accumulators
that the `switch` hands over. -/
theorem opLoop_congr (call call2 : Int → List Int → Run (Int × List Int)) (w d : Int)
    (index : Nat)
    (h : ∀ i w2, opArg i w d = Run.ret (some w2) → ∀ o, call w2 o = call2 w2 o) :
    ∀ n i r ops, opLoop call w d index n i r ops = opLoop call2 w d index n i r ops := by
  intro n
  induction n with
  | zero => intro i r ops; rfl
  | succ n ih =>
    intro i r ops
    simp only [opLoop]
    cases harg : opArg i w d with
    | fault => rfl
    | outOfFuel => rfl
    | ret a =>
      cases a with
      | none => exact ih _ _ _
      | some w2 =>
        simp only [h i w2 harg ops]
        cases call2 w2 ops with
        | fault => rfl
        | outOfFuel => rfl
        | ret p =>
          obtain ⟨g, o⟩ := p
          simp only [ih]

theorem opArg_cases {i : Nat} {w d w2 : Int} (h : opArg i w d = Run.ret (some w2)) :
    w2 = wrapInt (w + d) ∨ w2 = wrapInt (w - d) ∨ w2 = wrapInt (w * d) ∨
      (d ≠ 0 ∧ w.tmod d = 0 ∧ w2 = w.tdiv d) := by
  match i, h with
  | 0, h => simp only [opArg, Run.ret.injEq, Option.some.injEq] at h; exact Or.inl h.symm
  | 1, h => simp only [opArg, Run.ret.injEq, Option.some.injEq] at h; exact Or.inr (Or.inl h.symm)
  | 2, h =>
    simp only [opArg, Run.ret.injEq, Option.some.injEq] at h
    exact Or.inr (Or.inr (Or.inl h.symm))
  | n + 3, h =>
    simp only [opArg] at h
    split_ifs at h with h1 h2
    · exact Or.inr (Or.inr (Or.inr ⟨fun h0 => h1 (Or.inl h0), h2, by simpa using h.symm⟩))
    · simp at h

/-! ### Budgets -/

/-- The operator loop runs out of budget only if a recursive call does. -/
theorem opLoop_ne_outOfFuel (call : Int → List Int → Run (Int × List Int)) (w d : Int)
    (index : Nat) (hcall : ∀ w2 o, call w2 o ≠ Run.outOfFuel) :
    ∀ n i r ops, opLoop call w d index n i r ops ≠ Run.outOfFuel := by
  intro n
  induction n with
  | zero => intro i r ops; simp [opLoop]
  | succ n ih =>
    intro i r ops
    simp only [opLoop]
    have harg : opArg i w d ≠ Run.outOfFuel := by
      unfold opArg
      split
      · simp
      · simp
      · simp
      · split_ifs <;> simp
    cases ha : opArg i w d with
    | fault => simp
    | outOfFuel => exact absurd ha harg
    | ret a =>
      cases a with
      | none => exact ih _ _ _
      | some w2 =>
        simp only
        cases hc : call w2 ops with
        | fault => simp
        | outOfFuel => exact absurd hc (hcall w2 ops)
        | ret p =>
          obtain ⟨g, o⟩ := p
          simp only
          split_ifs
          · simp only [writeOp]
            split_ifs <;> simp
          · exact ih _ _ _

/-- A call of `computeTest` at `index` needs a budget of at most
`length - index + 1` nested calls. -/
theorem computeTestFuel_ne_outOfFuel (lvl : Nat) (data : List Int) :
    ∀ (fuel : Nat) (w : Int) (index : Nat) (ops : List Int), 1 ≤ fuel →
      data.length < fuel + index → computeTestFuel lvl data fuel w index ops ≠ Run.outOfFuel := by
  intro fuel
  induction fuel with
  | zero => intro w index ops h; omega
  | succ fuel ih =>
    intro w index ops _ hlen
    simp only [computeTestFuel]
    by_cases hidx : index = data.length
    · rw [if_pos hidx]
      split
      · split_ifs <;> simp
      · simp
    · rw [if_neg hidx]
      by_cases hlt : index < data.length
      · rw [List.getElem?_eq_getElem hlt]
        simp only
        exact opLoop_ne_outOfFuel _ w _ index
          (fun w2 o => ih w2 (index + 1) o (by omega) (by omega)) 4 0 (-1) ops
      · rw [List.getElem?_eq_none (by omega)]
        simp

/-- The budget that `computeTest` gives itself is never used up. -/
theorem computeTest_ne_outOfFuel (w : Int) (index lvl : Nat) (data ops : List Int) :
    computeTest w index lvl data ops ≠ Run.outOfFuel :=
  computeTestFuel_ne_outOfFuel lvl data (data.length + 1) w index ops (by omega) (by omega)

/-- The loop of `main` ends, normally or on a fault, within a budget above
the number of arrangements that come after `cur`. -/
theorem searchLoop_ne_outOfFuel (lvl : Nat) (data : List Int) :
    ∀ (fuel : Nat) (goal : Int) (cur ops : List Int), cur.Perm data →
      (later data cur).card < fuel → searchLoop lvl fuel goal cur ops ≠ Run.outOfFuel := by
  intro fuel
  induction fuel with
  | zero => intro goal cur ops _ h; omega
  | succ fuel ih =>
    intro goal cur ops hcur hfuel
    simp only [searchLoop]
    split_ifs with hgoal
    · cases hnp : nextPermutation cur with
      | mk flag next =>
        cases flag with
        | false => simp
        | true =>
          simp only
          have htrue : (nextPermutation cur).1 = true := by rw [hnp]
          have hnext : (nextPermutation cur).2 = next := by rw [hnp]
          have hperm := (nextPermutation_succ cur htrue).1
          have hmem := next_mem_later hcur htrue
          have hlater := later_next hcur htrue
          rw [hnext] at hmem hlater hperm
          have hcard : (later data next).card + 1 = (later data cur).card := by
            rw [hlater, Finset.card_erase_of_mem hmem]
            have := Finset.card_pos.2 ⟨_, hmem⟩
            omega
          cases hc : computeTest (next.getD 0 0) 1 lvl next ops with
          | fault => simp
          | outOfFuel => exact absurd hc (computeTest_ne_outOfFuel _ _ _ _ _)
          | ret p =>
            obtain ⟨g, o⟩ := p
            simp only
            exact ih g next o (hperm.trans hcur) (by omega)
    · simp

/-- Lines 106-121 of `main` end, normally or on a fault, within a budget of
`N!` evaluations of the loop condition, whatever the dice. -/
theorem solve_ne_outOfFuel (fuel : Nat) (dice : List Int) (lvl : Nat)
    (hfuel : dice.length.factorial ≤ fuel) : solve fuel dice lvl ≠ Run.outOfFuel := by
  simp only [solve, search]
  cases hc : computeTest ((qsort dice).getD 0 0) 1 lvl (qsort dice) opsInit with
  | fault => simp
  | outOfFuel => exact absurd hc (computeTest_ne_outOfFuel _ _ _ _ _)
  | ret p =>
    obtain ⟨g, o⟩ := p
    simp only
    have h := searchLoop_ne_outOfFuel lvl dice fuel g (qsort dice) o (qsort_perm dice)
      (lt_of_lt_of_le (later_card_lt dice _ (qsort_perm dice)) hfuel)
    cases hs : searchLoop lvl fuel g (qsort dice) o with
    | fault => simp
    | outOfFuel => exact absurd hs h
    | ret r => simp

theorem slice_of_post {ops ops2 os : List Int} {index n : Nat}
    (hlen : ops2.length = ops.length) (hl : os.length = n - index)
    (hops : ops2 = ops.take (index - 1) ++ os ++ ops.drop (n - 1)) :
    (ops2.drop (index - 1)).take (n - index) = os := by
  by_cases hos : os.length = 0
  · have : os = [] := List.length_eq_zero.1 hos
    rw [← hl, hos, this]
    simp
  · have hlen2 := hlen
    rw [hops] at hlen2
    simp only [List.length_append, List.length_take, List.length_drop] at hlen2
    have htake : (ops.take (index - 1)).length = index - 1 := by
      simp only [List.length_take]
      omega
    rw [hops, List.append_assoc, List.drop_left' htake, ← hl, List.take_left']
    rfl

/-! ### Budget independence and the frame of `ops` -/

/-- Any two budgets that cover the nesting give the same result. -/
theorem computeTestFuel_fuel (lvl : Nat) (data : List Int) :
    ∀ (fuel fuel2 : Nat) (w : Int) (index : Nat) (ops : List Int), 1 ≤ fuel → 1 ≤ fuel2 →
      data.length < fuel + index → data.length < fuel2 + index →
      computeTestFuel lvl data fuel w index ops = computeTestFuel lvl data fuel2 w index ops := by
  intro fuel
  induction fuel with
  | zero => intro fuel2 w index ops h; omega
  | succ fuel ih =>
    intro fuel2 w index ops _ h2 hl1 hl2
    obtain ⟨f2, rfl⟩ : ∃ f2, fuel2 = f2 + 1 := ⟨fuel2 - 1, by omega⟩
    simp only [computeTestFuel]
    by_cases hidx : index = data.length
    · rw [if_pos hidx, if_pos hidx]
    · rw [if_neg hidx, if_neg hidx]
      by_cases hlt : index < data.length
      · rw [List.getElem?_eq_getElem hlt]
        simp only
        exact opLoop_congr _ _ w _ index
          (fun i w2 _ o => ih f2 w2 (index + 1) o (by omega) (by omega) (by omega) (by omega))
          4 0 (-1) ops
      · rw [List.getElem?_eq_none (by omega)]

theorem getElem?_frame (ops os : List Int) (a b i : Nat)
    (hlen : (ops.take a ++ os ++ ops.drop b).length = ops.length) (hos : a + os.length = b ∨ os = [])
    (hi : i < a ∨ b ≤ i) : (ops.take a ++ os ++ ops.drop b)[i]? = ops[i]? := by
  simp only [List.length_append, List.length_take, List.length_drop] at hlen
  rcases hi with hi | hi
  · by_cases hia : i < ops.length
    · rw [List.append_assoc, List.getElem?_append_left (by simp; omega),
        List.getElem?_take_of_lt hi]
    · have h1 : (ops.take a ++ os ++ ops.drop b).length ≤ i := by
        simp only [List.length_append, List.length_take, List.length_drop]
        omega
      rw [List.getElem?_eq_none h1, List.getElem?_eq_none (by omega)]
  · by_cases hib : i < ops.length
    · have hl : (ops.take a ++ os).length ≤ i := by
        simp only [List.length_append, List.length_take]
        rcases hos with h | h
        · omega
        · subst h
          simp only [List.length_nil] at hlen ⊢
          omega
      rw [List.getElem?_append_right hl, List.getElem?_drop]
      congr 1
      simp only [List.length_append, List.length_take]
      rcases hos with h | h
      · omega
      · subst h
        simp only [List.length_nil] at hlen ⊢
        omega
    · have h1 : (ops.take a ++ os ++ ops.drop b).length ≤ i := by
        simp only [List.length_append, List.length_take, List.length_drop]
        omega
      rw [List.getElem?_eq_none h1, List.getElem?_eq_none (by omega)]

/-! ### First success is least: `computeTest` on arbitrary data -/

/-- A pruned Divide branch is an inexact division. -/
theorem opArg_none {i : Nat} (hi : i < 4) {w d : Int} (h : opArg i w d = Run.ret none) :
    evalStep (i : Int) w d = none := by
  interval_cases i
  · simp [opArg] at h
  · simp [opArg] at h
  · simp [opArg] at h
  · simp only [opArg] at h
    split_ifs at h with h1 h2
    · simp at h
    · have hdiv : ¬ d ∣ w := fun hd => h2 (Int.tmod_eq_zero_of_dvd hd)
      simp [evalStep, hdiv]

theorem opLoop_least (lvl : Nat) (data : List Int) (index : Nat) (w d : Int)
    (call : Int → List Int → Run (Int × List Int)) (hlt : index < data.length)
    (hdrop : data.drop index = d :: data.drop (index + 1))
    (hcall : ∀ w2 ops g ops2, call w2 ops = Run.ret (g, ops2) →
      LeastPost lvl data (index + 1) w2 ops g ops2) :
    ∀ n i ops g ops2, i + n = 4 →
      (∀ j : Nat, j < i → ∀ os v,
        evalFrom w (data.drop index) ((j : Int) :: os) = some v → v ∉ tierGoals lvl) →
      opLoop call w d index n i (-1) ops = Run.ret (g, ops2) →
      LeastPost lvl data index w ops g ops2 := by
  intro n
  induction n with
  | zero =>
    intro i ops g ops2 hi hprev h
    simp only [opLoop, Run.ret.injEq, Prod.mk.injEq] at h
    refine Or.inl ⟨h.1.symm, h.2.symm, ?_⟩
    intro os v hev
    cases os with
    | nil => rw [hdrop] at hev; simp [evalFrom] at hev
    | cons o os =>
      have hev2 := hev
      rw [hdrop, evalFrom_cons] at hev2
      cases hstep : evalStep o w d with
      | none => rw [hstep] at hev2; simp at hev2
      | some w2 =>
        obtain ⟨j, hj, rfl⟩ := evalStep_tag hstep
        exact hprev j (by omega) os v hev
  | succ n ih =>
    intro i ops g ops2 hi hprev h
    have hi4 : i < 4 := by omega
    simp only [opLoop] at h
    cases harg : opArg i w d with
    | fault => rw [harg] at h; simp at h
    | outOfFuel => rw [harg] at h; simp at h
    | ret a =>
      rw [harg] at h
      cases a with
      | none =>
        have hstep := opArg_none hi4 harg
        refine ih (i + 1) ops g ops2 (by omega) ?_ h
        intro j hj os v hev
        by_cases hji : j = i
        · subst hji
          rw [hdrop, evalFrom_cons, hstep] at hev
          simp at hev
        · exact hprev j (by omega) os v hev
      | some w2 =>
        simp only at h
        have hstep := opArg_sound hi4 harg
        cases hc : call w2 ops with
        | fault => rw [hc] at h; simp at h
        | outOfFuel => rw [hc] at h; simp at h
        | ret r =>
          obtain ⟨g2, ops3⟩ := r
          rw [hc] at h
          simp only at h
          rcases hcall w2 ops g2 ops3 hc with ⟨hg, ho, hno⟩ |
            ⟨hg0, hg3, hl3, os, hlen, htags, hev, hops3, hleast⟩
          · subst hg ho
            rw [if_neg (by decide)] at h
            refine ih (i + 1) ops3 g ops2 (by omega) ?_ h
            intro j hj os v hev
            by_cases hji : j = i
            · subst hji
              rw [hdrop, evalFrom_cons, hstep] at hev
              exact hno os v hev
            · exact hprev j (by omega) os v hev
          · rw [if_pos hg0] at h
            simp only [writeOp] at h
            split_ifs at h with hw
            simp only [Run.ret.injEq, Prod.mk.injEq] at h
            obtain ⟨rfl, rfl⟩ := h
            obtain ⟨k, rfl⟩ : ∃ k, index = k + 1 := ⟨index - 1, by omega⟩
            have hk : k < ops.length := by
              have := hw.2
              rw [hl3] at this
              simpa using this
            refine Or.inr ⟨hg0, hg3, by simp [hl3], (i : Int) :: os, ?_, ?_, ?_, ?_, ?_⟩
            · simp only [List.length_cons, hlen]
              omega
            · intro o ho
              rcases List.mem_cons.1 ho with rfl | ho
              · omega
              · exact htags o ho
            · rw [hdrop, evalFrom_cons, hstep]
              exact hev
            · rw [hops3]
              simp only [Nat.add_sub_cancel]
              exact set_take_append ops os _ k _ hk
            · intro os2 v hev2 hv
              cases os2 with
              | nil => rw [hdrop] at hev2; simp [evalFrom] at hev2
              | cons o os2 =>
                have hev3 := hev2
                rw [hdrop, evalFrom_cons] at hev3
                cases hstep2 : evalStep o w d with
                | none => rw [hstep2] at hev3; simp at hev3
                | some w3 =>
                  obtain ⟨j, hj, rfl⟩ := evalStep_tag hstep2
                  rw [hstep2] at hev3
                  simp only [Option.some_bind] at hev3
                  rcases Nat.lt_trichotomy j i with hji | hji | hji
                  · exact absurd hv (hprev j hji os2 v hev2)
                  · subst hji
                    rw [hstep] at hstep2
                    obtain rfl : w2 = w3 := by simpa using hstep2
                    exact List.cons_le_cons _ (hleast os2 v hev3 hv)
                  · exact le_of_lt ((cons_lt_cons_iff _ _ _ _).2
                      (Or.inl (by exact_mod_cast hji)))

/-- Whatever `computeTest` returns meets `LeastPost`. -/
theorem computeTestFuel_least (lvl : Nat) (data : List Int) :
    ∀ (fuel : Nat) (w : Int) (index : Nat) (ops : List Int) (g : Int) (ops2 : List Int),
      computeTestFuel lvl data fuel w index ops = Run.ret (g, ops2) →
      LeastPost lvl data index w ops g ops2 := by
  intro fuel
  induction fuel with
  | zero => intro w index ops g ops2 h; simp [computeTestFuel] at h
  | succ fuel ih =>
    intro w index ops g ops2 h
    simp only [computeTestFuel] at h
    by_cases hidx : index = data.length
    · rw [if_pos hidx] at h
      have hdrop : data.drop index = [] := by rw [hidx]; simp
      have hframe : ops = ops.take (index - 1) ++ [] ++ ops.drop (data.length - 1) := by
        rw [hidx]; simp
      have hlvl : lvl < 9 := by
        by_contra hcon
        have : goals[lvl]? = none := by
          apply List.getElem?_eq_none
          simp only [goals, List.length_cons, List.length_nil]
          omega
        rw [this] at h
        simp at h
      obtain ⟨g0, g1, g2, hrow, htier, hv0, hv1, hv2⟩ := goals_row lvl hlvl
      rw [hrow] at h
      simp only at h
      have hyes : ∀ g : Int, 0 ≤ g → g < 3 → w = goalValue lvl g →
          LeastPost lvl data index w ops g ops := by
        intro g a0 a1 a2
        refine Or.inr ⟨a0, a1, rfl, [], by rw [hidx]; simp, by simp, ?_, hframe, ?_⟩
        · rw [hdrop, a2]
          rfl
        · intro os2 v hev _
          rw [hdrop] at hev
          rw [(evalFrom_nil w os2 v hev).1]
      split_ifs at h with c0 c1 c2
      · simp only [Run.ret.injEq, Prod.mk.injEq] at h
        obtain ⟨rfl, rfl⟩ := h
        exact hyes 0 (by decide) (by decide) (by rw [hv0]; exact c0)
      · simp only [Run.ret.injEq, Prod.mk.injEq] at h
        obtain ⟨rfl, rfl⟩ := h
        exact hyes 1 (by decide) (by decide) (by rw [hv1]; exact c1)
      · simp only [Run.ret.injEq, Prod.mk.injEq] at h
        obtain ⟨rfl, rfl⟩ := h
        exact hyes 2 (by decide) (by decide) (by rw [hv2]; exact c2)
      · simp only [Run.ret.injEq, Prod.mk.injEq] at h
        obtain ⟨rfl, rfl⟩ := h
        refine Or.inl ⟨rfl, rfl, ?_⟩
        intro os v hev
        rw [hdrop] at hev
        obtain ⟨_, rfl⟩ := evalFrom_nil w os v hev
        rw [htier]
        simp [c0, c1, c2]
    · rw [if_neg hidx] at h
      by_cases hlt : index < data.length
      · rw [List.getElem?_eq_getElem hlt] at h
        simp only at h
        exact opLoop_least lvl data index w data[index]
          (fun w ops => computeTestFuel lvl data fuel w (index + 1) ops) hlt
          (List.drop_eq_getElem_cons hlt)
          (fun w2 ops g ops2 hc => ih w2 (index + 1) ops g ops2 hc) 4 0 ops g ops2 rfl
          (fun j hj => by omega) h
      · rw [List.getElem?_eq_none (by omega)] at h
        simp at h

/-- A returned search of the arrangement `cur` with a negative result means
that `cur` has no solution. -/
theorem noSolution_of_computeTest {lvl : Nat} {cur ops ops2 : List Int} {g : Int}
    (h : computeTest (cur.getD 0 0) 1 lvl cur ops = Run.ret (g, ops2)) (hg : g < 0) :
    NoSolution lvl cur := by
  have hlen : 1 ≤ cur.length := computeTestFuel_ret_index _ _ _ _ _ _ _ h
  rcases computeTestFuel_least lvl cur _ _ 1 ops g ops2 h with ⟨_, _, hno⟩ | ⟨h0, _⟩
  · intro os v hev
    rw [evalExpr_eq cur hlen] at hev
    exact hno os v hev
  · omega

/-- When the loop of `main` returns, no arrangement before the final one
has a solution, and none at all has one if the result is negative. -/
theorem searchLoop_least (lvl : Nat) (data : List Int) :
    ∀ (fuel : Nat) (goal : Int) (cur ops : List Int) (g : Int) (fin ops2 : List Int),
      searchLoop lvl fuel goal cur ops = Run.ret (g, fin, ops2) → cur.Perm data →
      (goal < 0 → NoSolution lvl cur) →
      (∀ p : List Int, p.Perm data → p < cur → NoSolution lvl p) →
      (∀ p : List Int, p.Perm data → p < fin → NoSolution lvl p) ∧
      (g < 0 → ∀ p : List Int, p.Perm data → NoSolution lvl p) := by
  intro fuel
  induction fuel with
  | zero => intro goal cur ops g fin ops2 h; simp [searchLoop] at h
  | succ fuel ih =>
    intro goal cur ops g fin ops2 h hcur hinv hbefore
    simp only [searchLoop] at h
    by_cases hgoal : goal < 0
    · rw [if_pos hgoal] at h
      have hnocur := hinv hgoal
      cases hnp : nextPermutation cur with
      | mk flag next =>
        rw [hnp] at h
        cases flag with
        | false =>
          simp only [Run.ret.injEq, Prod.mk.injEq] at h
          obtain ⟨rfl, rfl, rfl⟩ := h
          have hfalse : (nextPermutation cur).1 = false := by rw [hnp]
          have hsnd : next = cur := by
            have := nextPermutation_false_snd cur hfalse
            rw [hnp] at this
            exact this
          subst hsnd
          have hanti := antitone_of_false next hfalse
          refine ⟨hbefore, fun _ p hp => ?_⟩
          rcases lt_or_eq_of_le (le_of_perm_antitone next p hanti (hp.trans hcur.symm)) with h | h
          · exact hbefore p hp h
          · rw [h]; exact hnocur
        | true =>
          simp only at h
          have htrue : (nextPermutation cur).1 = true := by rw [hnp]
          have hnext : (nextPermutation cur).2 = next := by rw [hnp]
          obtain ⟨h1, h2, h3⟩ := nextPermutation_succ cur htrue
          rw [hnext] at h1 h2 h3
          cases hc : computeTest (next.getD 0 0) 1 lvl next ops with
          | fault => rw [hc] at h; simp at h
          | outOfFuel => rw [hc] at h; simp at h
          | ret r =>
            obtain ⟨g2, ops3⟩ := r
            rw [hc] at h
            simp only at h
            refine ih g2 next ops3 g fin ops2 h (h1.trans hcur)
              (fun hg2 => noSolution_of_computeTest hc hg2) ?_
            intro p hp hlt
            have hle : p ≤ cur := by
              by_contra hcon
              exact absurd (h3 p (hp.trans hcur.symm) (not_le.1 hcon)) (not_le.2 hlt)
            rcases lt_or_eq_of_le hle with h | h
            · exact hbefore p hp h
            · rw [h]; exact hnocur
    · rw [if_neg hgoal] at h
      simp only [Run.ret.injEq, Prod.mk.injEq] at h
      obtain ⟨rfl, rfl, rfl⟩ := h
      exact ⟨hbefore, fun hg => absurd hg hgoal⟩

theorem search_least (lvl fuel : Nat) (dice ops : List Int) (g : Int) (fin ops2 : List Int)
    (h : search fuel dice lvl ops = Run.ret (g, fin, ops2)) :
    (∀ p : List Int, p.Perm dice → p < fin → NoSolution lvl p) ∧
    (g < 0 → ∀ p : List Int, p.Perm dice → NoSolution lvl p) := by
  simp only [search] at h
  cases hc : computeTest ((qsort dice).getD 0 0) 1 lvl (qsort dice) ops with
  | fault => rw [hc] at h; simp at h
  | outOfFuel => rw [hc] at h; simp at h
  | ret r =>
    obtain ⟨g2, ops3⟩ := r
    rw [hc] at h
    simp only at h
    refine searchLoop_least lvl dice fuel g2 (qsort dice) ops3 g fin ops2 h (qsort_perm dice)
      (fun hg2 => noSolution_of_computeTest hc hg2) ?_
    intro p hp hlt
    exact absurd (le_of_perm_sorted _ p (qsort_sorted dice) (hp.trans (qsort_perm dice).symm))
      (not_le.2 hlt)

/-! ### The pieces of the printed expression -/

theorem opText_eq (op : Int) : opText op = (opPieces op).map Piece.text := by
  unfold opText opPieces
  split_ifs <;> rfl

/-- The pieces are the chunks of `printResult`, integers not yet formatted. -/
theorem printResultChunks_eq (dice ops : List Int) (result : Int) :
    printResultChunks dice ops result = (printResultPieces dice ops result).map Piece.text := by
  simp only [printResultChunks, printResultPieces, List.map_append, List.map_cons, List.map_nil,
    List.map_flatMap, Piece.text, opText_eq]
  congr 3
  · congr 1
    congr 1
    funext i
    split_ifs <;> rfl
  · funext j
    congr 2
    split_ifs <;> rfl

theorem getD_succ_tail (ops : List Int) (i : Nat) : ops.getD (i + 1) 0 = ops.tail.getD i 0 := by
  cases ops <;> simp

theorem getD_zero_headD (ops : List Int) : ops.getD 0 0 = ops.headD 0 := by
  cases ops <;> simp

theorem opens_eq (x : Piece) : ∀ (n : Nat) (ops : List Int),
    (List.range n).flatMap
      (fun i => if ops.getD i 0 < 2 ∧ ops.getD (i + 1) 0 ≥ 2 then [x] else []) =
    List.replicate (transitions n ops) x := by
  intro n
  induction n with
  | zero => intro ops; rfl
  | succ n ih =>
    intro ops
    rw [List.range_succ_eq_map, List.flatMap_cons, List.flatMap_map, transitions,
      List.replicate_add, ← ih ops.tail]
    congr 1
    · rw [getD_zero_headD, getD_succ_tail, getD_zero_headD]
      split_ifs <;> rfl
    · congr 1
      funext i
      simp only [Function.comp, getD_succ_tail, Nat.succ_eq_add_one]

theorem body_eq : ∀ (ds ops : List Int),
    (List.range ds.length).flatMap
      (fun j => opPieces (ops.getD j 0) ++ [Piece.int (ds.getD j 0)]
        ++ (if ops.getD j 0 < 2 ∧ ops.getD (j + 1) 0 ≥ 2 then [Piece.lit ")"] else [])
        ++ [Piece.lit " "]) =
    tailPieces ds ops := by
  intro ds
  induction ds with
  | nil => intro ops; rfl
  | cons d ds ih =>
    intro ops
    rw [List.length_cons, List.range_succ_eq_map, List.flatMap_cons, List.flatMap_map, tailPieces,
      ← ih ops.tail]
    simp only [getD_zero_headD, getD_succ_tail, List.getD_cons_zero, List.append_assoc]
    congr 4

/-- The output of `printResult` by the rule of `transitions` and
`tailPieces`. -/
theorem printResultPieces_cons (d0 : Int) (ds ops : List Int) (result : Int) :
    printResultPieces (d0 :: ds) ops result =
      [Piece.lit "Valid: ", Piece.int result, Piece.lit " = "]
      ++ List.replicate (transitions ds.length ops) (Piece.lit "(")
      ++ [Piece.int d0, Piece.lit " "] ++ tailPieces ds ops ++ [Piece.lit "\n"] := by
  simp only [printResultPieces, List.length_cons, Nat.add_sub_cancel, opens_eq,
    List.getD_cons_zero, List.getD_cons_succ]
  rw [body_eq ds ops]

theorem count_close_tailPieces : ∀ (ds ops : List Int),
    (tailPieces ds ops).count (Piece.lit ")") = transitions ds.length ops := by
  intro ds
  induction ds with
  | nil => intro ops; rfl
  | cons d ds ih =>
    intro ops
    simp only [tailPieces, List.length_cons, transitions, List.count_append, ih ops.tail]
    have h1 : (opPieces (ops.headD 0)).count (Piece.lit ")") = 0 := by
      unfold opPieces
      split_ifs <;> decide
    have h2 : ([Piece.int d] : List Piece).count (Piece.lit ")") = 0 := by
      simp
    have h3 : ([Piece.lit " "] : List Piece).count (Piece.lit ")") = 0 := by decide
    rw [h1, h2, h3]
    split_ifs
    · simp
    · simp

theorem count_open_tailPieces : ∀ (ds ops : List Int),
    (tailPieces ds ops).count (Piece.lit "(") = 0 := by
  intro ds
  induction ds with
  | nil => intro ops; rfl
  | cons d ds ih =>
    intro ops
    simp only [tailPieces, List.count_append, ih ops.tail]
    have h1 : (opPieces (ops.headD 0)).count (Piece.lit "(") = 0 := by
      unfold opPieces
      split_ifs <;> decide
    have h2 : ([Piece.int d] : List Piece).count (Piece.lit "(") = 0 := by
      simp
    have h3 : ([Piece.lit " "] : List Piece).count (Piece.lit "(") = 0 := by decide
    rw [h1, h2, h3]
    split_ifs
    · decide
    · simp

/-! ### The tokens of the printed expression and their conventional value -/

theorem lex_opPieces (o : Int) (h0 : 0 ≤ o) (h3 : o ≤ 3) :
    (opPieces o).flatMap lexPiece = [Tok.op o] := by
  have : o = 0 ∨ o = 1 ∨ o = 2 ∨ o = 3 := by omega
  rcases this with rfl | rfl | rfl | rfl <;> decide

theorem lex_tailPieces : ∀ (ds ops : List Int),
    (∀ i, i < ds.length → 0 ≤ ops.getD i 0 ∧ ops.getD i 0 ≤ 3) →
    (tailPieces ds ops).flatMap lexPiece = tailToks ds ops := by
  intro ds
  induction ds with
  | nil => intro ops _; rfl
  | cons d ds ih =>
    intro ops htags
    have h0 := htags 0 (by simp)
    rw [getD_zero_headD] at h0
    have ht : ∀ i, i < ds.length → 0 ≤ ops.tail.getD i 0 ∧ ops.tail.getD i 0 ≤ 3 := by
      intro i hi
      rw [← getD_succ_tail]
      exact htags (i + 1) (by simpa using hi)
    simp only [tailPieces, tailToks, List.flatMap_append, lex_opPieces _ h0.1 h0.2, ih ops.tail ht]
    have e1 : ([Piece.int d] : List Piece).flatMap lexPiece = [Tok.num d] := by
      simp [lexPiece]
    have e2 : ([Piece.lit " "] : List Piece).flatMap lexPiece = [] := by decide
    rw [e1, e2]
    split_ifs
    · have e3 : ([Piece.lit ")"] : List Piece).flatMap lexPiece = [Tok.rparen] := by decide
      rw [e3]
      simp
    · simp

/-- Operator tags that lead to a value are tags in 0..3. -/
theorem evalFrom_tags : ∀ (ds ops : List Int) (acc v : Int),
    evalFrom acc ds (ops.take ds.length) = some v →
    ∀ i, i < ds.length → 0 ≤ ops.getD i 0 ∧ ops.getD i 0 ≤ 3 := by
  intro ds
  induction ds with
  | nil => intro ops acc v _ i hi; simp at hi
  | cons d ds ih =>
    intro ops acc v hev i hi
    cases ops with
    | nil => simp [evalFrom] at hev
    | cons o os =>
      simp only [List.length_cons, List.take_succ_cons] at hev
      rw [evalFrom_cons] at hev
      cases hstep : evalStep o acc d with
      | none => rw [hstep] at hev; simp at hev
      | some acc2 =>
        rw [hstep] at hev
        simp only [Option.some_bind] at hev
        cases i with
        | zero =>
          obtain ⟨j, hj, rfl⟩ := evalStep_tag hstep
          simp only [List.getD_cons_zero]
          omega
        | succ i =>
          simp only [List.getD_cons_succ]
          exact ih os acc2 v hev i (by simpa using hi)

/-- The tokens of the printed expression. -/
theorem exprTokens_cons (d0 : Int) (ds ops : List Int) (result : Int)
    (htags : ∀ i, i < ds.length → 0 ≤ ops.getD i 0 ∧ ops.getD i 0 ≤ 3) :
    exprTokens (d0 :: ds) ops result =
      List.replicate (transitions ds.length ops) Tok.lparen ++ Tok.num d0 :: tailToks ds ops := by
  have hrep : ∀ n : Nat, (List.replicate n (Piece.lit "(")).flatMap lexPiece =
      List.replicate n Tok.lparen := by
    intro n
    induction n with
    | zero => rfl
    | succ n ih =>
      rw [List.replicate_succ, List.flatMap_cons, ih]
      rfl
  have e1 : ([Piece.int d0, Piece.lit " "] : List Piece).flatMap lexPiece = [Tok.num d0] := by
    simp [lexPiece]
  have e2 : ([Piece.lit "\n"] : List Piece).flatMap lexPiece = [] := by decide
  simp only [exprTokens, printResultPieces_cons, List.cons_append, List.nil_append,
    List.drop_succ_cons, List.drop_zero, List.flatMap_append, hrep, lex_tailPieces ds ops htags]
  rw [e1, e2]
  simp

theorem count_lparen_tailToks : ∀ (ds ops : List Int),
    (tailToks ds ops).count Tok.lparen = 0 := by
  intro ds
  induction ds with
  | nil => intro ops; rfl
  | cons d ds ih =>
    intro ops
    simp only [tailToks, List.count_append, ih ops.tail]
    split_ifs <;> simp

theorem count_rparen_tailToks : ∀ (ds ops : List Int),
    (tailToks ds ops).count Tok.rparen = transitions ds.length ops := by
  intro ds
  induction ds with
  | nil => intro ops; rfl
  | cons d ds ih =>
    intro ops
    simp only [tailToks, List.length_cons, transitions, List.count_append, ih ops.tail]
    split_ifs <;> simp

/-- Parentheses of the printed expression balance, and no prefix closes
more than it opens. -/
theorem balanced_shape (k : Nat) (d0 : Int) (rest : List Tok)
    (hl : rest.count Tok.lparen = 0) (hr : rest.count Tok.rparen = k) :
    (List.replicate k Tok.lparen ++ Tok.num d0 :: rest).count Tok.lparen =
      (List.replicate k Tok.lparen ++ Tok.num d0 :: rest).count Tok.rparen ∧
    ∀ n, ((List.replicate k Tok.lparen ++ Tok.num d0 :: rest).take n).count Tok.rparen ≤
      ((List.replicate k Tok.lparen ++ Tok.num d0 :: rest).take n).count Tok.lparen := by
  have hc1 : (List.replicate k Tok.lparen).count Tok.rparen = 0 := by
    rw [List.count_eq_zero]
    intro hmem
    exact absurd (List.eq_of_mem_replicate hmem) (by decide)
  constructor
  · simp only [List.count_append, List.count_replicate_self, hc1, List.count_cons, hl, hr]
    simp
  · intro n
    rw [List.take_append_eq_append_take]
    simp only [List.count_append, List.length_replicate, List.take_replicate]
    have h1 : (List.replicate (min n k) Tok.lparen).count Tok.rparen = 0 := by
      rw [List.count_eq_zero]
      intro hmem
      exact absurd (List.eq_of_mem_replicate hmem) (by decide)
    rw [h1, List.count_replicate_self]
    by_cases hn : n ≤ k
    · have : n - k = 0 := by omega
      rw [this]
      simp
    · have h2 : ((Tok.num d0 :: rest).take (n - k)).count Tok.rparen ≤
          (Tok.num d0 :: rest).count Tok.rparen :=
        (List.take_sublist _ _).count_le _
      have h3 : (Tok.num d0 :: rest).count Tok.rparen = k := by
        simp [List.count_cons, hr]
      have : min n k = k := by omega
      omega

theorem reduceOps_parens (p m : Nat) (vs : List Int) :
    reduceOps p (List.replicate m none) vs = some (List.replicate m none, vs) := by
  cases m with
  | zero => rfl
  | succ m => rfl

theorem prec_le {o1 o : Int} (h1 : 0 ≤ o1) (h2 : o1 ≤ 3) (h : ¬ (o1 < 2 ∧ o ≥ 2)) :
    prec o ≤ prec o1 := by
  unfold prec
  split_ifs <;> omega

/-- The stack evaluation of the tokens after the first operand gives the
left-to-right value, from a state with the accumulator on the value stack
and from a state with one operator still pending. -/
theorem runToks_tail : ∀ (ds ops : List Int) (acc v : Int),
    evalFrom acc ds (ops.take ds.length) = some v →
    runToks (tailToks ds ops) (List.replicate (transitions ds.length ops) none) [acc] = some v ∧
    ∀ o a d, 0 ≤ o → o ≤ 3 → evalStep o a d = some acc → ¬ (o < 2 ∧ ops.headD 0 ≥ 2) →
      runToks (tailToks ds ops) (some o :: List.replicate (transitions ds.length ops) none)
        [d, a] = some v := by
  intro ds
  induction ds with
  | nil =>
    intro ops acc v hev
    simp only [List.length_nil, List.take_zero, evalFrom, Option.some.injEq] at hev
    subst hev
    refine ⟨rfl, ?_⟩
    intro o a d _ _ hstep _
    simp [tailToks, transitions, runToks, finishOps, applyTop, hstep]
  | cons d ds ih =>
    intro ops acc v hev
    have htag := evalFrom_tags (d :: ds) ops acc v hev 0 (by simp)
    rw [getD_zero_headD] at htag
    cases ops with
    | nil => simp [evalFrom] at hev
    | cons o os =>
      simp only [List.length_cons, List.take_succ_cons] at hev
      rw [evalFrom_cons] at hev
      simp only [List.headD_cons] at htag
      cases hstep : evalStep o acc d with
      | none => rw [hstep] at hev; simp at hev
      | some acc2 =>
        rw [hstep] at hev
        simp only [Option.some_bind] at hev
        obtain ⟨ihC, ihP⟩ := ih os acc2 v hev
        have hC : runToks (tailToks (d :: ds) (o :: os))
            (List.replicate (transitions (d :: ds).length (o :: os)) none) [acc] = some v := by
          simp only [tailToks, List.length_cons, transitions, List.headD_cons, List.tail_cons,
            List.cons_append, List.nil_append, runToks, reduceOps_parens]
          by_cases hc : o < 2 ∧ os.headD 0 ≥ 2
          · simp only [if_pos hc, List.cons_append, List.nil_append, runToks]
            have e : 1 + transitions ds.length os = transitions ds.length os + 1 := by omega
            rw [e, List.replicate_succ]
            simp only [closeParen, applyTop, hstep]
            exact ihC
          · simp only [if_neg hc, List.nil_append, Nat.zero_add]
            exact ihP o acc d htag.1 htag.2 hstep hc
        refine ⟨hC, ?_⟩
        intro o1 a1 d1 h1 h2 hstep1 hno
        simp only [List.headD_cons] at hno
        have hp : prec o ≤ prec o1 := prec_le h1 h2 hno
        have hC2 := hC
        simp only [tailToks, List.cons_append, runToks, reduceOps_parens, List.headD_cons]
          at hC2 ⊢
        simp only [reduceOps, if_pos hp, applyTop, hstep1, reduceOps_parens]
        exact hC2

theorem runToks_opens (ts : List Tok) (vs : List Int) : ∀ (k j : Nat),
    runToks (List.replicate k Tok.lparen ++ ts) (List.replicate j none) vs =
      runToks ts (List.replicate (j + k) none) vs := by
  intro k
  induction k with
  | zero => intro j; rfl
  | succ k ih =>
    intro j
    rw [List.replicate_succ, List.cons_append, runToks, ← List.replicate_succ, ih (j + 1)]
    congr 2
    omega

/-- The printed expression, read conventionally, has the left-to-right
value of the dice under the operators. -/
theorem convEval_exprTokens (dice ops : List Int) (result v : Int)
    (hev : evalExpr dice (ops.take (dice.length - 1)) = some v) :
    convEval (exprTokens dice ops result) = some v := by
  cases dice with
  | nil => simp [evalExpr] at hev
  | cons d0 ds =>
    simp only [evalExpr, List.length_cons, Nat.add_sub_cancel] at hev
    rw [exprTokens_cons d0 ds ops result (evalFrom_tags ds ops d0 v hev)]
    unfold convEval
    have h := runToks_opens (Tok.num d0 :: tailToks ds ops) [] (transitions ds.length ops) 0
    simp only [List.replicate_zero, Nat.zero_add] at h
    rw [h, runToks]
    exact (runToks_tail ds ops d0 v hev).1

/-- The number of opening parentheses is the number of positions `i` below
`n` with `ops[i] < 2` and `ops[i+1] >= 2`. -/
theorem transitions_eq_countP : ∀ (n : Nat) (ops : List Int),
    transitions n ops =
      (List.range n).countP (fun i => decide (ops.getD i 0 < 2 ∧ ops.getD (i + 1) 0 ≥ 2)) := by
  intro n
  induction n with
  | zero => intro ops; rfl
  | succ n ih =>
    intro ops
    rw [List.range_succ_eq_map, List.countP_cons, List.countP_map, transitions, ih ops.tail]
    have hf : ((fun i => decide (ops.getD i 0 < 2 ∧ ops.getD (i + 1) 0 ≥ 2)) ∘ Nat.succ) =
        (fun i => decide (ops.tail.getD i 0 < 2 ∧ ops.tail.getD (i + 1) 0 ≥ 2)) := by
      funext i
      simp only [Function.comp, Nat.succ_eq_add_one, getD_succ_tail]
    rw [hf, getD_zero_headD, getD_succ_tail, getD_zero_headD]
    by_cases hc : ops.headD 0 < 2 ∧ ops.tail.headD 0 ≥ 2
    · simp only [if_pos hc, decide_eq_true hc]
      simp
      omega
    · simp only [if_neg hc, decide_eq_false hc]
      simp

/-- The text of `printResult` for at least one die: all opening parentheses
stand before the first die, one for each low-to-high transition, and the
closing parentheses stand where `tailPieces` puts them. -/
theorem printResult_shape (d0 : Int) (ds ops : List Int) (result : Int) :
    printResult (d0 :: ds) ops result =
      String.join (([Piece.lit "Valid: ", Piece.int result, Piece.lit " = "]
        ++ List.replicate (transitions ds.length ops) (Piece.lit "(")
        ++ [Piece.int d0, Piece.lit " "] ++ tailPieces ds ops ++ [Piece.lit "\n"]).map
          Piece.text) := by
  rw [printResult, printResultChunks_eq, printResultPieces_cons]

/-- Balance and conventional value of the printed expression. -/
theorem exprTokens_spec (dice ops : List Int) (result v : Int)
    (hev : evalExpr dice (ops.take (dice.length - 1)) = some v) :
    (exprTokens dice ops result).count Tok.lparen =
      (exprTokens dice ops result).count Tok.rparen ∧
    (∀ n, ((exprTokens dice ops result).take n).count Tok.rparen ≤
      ((exprTokens dice ops result).take n).count Tok.lparen) ∧
    convEval (exprTokens dice ops result) = some v := by
  refine ⟨?_, ?_, convEval_exprTokens dice ops result v hev⟩
  all_goals
    cases dice with
    | nil => simp [evalExpr] at hev
    | cons d0 ds =>
      simp only [evalExpr, List.length_cons, Nat.add_sub_cancel] at hev
      rw [exprTokens_cons d0 ds ops result (evalFrom_tags ds ops d0 v hev)]
      have h := balanced_shape (transitions ds.length ops) d0 (tailToks ds ops)
        (count_lparen_tailToks ds ops) (count_rparen_tailToks ds ops)
      first | exact h.1 | exact h.2

/-! ### The recorded search: erasure, bound on the accumulator, exact integers -/

theorem opArgG_wrap (i : Nat) (w d : Int) : opArgG wrapInt i w d = opArg i w d := by
  match i with
  | 0 => rfl
  | 1 => rfl
  | 2 => rfl
  | _ + 3 => rfl

/-- Forgetting the recorded calls of `opLoopT` over `wrapInt` gives `opLoop`. -/
theorem opLoopT_snd (callT : Int → List Int → List (Nat × Int) × Run (Int × List Int))
    (call : Int → List Int → Run (Int × List Int))
    (h : ∀ w ops, (callT w ops).2 = call w ops) (w d : Int) (index : Nat) :
    ∀ n i r ops, (opLoopT wrapInt callT w d index n i r ops).2 =
      opLoop call w d index n i r ops := by
  intro n
  induction n with
  | zero => intro i r ops; rfl
  | succ n ih =>
    intro i r ops
    rw [opLoopT, opLoop, opArgG_wrap]
    cases opArg i w d with
    | fault => rfl
    | outOfFuel => rfl
    | ret a =>
      cases a with
      | none => exact ih _ _ _
      | some w2 =>
        simp only [h]
        cases call w2 ops with
        | fault => rfl
        | outOfFuel => rfl
        | ret p =>
          obtain ⟨ret, ops2⟩ := p
          simp only []
          split_ifs
          · cases writeOp ops2 index i <;> rfl
          · exact ih _ _ _

/-- Forgetting the recorded calls of `computeTestT` over `wrapInt` gives
`computeTestFuel`. -/
theorem computeTestT_snd (lvl : Nat) (data : List Int) :
    ∀ fuel w index ops, (computeTestT wrapInt lvl data fuel w index ops).2 =
      computeTestFuel lvl data fuel w index ops := by
  intro fuel
  induction fuel with
  | zero => intro w index ops; rfl
  | succ fuel ih =>
    intro w index ops
    rw [computeTestT, computeTestFuel]
    split_ifs with hl
    · rfl
    · cases data[index]? with
      | none => rfl
      | some d =>
        exact opLoopT_snd _ _ (fun w2 o => ih w2 (index + 1) o) w d index 4 0 (-1) ops

theorem searchLoopT_snd (lvl : Nat) :
    ∀ fuel goal dice ops, (searchLoopT wrapInt lvl fuel goal dice ops).2 =
      searchLoop lvl fuel goal dice ops := by
  intro fuel
  induction fuel with
  | zero => intro goal dice ops; rfl
  | succ fuel ih =>
    intro goal dice ops
    rw [searchLoopT, searchLoop]
    split_ifs with hg
    · rcases hnp : nextPermutation dice with ⟨b, dice2⟩
      cases b with
      | false => rfl
      | true =>
        simp only [computeTestT_snd, computeTest]
        cases computeTestFuel lvl dice2 (dice2.length + 1) (dice2.getD 0 0) 1 ops with
        | fault => rfl
        | outOfFuel => rfl
        | ret p => exact ih _ _ _
    · rfl

/-- Forgetting the recorded calls of `searchT` over `wrapInt` gives `search`. -/
theorem searchT_snd (fuel : Nat) (dice : List Int) (lvl : Nat) (ops : List Int) :
    (searchT wrapInt fuel dice lvl ops).2 = search fuel dice lvl ops := by
  rw [searchT, search]
  simp only [computeTestT_snd, computeTest]
  cases computeTestFuel lvl (qsort dice) ((qsort dice).length + 1) ((qsort dice).getD 0 0) 1
      ops with
  | fault => rfl
  | outOfFuel => rfl
  | ret p => exact searchLoopT_snd _ _ _ _ _

/-- A property of every call below the loop holds of every call the loop
records. -/
theorem opLoopT_trace (P : Nat × Int → Prop) (norm : Int → Int)
    (call : Int → List Int → List (Nat × Int) × Run (Int × List Int)) (w d : Int)
    (index : Nat)
    (h : ∀ i w2, opArgG norm i w d = Run.ret (some w2) → ∀ o, ∀ e ∈ (call w2 o).1, P e) :
    ∀ n i r ops, ∀ e ∈ (opLoopT norm call w d index n i r ops).1, P e := by
  intro n
  induction n with
  | zero => intro i r ops e he; simp [opLoopT] at he
  | succ n ih =>
    intro i r ops e he
    rw [opLoopT] at he
    cases ha : opArgG norm i w d with
    | fault => rw [ha] at he; simp at he
    | outOfFuel => rw [ha] at he; simp at he
    | ret a =>
      rw [ha] at he
      cases a with
      | none => exact ih _ _ _ e he
      | some w2 =>
        have hc := h i w2 ha ops
        simp only [] at he
        cases hr : (call w2 ops).2 with
        | fault => rw [hr] at he; exact hc e he
        | outOfFuel => rw [hr] at he; exact hc e he
        | ret p =>
          obtain ⟨ret, ops2⟩ := p
          rw [hr] at he
          simp only [] at he
          split_ifs at he
          · cases hw : writeOp ops2 index i <;> rw [hw] at he <;> exact hc e he
          · rcases List.mem_append.1 he with h1 | h1
            · exact hc e h1
            · exact ih _ _ _ e h1

theorem six_le_pow {k : Nat} (hk : 1 ≤ k) : (6 : Int) ≤ 6 ^ k := by
  calc (6 : Int) = 6 ^ 1 := by norm_num
    _ ≤ 6 ^ k := pow_le_pow_right₀ (by norm_num) hk

/-- One arithmetic step on an accumulator bounded by `6^k` with a die in
1..6 gives an accumulator bounded by `6^(k+1)`. -/
theorem opArgG_bound (norm : Int → Int) (hn : ∀ x (k : Nat), |x| ≤ 6 ^ k → |norm x| ≤ 6 ^ k)
    {k : Nat} (hk : 1 ≤ k) {w d w2 : Int} (hw : |w| ≤ 6 ^ k) (hd1 : 1 ≤ d) (hd6 : d ≤ 6)
    {i : Nat} (h : opArgG norm i w d = Run.ret (some w2)) : |w2| ≤ 6 ^ (k + 1) := by
  have h6 := six_le_pow hk
  have hp : (6 : Int) ^ (k + 1) = 6 ^ k * 6 := pow_succ _ _
  have hw2 := abs_le.1 hw
  match i, h with
  | 0, h =>
    simp only [opArgG, Run.ret.injEq, Option.some.injEq] at h
    subst h
    apply hn
    rw [hp, abs_le]
    constructor <;> linarith [hw2.1, hw2.2]
  | 1, h =>
    simp only [opArgG, Run.ret.injEq, Option.some.injEq] at h
    subst h
    apply hn
    rw [hp, abs_le]
    constructor <;> linarith [hw2.1, hw2.2]
  | 2, h =>
    simp only [opArgG, Run.ret.injEq, Option.some.injEq] at h
    subst h
    apply hn
    rw [hp, abs_mul]
    have hd : |d| ≤ 6 := abs_le.2 ⟨by linarith, hd6⟩
    exact mul_le_mul hw hd (abs_nonneg _) (by positivity)
  | _ + 3, h =>
    simp only [opArgG] at h
    split_ifs at h with h1 h2
    · simp only [Run.ret.injEq, Option.some.injEq] at h
      subst h
      have he : d * w.tdiv d + w.tmod d = w := Int.tdiv_add_tmod w d
      rw [h2, add_zero] at he
      rw [hp, abs_le]
      rcases le_or_lt 0 (w.tdiv d) with hq | hq
      · constructor <;> nlinarith [hw2.1, hw2.2]
      · constructor <;> nlinarith [hw2.1, hw2.2]
    · simp at h

theorem wrapInt_small {x : Int} (h : |x| ≤ 6 ^ 11) : wrapInt x = x := by
  have h2 := abs_le.1 h
  have e : (6 : Int) ^ 11 = 362797056 := by norm_num
  rw [e] at h2
  unfold wrapInt
  omega

/-- Wrapping to 32 bits keeps a bound `6^k`: below `6^12` nothing wraps,
and from `6^12` on the bound exceeds the range of `int`. -/
theorem wrapInt_bound (x : Int) (k : Nat) (h : |x| ≤ 6 ^ k) : |wrapInt x| ≤ 6 ^ k := by
  by_cases hk : k ≤ 11
  · have h1 : (6 : Int) ^ k ≤ 6 ^ 11 := pow_le_pow_right₀ (by norm_num) hk
    rw [wrapInt_small (le_trans h h1)]
    exact h
  · have h1 : (6 : Int) ^ 12 ≤ 6 ^ k := pow_le_pow_right₀ (by norm_num) (by omega)
    have e : (6 : Int) ^ 12 = 2176782336 := by norm_num
    rw [e] at h1
    rw [abs_le]
    unfold wrapInt
    constructor <;> omega

/-- Every call recorded by `computeTestT`, started at `index >= 1` with an
accumulator bounded by `6^index` on dice in 1..6, has its accumulator
bounded by six to the power of its index, and its index at most the
number of dice (or the index of the first call). -/
theorem computeTestT_trace (norm : Int → Int)
    (hn : ∀ x (k : Nat), |x| ≤ 6 ^ k → |norm x| ≤ 6 ^ k) (lvl : Nat) (data : List Int)
    (hd : ∀ d ∈ data, 1 ≤ d ∧ d ≤ 6) :
    ∀ fuel w index ops, 1 ≤ index → |w| ≤ 6 ^ index →
      ∀ e ∈ (computeTestT norm lvl data fuel w index ops).1,
        |e.2| ≤ 6 ^ e.1 ∧ e.1 ≤ max index data.length := by
  intro fuel
  induction fuel with
  | zero =>
    intro w index ops hi hw e he
    simp only [computeTestT, List.mem_singleton] at he
    subst he
    exact ⟨hw, le_max_left _ _⟩
  | succ fuel ih =>
    intro w index ops hi hw e he
    rw [computeTestT] at he
    split_ifs at he with hl
    · simp only [List.mem_singleton] at he
      subst he
      exact ⟨hw, le_max_left _ _⟩
    · cases hdi : data[index]? with
      | none =>
        rw [hdi] at he
        simp only [List.mem_singleton] at he
        subst he
        exact ⟨hw, le_max_left _ _⟩
      | some d =>
        rw [hdi] at he
        simp only [List.mem_cons] at he
        rcases he with he | he
        · subst he
          exact ⟨hw, le_max_left _ _⟩
        · have hlt : index < data.length := (List.getElem?_eq_some_iff.1 hdi).1
          have hdm : d ∈ data := by
            rw [← (List.getElem?_eq_some_iff.1 hdi).2]
            exact List.getElem_mem hlt
          have hd2 := hd d hdm
          have key := opLoopT_trace
            (fun e => |e.2| ≤ 6 ^ e.1 ∧ e.1 ≤ max index data.length) norm
            (fun w ops => computeTestT norm lvl data fuel w (index + 1) ops) w d index
            (by
              intro i w2 ha o e2 he2
              have hb := opArgG_bound norm hn hi hw hd2.1 hd2.2 ha
              have := ih w2 (index + 1) o (by omega) hb e2 he2
              refine ⟨this.1, le_trans this.2 ?_⟩
              rw [max_eq_right (by omega : index + 1 ≤ data.length)]
              exact le_max_right _ _)
            4 0 (-1) ops e he
          exact key

theorem root_bound {dice : List Int} (hd : ∀ d ∈ dice, 1 ≤ d ∧ d ≤ 6) :
    |dice.getD 0 0| ≤ 6 ^ 1 := by
  cases dice with
  | nil => simp
  | cons a t =>
    have := hd a (by simp)
    simp only [List.getD_cons_zero, pow_one]
    exact abs_le.2 ⟨by linarith, this.2⟩

theorem searchLoopT_trace (norm : Int → Int)
    (hn : ∀ x (k : Nat), |x| ≤ 6 ^ k → |norm x| ≤ 6 ^ k) (lvl : Nat) :
    ∀ fuel goal dice ops, (∀ d ∈ dice, 1 ≤ d ∧ d ≤ 6) →
      ∀ e ∈ (searchLoopT norm lvl fuel goal dice ops).1,
        |e.2| ≤ 6 ^ e.1 ∧ e.1 ≤ max 1 dice.length := by
  intro fuel
  induction fuel with
  | zero => intro goal dice ops _ e he; simp [searchLoopT] at he
  | succ fuel ih =>
    intro goal dice ops hd e he
    rw [searchLoopT] at he
    split_ifs at he with hg
    · have hperm := nextPermutation_perm dice
      rcases hnp : nextPermutation dice with ⟨b, dice2⟩
      rw [hnp] at he hperm
      simp only [] at hperm
      have hd2 : ∀ d ∈ dice2, 1 ≤ d ∧ d ≤ 6 := fun d hm => hd d (hperm.mem_iff.1 hm)
      have hlen : dice2.length = dice.length := hperm.length_eq
      have hc := computeTestT_trace norm hn lvl dice2 hd2 (dice2.length + 1)
        (dice2.getD 0 0) 1 ops (le_refl 1) (root_bound hd2)
      rw [hlen] at hc
      cases b with
      | false => simp at he
      | true =>
        simp only [] at he
        cases hr : (computeTestT norm lvl dice2 (dice2.length + 1) (dice2.getD 0 0) 1 ops).2 with
        | fault => rw [hr] at he; rw [hlen] at he; exact hc e he
        | outOfFuel => rw [hr] at he; rw [hlen] at he; exact hc e he
        | ret p =>
          obtain ⟨g2, ops2⟩ := p
          rw [hr] at he
          simp only [] at he
          rcases List.mem_append.1 he with h1 | h1
          · rw [hlen] at h1
            exact hc e h1
          · have := ih g2 dice2 ops2 hd2 e h1
            rw [hlen] at this
            exact this
    · simp at he

/-- Every call of `computeTest` made during the search on dice in 1..6 has
its accumulator bounded by six to the power of its index, and an index of
at most the number of dice. -/
theorem searchT_trace (norm : Int → Int)
    (hn : ∀ x (k : Nat), |x| ≤ 6 ^ k → |norm x| ≤ 6 ^ k) (fuel : Nat) (dice : List Int)
    (lvl : Nat) (ops : List Int) (hd : ∀ d ∈ dice, 1 ≤ d ∧ d ≤ 6) :
    ∀ e ∈ (searchT norm fuel dice lvl ops).1, |e.2| ≤ 6 ^ e.1 ∧ e.1 ≤ max 1 dice.length := by
  intro e he
  have hperm := qsort_perm dice
  have hd2 : ∀ d ∈ qsort dice, 1 ≤ d ∧ d ≤ 6 := fun d hm => hd d (hperm.mem_iff.1 hm)
  have hlen : (qsort dice).length = dice.length := hperm.length_eq
  have hc := computeTestT_trace norm hn lvl (qsort dice) hd2 ((qsort dice).length + 1)
    ((qsort dice).getD 0 0) 1 ops (le_refl 1) (root_bound hd2)
  rw [searchT] at he
  rw [← hlen]
  cases hr : (computeTestT norm lvl (qsort dice) ((qsort dice).length + 1)
      ((qsort dice).getD 0 0) 1 ops).2 with
  | fault => rw [hr] at he; exact hc e he
  | outOfFuel => rw [hr] at he; exact hc e he
  | ret p =>
    obtain ⟨g2, ops2⟩ := p
    rw [hr] at he
    simp only [] at he
    rcases List.mem_append.1 he with h1 | h1
    · exact hc e h1
    · exact searchLoopT_trace norm hn lvl fuel g2 (qsort dice) ops2 hd2 e h1

theorem id_bound (x : Int) (k : Nat) (h : |x| ≤ 6 ^ k) : |id x| ≤ 6 ^ k := h

/-- With at most 11 dice in 1..6 no arithmetic step of the search wraps:
the step on exact integers and the step on `int` give the same value. -/
theorem opArgG_agree {k : Nat} (hk : 1 ≤ k) (hk11 : k + 1 ≤ 11) {w d : Int}
    (hw : |w| ≤ 6 ^ k) (hd1 : 1 ≤ d) (hd6 : d ≤ 6) (i : Nat) :
    opArgG id i w d = opArgG wrapInt i w d := by
  have hle : (6 : Int) ^ (k + 1) ≤ 6 ^ 11 := pow_le_pow_right₀ (by norm_num) hk11
  have hb : ∀ j w2, opArgG id j w d = Run.ret (some w2) → wrapInt w2 = w2 :=
    fun j w2 h => wrapInt_small (le_trans (opArgG_bound id id_bound hk hw hd1 hd6 h) hle)
  match i with
  | 0 => simp only [opArgG, id]; rw [hb 0 (w + d) rfl]
  | 1 => simp only [opArgG, id]; rw [hb 1 (w - d) rfl]
  | 2 => simp only [opArgG, id]; rw [hb 2 (w * d) rfl]
  | _ + 3 => rfl

theorem opLoopT_congr (n1 n2 : Int → Int)
    (c1 c2 : Int → List Int → List (Nat × Int) × Run (Int × List Int)) (w d : Int)
    (index : Nat) (ha : ∀ i, opArgG n1 i w d = opArgG n2 i w d)
    (hc : ∀ i w2, opArgG n1 i w d = Run.ret (some w2) → ∀ o, c1 w2 o = c2 w2 o) :
    ∀ n i r ops, opLoopT n1 c1 w d index n i r ops = opLoopT n2 c2 w d index n i r ops := by
  intro n
  induction n with
  | zero => intro i r ops; rfl
  | succ n ih =>
    intro i r ops
    rw [opLoopT, opLoopT, ← ha i]
    cases h : opArgG n1 i w d with
    | fault => rfl
    | outOfFuel => rfl
    | ret a =>
      cases a with
      | none => exact ih _ _ _
      | some w2 =>
        simp only [← hc i w2 h, ih]

/-- With at most 11 dice in 1..6 the search function on exact integers and
the one on `int` make the same calls and return the same. -/
theorem computeTestT_agree (lvl : Nat) (data : List Int) (hd : ∀ d ∈ data, 1 ≤ d ∧ d ≤ 6)
    (hlen : data.length ≤ 11) :
    ∀ fuel w index ops, 1 ≤ index → |w| ≤ 6 ^ index →
      computeTestT id lvl data fuel w index ops =
        computeTestT wrapInt lvl data fuel w index ops := by
  intro fuel
  induction fuel with
  | zero => intro w index ops _ _; rfl
  | succ fuel ih =>
    intro w index ops hi hw
    rw [computeTestT, computeTestT]
    split_ifs with hl
    · rfl
    · cases hdi : data[index]? with
      | none => rfl
      | some d =>
        have hlt : index < data.length := (List.getElem?_eq_some_iff.1 hdi).1
        have hdm : d ∈ data := by
          rw [← (List.getElem?_eq_some_iff.1 hdi).2]
          exact List.getElem_mem hlt
        have hd2 := hd d hdm
        have key := opLoopT_congr id wrapInt
          (fun w ops => computeTestT id lvl data fuel w (index + 1) ops)
          (fun w ops => computeTestT wrapInt lvl data fuel w (index + 1) ops) w d index
          (opArgG_agree hi (by omega) hw hd2.1 hd2.2)
          (fun i w2 h o => ih w2 (index + 1) o (by omega)
            (opArgG_bound id id_bound hi hw hd2.1 hd2.2 h))
          4 0 (-1) ops
        simp only [key]

theorem searchLoopT_agree (lvl : Nat) :
    ∀ fuel goal dice ops, (∀ d ∈ dice, 1 ≤ d ∧ d ≤ 6) → dice.length ≤ 11 →
      searchLoopT id lvl fuel goal dice ops = searchLoopT wrapInt lvl fuel goal dice ops := by
  intro fuel
  induction fuel with
  | zero => intro goal dice ops _ _; rfl
  | succ fuel ih =>
    intro goal dice ops hd hlen
    rw [searchLoopT, searchLoopT]
    split_ifs with hg
    · have hperm := nextPermutation_perm dice
      rcases hnp : nextPermutation dice with ⟨b, dice2⟩
      rw [hnp] at hperm
      simp only [] at hperm
      have hd2 : ∀ d ∈ dice2, 1 ≤ d ∧ d ≤ 6 := fun d hm => hd d (hperm.mem_iff.1 hm)
      have hlen2 : dice2.length ≤ 11 := by rw [hperm.length_eq]; exact hlen
      cases b with
      | false => rfl
      | true =>
        simp only [computeTestT_agree lvl dice2 hd2 hlen2 (dice2.length + 1) (dice2.getD 0 0) 1
          ops (le_refl 1) (root_bound hd2)]
        cases (computeTestT wrapInt lvl dice2 (dice2.length + 1) (dice2.getD 0 0) 1 ops).2 with
        | fault => rfl
        | outOfFuel => rfl
        | ret p =>
          obtain ⟨g2, ops2⟩ := p
          simp only [ih g2 dice2 ops2 hd2 hlen2]
    · rfl

/-- With at most 11 dice in 1..6 the search on exact integers and the
search on `int` make the same calls and end the same. -/
theorem searchT_agree (fuel : Nat) (dice : List Int) (lvl : Nat) (ops : List Int)
    (hd : ∀ d ∈ dice, 1 ≤ d ∧ d ≤ 6) (hlen : dice.length ≤ 11) :
    searchT id fuel dice lvl ops = searchT wrapInt fuel dice lvl ops := by
  have hperm := qsort_perm dice
  have hd2 : ∀ d ∈ qsort dice, 1 ≤ d ∧ d ≤ 6 := fun d hm => hd d (hperm.mem_iff.1 hm)
  have hlen2 : (qsort dice).length ≤ 11 := by rw [hperm.length_eq]; exact hlen
  rw [searchT, searchT]
  simp only [computeTestT_agree lvl (qsort dice) hd2 hlen2 ((qsort dice).length + 1)
    ((qsort dice).getD 0 0) 1 ops (le_refl 1) (root_bound hd2)]
  cases (computeTestT wrapInt lvl (qsort dice) ((qsort dice).length + 1)
      ((qsort dice).getD 0 0) 1 ops).2 with
  | fault => rfl
  | outOfFuel => rfl
  | ret p =>
    obtain ⟨g2, ops2⟩ := p
    simp only [searchLoopT_agree lvl fuel g2 (qsort dice) ops2 hd2 hlen2]

/-- A die rolled by `roll_d(6)` lies in 1..6. -/
theorem roll_d_range (r : Int) (hr : 0 ≤ r) :
    ∃ d, roll_d r 6 = Run.ret d ∧ 1 ≤ d ∧ d ≤ 6 := by
  have h1 : 0 ≤ r.tmod 6 := Int.tmod_nonneg 6 hr
  have h2 : r.tmod 6 < 6 := Int.tmod_lt_of_pos r (by norm_num)
  refine ⟨r.tmod 6 + 1, ?_, by omega, by omega⟩
  have hw : wrapInt (r.tmod 6 + 1) = r.tmod 6 + 1 := by
    unfold wrapInt
    omega
  simp [roll_d, hw]

/-- The accumulator bound of the search and its consequences for at most
11 dice. -/
theorem searchT_spec (fuel : Nat) (dice ops : List Int) (lvl : Nat)
    (hd : ∀ d ∈ dice, 1 ≤ d ∧ d ≤ 6) :
    (searchT wrapInt fuel dice lvl ops).2 = search fuel dice lvl ops ∧
    (∀ e ∈ (searchT wrapInt fuel dice lvl ops).1, |e.2| ≤ 6 ^ e.1) ∧
    (∀ e ∈ (searchT id fuel dice lvl ops).1, |e.2| ≤ 6 ^ e.1) ∧
    (dice.length ≤ 11 →
      (∀ e ∈ (searchT id fuel dice lvl ops).1, |e.2| ≤ 362797056) ∧
      searchT wrapInt fuel dice lvl ops = searchT id fuel dice lvl ops) := by
  refine ⟨searchT_snd fuel dice lvl ops,
    fun e he => (searchT_trace wrapInt wrapInt_bound fuel dice lvl ops hd e he).1,
    fun e he => (searchT_trace id id_bound fuel dice lvl ops hd e he).1, ?_⟩
  intro hlen
  refine ⟨?_, (searchT_agree fuel dice lvl ops hd hlen).symm⟩
  intro e he
  have h := searchT_trace id id_bound fuel dice lvl ops hd e he
  have h11 : e.1 ≤ 11 := le_trans h.2 (max_le (by norm_num) hlen)
  have h1 : (6 : Int) ^ e.1 ≤ 6 ^ 11 := pow_le_pow_right₀ (by norm_num) h11
  have e11 : (6 : Int) ^ 11 = 362797056 := by norm_num
  rw [e11] at h1
  exact le_trans h.1 h1

theorem scanInt_of_int {entered : Int} (h1 : INT_MIN ≤ entered) (h2 : entered ≤ INT_MAX) :
    scanInt entered = entered := by
  unfold INT_MIN at h1
  unfold INT_MAX at h2
  unfold scanInt wrapInt LONG_MIN LONG_MAX
  omega

/-- Lines 82-84 of `main` clamp the stored level to 1..9 and decrement it:
the tier index lies in 0..8 and `goals` has a row of three entries there. -/
theorem tierOf_spec (level : Int) :
    tierOf level = min 9 (max 1 level) - 1 ∧
    0 ≤ tierOf level ∧ tierOf level ≤ 8 ∧
    (∃ g0 g1 g2 : Int, goals[(tierOf level).toNat]? = some [g0, g1, g2]) := by
  have h1 : tierOf level = min 9 (max 1 level) - 1 := by
    unfold tierOf
    simp only
    split_ifs <;> omega
  have h2 : 0 ≤ tierOf level := by rw [h1]; omega
  have h3 : tierOf level ≤ 8 := by rw [h1]; omega
  refine ⟨h1, h2, h3, ?_⟩
  have hlt : (tierOf level).toNat < 9 := by omega
  obtain ⟨g0, g1, g2, hrow, _⟩ := goals_row _ hlt
  exact ⟨g0, g1, g2, hrow⟩

/-- The dice 0, 1 reach no goal of any tier, in either order and with any
operator. -/
theorem zero_one_no_solution (lvl : Nat) (hlvl : lvl < 9) :
    ¬ ∃ p os v, p.Perm [0, 1] ∧ os.length = [(0 : Int), 1].length - 1 ∧
      (∀ o ∈ os, 0 ≤ o ∧ o ≤ 3) ∧ evalExpr p os = some v ∧ v ∈ tierGoals lvl := by
  rintro ⟨p, os, v, hp, hl, htags, hev, hv⟩
  have hv3 : ∀ x ∈ tierGoals lvl, (3 : Int) ≤ x := by
    interval_cases lvl <;> decide
  have hv2 := hv3 v hv
  have hlen := hp.length_eq
  have hnd : p.Nodup := hp.nodup_iff.2 (by decide)
  obtain ⟨o, rfl⟩ := List.length_eq_one.1 hl
  have ho := htags o (by simp)
  have ho2 : o = 0 ∨ o = 1 ∨ o = 2 ∨ o = 3 := by omega
  have e1 : evalExpr [0, 1] [0] = some 1 := by decide
  have e2 : evalExpr [0, 1] [1] = some (-1) := by decide
  have e3 : evalExpr [0, 1] [2] = some 0 := by decide
  have e4 : evalExpr [0, 1] [3] = some 0 := by decide
  have e5 : evalExpr [1, 0] [0] = some 1 := by decide
  have e6 : evalExpr [1, 0] [1] = some 1 := by decide
  have e7 : evalExpr [1, 0] [2] = some 0 := by decide
  have e8 : evalExpr [1, 0] [3] = none := by decide
  match p, hlen, hp, hnd, hev with
  | [a, b], _, hp, hnd, hev =>
    have ha : a ∈ ([0, 1] : List Int) := hp.subset (by simp)
    have hb : b ∈ ([0, 1] : List Int) := hp.subset (by simp)
    simp only [List.mem_cons, List.mem_singleton, List.not_mem_nil, or_false] at ha hb
    simp only [List.nodup_cons, List.mem_singleton, List.not_mem_nil, not_false_eq_true,
      List.nodup_nil, and_true] at hnd
    rcases ha with rfl | rfl <;> rcases hb with rfl | rfl
    · exact absurd rfl hnd
    · rcases ho2 with rfl | rfl | rfl | rfl
      · rw [e1] at hev; injection hev with hev; omega
      · rw [e2] at hev; injection hev with hev; omega
      · rw [e3] at hev; injection hev with hev; omega
      · rw [e4] at hev; injection hev with hev; omega
    · rcases ho2 with rfl | rfl | rfl | rfl
      · rw [e5] at hev; injection hev with hev; omega
      · rw [e6] at hev; injection hev with hev; omega
      · rw [e7] at hev; injection hev with hev; omega
      · rw [e8] at hev; exact absurd hev (by simp)
    · exact absurd rfl hnd

/-- With the dice 0, 1 the search faults at every tier, for every budget
that lets the loop of `main` start. -/
theorem zero_one_faults (fuel lvl : Nat) (hlvl : lvl < 9) :
    solve (fuel + 1) [0, 1] lvl = Run.fault := by
  have h1 : qsort [0, 1] = [0, 1] := by decide
  have h2 : computeTest 0 1 lvl [0, 1] opsInit = Run.ret (-1, opsInit) := by
    interval_cases lvl <;> decide
  have h3 : nextPermutation [0, 1] = (true, [1, 0]) := by decide
  have h4 : computeTest 1 1 lvl [1, 0] opsInit = Run.fault := by
    interval_cases lvl <;> decide
  simp only [solve, search, h1, List.getD_cons_zero, h2, searchLoop]
  rw [if_pos (by decide)]
  simp only [h3, List.getD_cons_zero, h4]

/-- The failure report for positive dice: for `1 <= N <= MAXCOUNT` positive
dice in any order and every tier 0..8, lines 106-121 of `main` return (any budget of at least `N!`
loop steps is enough), and they report failure, that is `goal < 0` and the
text "No valid result found!", exactly when no rearrangement of the dice and
no sequence of `N - 1` operator tags evaluates, left to right in `int`
arithmetic and with exact divisions only, to a goal of the tier. -/
theorem solve_failure_iff (dice : List Int) (lvl fuel : Nat) (hN : 1 ≤ dice.length)
    (hmax : dice.length ≤ MAXCOUNT) (hpos : ∀ d ∈ dice, 0 < d) (hlvl : lvl < 9)
    (hfuel : dice.length.factorial ≤ fuel) :
    ∃ goal fin ops out, solve fuel dice lvl = Run.ret (goal, fin, ops, out) ∧
      (goal < 0 ↔ out = "No valid result found!\n") ∧
      (goal < 0 ↔ ¬ ∃ p os v, p.Perm dice ∧ os.length = dice.length - 1 ∧
        (∀ o ∈ os, 0 ≤ o ∧ o ≤ 3) ∧ evalExpr p os = some v ∧ v ∈ tierGoals lvl) := by
  have hops : dice.length ≤ opsInit.length + 1 := by
    simp only [opsInit, List.length_replicate]
    unfold MAXCOUNT at hmax ⊢
    omega
  obtain ⟨g, fin, ops2, hrun, hperm, _, _, hres⟩ :=
    search_spec lvl hlvl dice hpos hN fuel hfuel opsInit hops
  refine ⟨g, fin, ops2, report fin ops2 lvl g, by simp only [solve, hrun], ?_, ?_⟩
  · rcases hres with ⟨hg, _⟩ | ⟨os, ⟨h0, _⟩, _⟩
    · subst hg
      simp [report]
    · simp only [report, if_pos (ge_iff_le.2 h0)]
      constructor
      · intro h; omega
      · intro h; exact absurd h (printResult_ne _ _ _)
  · rcases hres with ⟨hg, hno⟩ | ⟨os, ⟨h0, h3, hl, htags, hev⟩, _⟩
    · subst hg
      simp only [Int.reduceNeg, Left.neg_neg_iff, zero_lt_one, true_iff]
      rintro ⟨p, os, v, hp, _, _, hev, hv⟩
      exact hno p hp os v hev hv
    · constructor
      · intro h; omega
      · intro h
        exfalso
        apply h
        refine ⟨fin, os, goalValue lvl g, hperm, ?_, htags, hev, goalValue_mem lvl hlvl g h0 h3⟩
        rw [hl, hperm.length_eq]

/-- The failure report at the dice 1,1 and tier 0. -/
theorem solve_failure_iff_witness :
    solve 2 [1, 1] 0 = Run.ret (-1, [1, 1], opsInit, "No valid result found!\n") ∧
    ∃ goal fin ops out, solve 2 [1, 1] 0 = Run.ret (goal, fin, ops, out) ∧
      (goal < 0 ↔ out = "No valid result found!\n") ∧
      (goal < 0 ↔ ¬ ∃ p os v, p.Perm [1, 1] ∧ os.length = [(1 : Int), 1].length - 1 ∧
        (∀ o ∈ os, 0 ≤ o ∧ o ≤ 3) ∧ evalExpr p os = some v ∧ v ∈ tierGoals 0) :=
  ⟨by decide, solve_failure_iff [1, 1] 0 2 (by decide) (by decide) (by decide) (by decide)
    (by decide)⟩

/-! ## The claims -/

/-- C1. For every integer sequence, sorted or not and with or without
duplicates: when `nextPermutation` returns true, the new contents are a
rearrangement of the old contents, come strictly after them in
lexicographic order, and no rearrangement of the same entries lies strictly
between the old and the new contents. -/
theorem nextPermutation_is_successor (data : List Int)
    (h : (nextPermutation data).1 = true) :
    (nextPermutation data).2.Perm data ∧ data < (nextPermutation data).2 ∧
      ∀ p : List Int, p.Perm data → ¬ (data < p ∧ p < (nextPermutation data).2) := by
  obtain ⟨h1, h2, h3⟩ := nextPermutation_succ data h
  exact ⟨h1, h2, fun p hp hbetween => absurd (h3 p hp hbetween.1) (not_le.2 hbetween.2)⟩

/-- C1 at the unsorted sequence 1,3,2,2 with a duplicate: the call returns
true and leaves 2,1,2,3. -/
theorem nextPermutation_is_successor_witness :
    nextPermutation [1, 3, 2, 2] = (true, [2, 1, 2, 3]) ∧
    ((nextPermutation [1, 3, 2, 2]).2.Perm [1, 3, 2, 2] ∧
      [1, 3, 2, 2] < (nextPermutation [1, 3, 2, 2]).2 ∧
      ∀ p : List Int, p.Perm [1, 3, 2, 2] →
        ¬ ([1, 3, 2, 2] < p ∧ p < (nextPermutation [1, 3, 2, 2]).2)) :=
  ⟨by decide, nextPermutation_is_successor [1, 3, 2, 2] (by decide)⟩

/-- C2 (code as it is). The input line `0 1` is accepted: `split` stores
the dice 0, 1 with `count` 2.  No rearrangement of them and no operator
reaches a goal of any tier, so the claim has the orchestrator report
failure; but after the arrangement 0,1 has failed, the search of the
arrangement 1,0 evaluates `1 % 0` in the Divide branch, and the run ends
in a fault at every tier: nothing is reported.  At the dice 1,1 of the
claim, tier 0, failure is reported. -/
theorem solve_faults_where_failure_is_due :
    split ['0', ' ', '1', '\n'] = Run.ret ([0, 1], 2) ∧
    (∀ lvl, lvl < 9 → ¬ ∃ p os v, p.Perm [0, 1] ∧ os.length = [(0 : Int), 1].length - 1 ∧
      (∀ o ∈ os, 0 ≤ o ∧ o ≤ 3) ∧ evalExpr p os = some v ∧ v ∈ tierGoals lvl) ∧
    (∀ fuel lvl, lvl < 9 → solve (fuel + 1) [0, 1] lvl = Run.fault) ∧
    (∀ fuel lvl goal fin ops out, lvl < 9 →
      solve fuel [0, 1] lvl ≠ Run.ret (goal, fin, ops, out)) ∧
    solve 2 [1, 1] 0 = Run.ret (-1, [1, 1], opsInit, "No valid result found!\n") := by
  refine ⟨by decide, zero_one_no_solution, fun fuel lvl h => zero_one_faults fuel lvl h, ?_,
    by decide⟩
  intro fuel lvl goal fin ops out hlvl
  cases fuel with
  | zero =>
    have h1 : qsort [0, 1] = [0, 1] := by decide
    have h2 : computeTest 0 1 lvl [0, 1] opsInit = Run.ret (-1, opsInit) := by
      interval_cases lvl <;> decide
    simp [solve, search, h1, h2, searchLoop]
  | succ fuel =>
    rw [zero_one_faults fuel lvl hlvl]
    simp

/-- C3. Whenever lines 106-121 of `main` end in success with goal index
`goal`, for any dice and tier: `goal` is 0, 1 or 2, the final `dice` are a
rearrangement of the input, the first `N - 1` entries of `ops` are operator
tags in 0..3, the expression `dice[0] ops[0] dice[1] ... dice[N-1]` read
strictly left to right, in `int` arithmetic and with every division exact,
has the value `goals[lvl][goal]`, and the text printed starts with
"Valid: ", that value and " = ". -/
theorem solve_success (dice : List Int) (lvl fuel : Nat) (goal : Int) (fin ops : List Int)
    (out : String) (h : solve fuel dice lvl = Run.ret (goal, fin, ops, out)) (hg : 0 ≤ goal) :
    (goal = 0 ∨ goal = 1 ∨ goal = 2) ∧ fin.Perm dice ∧
      (ops.take (dice.length - 1)).length = dice.length - 1 ∧
      (∀ o ∈ ops.take (dice.length - 1), 0 ≤ o ∧ o ≤ 3) ∧
      evalExpr fin (ops.take (dice.length - 1)) = some (goalValue lvl goal) ∧
      ∃ rest : String, out = "Valid: " ++ fmtInt (goalValue lvl goal) ++ " = " ++ rest := by
  simp only [solve] at h
  cases hs : search fuel dice lvl opsInit with
  | fault => rw [hs] at h; simp at h
  | outOfFuel => rw [hs] at h; simp at h
  | ret r =>
    obtain ⟨g, fin2, ops2⟩ := r
    rw [hs] at h
    simp only [Run.ret.injEq, Prod.mk.injEq] at h
    obtain ⟨rfl, rfl, rfl, rfl⟩ := h
    obtain ⟨hperm, hsol⟩ := search_sound lvl fuel dice opsInit g fin2 ops2 hs
    obtain ⟨os, ⟨h0, h3, hl, htags, hev⟩, hos⟩ := hsol hg
    rw [hperm.length_eq] at hos hl
    rw [hos]
    refine ⟨by omega, hperm, hl, htags, hev, ?_⟩
    simp only [report, if_pos (ge_iff_le.2 hg)]
    exact printResult_prefix _ _ _

/-- C3 at the dice 5,9,2 and tier 0: success on the arrangement 5,9,2 with
`(5 + 9) / 2 = 7`. -/
theorem solve_success_witness :
    solve 6 [5, 9, 2] 0 = Run.ret (2, [5, 9, 2],
      [0, 3, 0, 0, 0, 0, 0, 0, 0, 0, 0, 0, 0, 0, 0, 0, 0, 0, 0, 0],
      "Valid: 7 = (5 + 9) / 2 \n") ∧
    ((2 : Int) = 0 ∨ (2 : Int) = 1 ∨ (2 : Int) = 2) ∧ [(5 : Int), 9, 2].Perm [5, 9, 2] ∧
      (([0, 3, 0, 0, 0, 0, 0, 0, 0, 0, 0, 0, 0, 0, 0, 0, 0, 0, 0, 0] : List Int).take
        ([(5 : Int), 9, 2].length - 1)).length = [(5 : Int), 9, 2].length - 1 ∧
      (∀ o ∈ ([0, 3, 0, 0, 0, 0, 0, 0, 0, 0, 0, 0, 0, 0, 0, 0, 0, 0, 0, 0] : List Int).take
        ([(5 : Int), 9, 2].length - 1), 0 ≤ o ∧ o ≤ 3) ∧
      evalExpr [5, 9, 2] (([0, 3, 0, 0, 0, 0, 0, 0, 0, 0, 0, 0, 0, 0, 0, 0, 0, 0, 0, 0] :
        List Int).take ([(5 : Int), 9, 2].length - 1)) = some (goalValue 0 2) ∧
      ∃ rest : String, "Valid: 7 = (5 + 9) / 2 \n" =
        "Valid: " ++ fmtInt (goalValue 0 2) ++ " = " ++ rest :=
  ⟨by decide, solve_success [5, 9, 2] 0 6 2 [5, 9, 2] _ _ (by decide) (by decide)⟩

/-- C4. For an ascending-sorted sequence of length `N` whose distinct values
occur `m1, ..., mr` times, the initial contents followed by the contents
after each successful `nextPermutation` call (any budget of at least
`N!/(m1! * ... * mr!) - 1` calls is enough) are exactly
`N!/(m1! * ... * mr!)` sequences, strictly increasing in lexicographic
order, hence without repeats; they are exactly the rearrangements of the
input; and the call after the last one returns false. -/
theorem arrangements_enumerate (data : List Int) (hs : data.Sorted (· ≤ ·)) (fuel : Nat)
    (hfuel : permCount data ≤ fuel + 1) :
    (arrangements fuel data).length = permCount data ∧
      (arrangements fuel data).Chain' (· < ·) ∧
      (arrangements fuel data).Nodup ∧
      (∀ p : List Int, p.Perm data ↔ p ∈ arrangements fuel data) ∧
      (∀ last ∈ (arrangements fuel data).getLast?, (nextPermutation last).1 = false) := by
  have hcard := later_sorted data hs
  obtain ⟨h1, _, h3, h4, h5⟩ := arrangements_spec data fuel data (List.Perm.refl _) (by omega)
  refine ⟨by omega, h1, ?_, ?_, h5⟩
  · have hpw : (arrangements fuel data).Pairwise (· < ·) := List.chain'_iff_pairwise.1 h1
    exact hpw.imp (fun h => ne_of_lt h)
  · intro p
    rw [h3]
    constructor
    · intro hp
      exact ⟨hp, le_of_perm_sorted data p hs hp⟩
    · intro hp
      exact hp.1

/-- C4 at 1,1,2: exactly 1,1,2 then 1,2,1 then 2,1,1, and then exhaustion. -/
theorem arrangements_enumerate_witness :
    arrangements 2 [1, 1, 2] = [[1, 1, 2], [1, 2, 1], [2, 1, 1]] ∧
    nextPermutation [2, 1, 1] = (false, [2, 1, 1]) ∧ permCount [1, 1, 2] = 3 ∧
    ((arrangements 2 [1, 1, 2]).length = permCount [1, 1, 2] ∧
      (arrangements 2 [1, 1, 2]).Chain' (· < ·) ∧
      (arrangements 2 [1, 1, 2]).Nodup ∧
      (∀ p : List Int, p.Perm [1, 1, 2] ↔ p ∈ arrangements 2 [1, 1, 2]) ∧
      (∀ last ∈ (arrangements 2 [1, 1, 2]).getLast?, (nextPermutation last).1 = false)) :=
  ⟨by decide, by decide, by decide,
    arrangements_enumerate [1, 1, 2] (by decide) 2 (by decide)⟩

/-- C5. For positive data, a tier 0..8, any accumulator `working` and
`1 <= index <= length` (the operator buffer having room for `length - 1`
tags), `computeTest` returns; it returns `-1` exactly when no sequence of
operator tags for `data[index .. length-1]`, applied left to right from
`working` in `int` arithmetic with every division exact, ends on a goal of
the tier; otherwise it returns the index 0, 1 or 2 of a goal that some such
sequence reaches. -/
theorem computeTest_complete (data : List Int) (hpos : ∀ d ∈ data, 0 < d) (lvl : Nat)
    (hlvl : lvl < 9) (working : Int) (index : Nat) (h1 : 1 ≤ index)
    (h2 : index ≤ data.length) (ops : List Int) (hops : data.length ≤ ops.length + 1) :
    ∃ g ops2, computeTest working index lvl data ops = Run.ret (g, ops2) ∧
      (g = -1 ↔ ¬ ∃ os v, os.length = data.length - index ∧ (∀ o ∈ os, 0 ≤ o ∧ o ≤ 3) ∧
        evalFrom working (data.drop index) os = some v ∧ v ∈ tierGoals lvl) ∧
      (g ≠ -1 → (g = 0 ∨ g = 1 ∨ g = 2) ∧ goalValue lvl g ∈ tierGoals lvl ∧
        ∃ os, os.length = data.length - index ∧ (∀ o ∈ os, 0 ≤ o ∧ o ≤ 3) ∧
          evalFrom working (data.drop index) os = some (goalValue lvl g)) := by
  obtain ⟨g, ops2, hrun, hpost⟩ := computeTest_spec lvl hlvl data hpos working index ops h1 h2 hops
  refine ⟨g, ops2, hrun, ?_, ?_⟩
  · rcases hpost with ⟨hg, _, hno⟩ | ⟨h0, h3, os, hl, htags, hev, _⟩
    · simp only [hg, true_iff]
      rintro ⟨os, v, _, _, hev, hv⟩
      exact hno os v hev hv
    · constructor
      · intro h; omega
      · intro h
        exact absurd ⟨os, goalValue lvl g, hl, htags, hev, goalValue_mem lvl hlvl g h0 h3⟩ h
  · intro hne
    rcases hpost with ⟨hg, _⟩ | ⟨h0, h3, os, hl, htags, hev, _⟩
    · exact absurd hg hne
    · exact ⟨by omega, goalValue_mem lvl hlvl g h0 h3, os, hl, htags, hev⟩

/-- C5 at the data 3,5,7, tier 0, called as `main` does: goal index 1 is
returned, reached by `3 - 5 + 7 = 5`. -/
theorem computeTest_complete_witness :
    computeTest 3 1 0 [3, 5, 7] opsInit =
      Run.ret (1, [1, 0, 0, 0, 0, 0, 0, 0, 0, 0, 0, 0, 0, 0, 0, 0, 0, 0, 0, 0]) ∧
    ∃ g ops2, computeTest 3 1 0 [3, 5, 7] opsInit = Run.ret (g, ops2) ∧
      (g = -1 ↔ ¬ ∃ os v, os.length = [(3 : Int), 5, 7].length - 1 ∧
        (∀ o ∈ os, 0 ≤ o ∧ o ≤ 3) ∧
        evalFrom 3 (([3, 5, 7] : List Int).drop 1) os = some v ∧ v ∈ tierGoals 0) ∧
      (g ≠ -1 → (g = 0 ∨ g = 1 ∨ g = 2) ∧ goalValue 0 g ∈ tierGoals 0 ∧
        ∃ os, os.length = [(3 : Int), 5, 7].length - 1 ∧ (∀ o ∈ os, 0 ≤ o ∧ o ≤ 3) ∧
          evalFrom 3 (([3, 5, 7] : List Int).drop 1) os = some (goalValue 0 g)) :=
  ⟨by decide, computeTest_complete [3, 5, 7] (by decide) 0 (by decide) 3 1 (by decide)
    (by decide) opsInit (by decide)⟩

/-- C6. Whenever a call of `computeTest` returns `g >= 0`, whatever the
data: afterwards `ops[index-1 .. length-2]` are `length - index` operator
tags in 0..3, and applying them left to right over `data[index .. length-1]`
from `working`, in `int` arithmetic and with every division exact, gives
exactly `goals[lvl][g]`.  And a call with
`index == length` returns the first `j` among 0, 1, 2 with
`working == goals[lvl][j]`, or `-1` when there is none, leaving `ops` alone. -/
theorem computeTest_sound :
    (∀ (working : Int) (index lvl : Nat) (data ops : List Int) (g : Int) (ops2 : List Int),
      computeTest working index lvl data ops = Run.ret (g, ops2) → 0 ≤ g →
      ((ops2.drop (index - 1)).take (data.length - index)).length = data.length - index ∧
      (∀ o ∈ (ops2.drop (index - 1)).take (data.length - index), 0 ≤ o ∧ o ≤ 3) ∧
      evalFrom working (data.drop index) ((ops2.drop (index - 1)).take (data.length - index))
        = some (goalValue lvl g)) ∧
    (∀ (working : Int) (lvl : Nat) (data ops : List Int), lvl < 9 →
      computeTest working data.length lvl data ops =
        Run.ret (if working = goalValue lvl 0 then 0
          else if working = goalValue lvl 1 then 1
          else if working = goalValue lvl 2 then 2
          else -1, ops)) := by
  constructor
  · intro working index lvl data ops g ops2 h hg
    rcases soundPost_of_computeTest lvl data working index ops g ops2 h with ⟨hg1, _⟩ |
      ⟨_, _, hlen, os, hl, htags, hev, hops⟩
    · omega
    · rw [slice_of_post hlen hl hops]
      exact ⟨hl, htags, hev⟩
  · intro working lvl data ops hlvl
    obtain ⟨g0, g1, g2, hrow, _, hv0, hv1, hv2⟩ := goals_row lvl hlvl
    simp only [computeTest, computeTestFuel, if_true, hrow, hv0, hv1, hv2]
    split_ifs <;> rfl

/-- C6 at the data 6,2 and tier 0: the call returns 0 and records Divide,
`6 / 2 = 3`; and at `index == length` with accumulator 5, tier 0, the call
returns 1. -/
theorem computeTest_sound_witness :
    computeTest 6 1 0 [6, 2] opsInit =
      Run.ret (0, [3, 0, 0, 0, 0, 0, 0, 0, 0, 0, 0, 0, 0, 0, 0, 0, 0, 0, 0, 0]) ∧
    evalFrom 6 [2] [3] = some 3 ∧
    computeTest 5 2 0 [6, 2] opsInit = Run.ret (1, opsInit) ∧
    (((([3, 0, 0, 0, 0, 0, 0, 0, 0, 0, 0, 0, 0, 0, 0, 0, 0, 0, 0, 0] : List Int).drop
        (1 - 1)).take ([(6 : Int), 2].length - 1)).length = [(6 : Int), 2].length - 1 ∧
      (∀ o ∈ (([3, 0, 0, 0, 0, 0, 0, 0, 0, 0, 0, 0, 0, 0, 0, 0, 0, 0, 0, 0] : List Int).drop
        (1 - 1)).take ([(6 : Int), 2].length - 1), 0 ≤ o ∧ o ≤ 3) ∧
      evalFrom 6 (([6, 2] : List Int).drop 1)
        ((([3, 0, 0, 0, 0, 0, 0, 0, 0, 0, 0, 0, 0, 0, 0, 0, 0, 0, 0, 0] : List Int).drop
          (1 - 1)).take ([(6 : Int), 2].length - 1)) = some (goalValue 0 0)) :=
  ⟨by decide, by decide, by decide,
    computeTest_sound.1 6 1 0 [6, 2] opsInit 0 _ (by decide) (by decide)⟩

/-- C7. `nextPermutation` returns false exactly when no index `k` in
`0 .. length-2` has `data[k] < data[k+1]`; whenever it returns false the
sequence is left as it was; and for length 0 or 1 it returns false. -/
theorem nextPermutation_exhausted (data : List Int) :
    ((nextPermutation data).1 = false ↔
      ∀ k (hk : k + 1 < data.length), ¬ data[k] < data[k + 1]) ∧
    ((nextPermutation data).1 = false → (nextPermutation data).2 = data) ∧
    (data.length ≤ 1 → (nextPermutation data).1 = false) := by
  have hiff : (nextPermutation data).1 = false ↔
      ∀ k (hk : k + 1 < data.length), ¬ data[k] < data[k + 1] := by
    rw [nextPermutation_false_iff]
    constructor
    · intro h k hk
      have := h k hk
      rwa [List.getD_eq_getElem data 0 (by omega), List.getD_eq_getElem data 0 hk] at this
    · intro h k hk
      rw [List.getD_eq_getElem data 0 (by omega), List.getD_eq_getElem data 0 hk]
      exact h k hk
  refine ⟨hiff, nextPermutation_false_snd data, ?_⟩
  intro hlen
  rw [hiff]
  intro k hk
  omega

/-- C7 at the non-increasing sequence 3,2,2,1, at the empty sequence and at
a single entry. -/
theorem nextPermutation_exhausted_witness :
    nextPermutation [3, 2, 2, 1] = (false, [3, 2, 2, 1]) ∧
    nextPermutation [] = (false, []) ∧ nextPermutation [5] = (false, [5]) ∧
    ([(5 : Int)].length ≤ 1 → (nextPermutation [5]).1 = false) :=
  ⟨by decide, by decide, by decide, (nextPermutation_exhausted [5]).2.2⟩

/-- C8. The Divide branch is taken only when it is exact.  In the loop body
of `computeTest` the Divide case hands `working / d` to the recursive call
only when `d` is not zero and `working % d == 0`; the outcome of the loop
does not depend on what the recursive call would do on any accumulator
other than `working + d`, `working - d`, `working * d` and, when `d` is not
zero and `working % d == 0`, `working / d`.  Hence, whenever a call of
`computeTest` returns `g >= 0`, every recorded Divide, `ops[index-1+j] == 3`
with `j < length - index`, has a non-zero operand `data[index+j]` that
divides the accumulator just before that step with remainder zero. -/
theorem divide_only_when_exact :
    (∀ working d w2 : Int, opArg 3 working d = Run.ret (some w2) →
      d ≠ 0 ∧ working.tmod d = 0 ∧ w2 = working.tdiv d) ∧
    (∀ (call call2 : Int → List Int → Run (Int × List Int)) (working d : Int) (index : Nat)
      (ops : List Int),
      (∀ w2 o, (w2 = wrapInt (working + d) ∨ w2 = wrapInt (working - d) ∨
          w2 = wrapInt (working * d) ∨
          (d ≠ 0 ∧ working.tmod d = 0 ∧ w2 = working.tdiv d)) → call w2 o = call2 w2 o) →
      opLoop call working d index 4 0 (-1) ops = opLoop call2 working d index 4 0 (-1) ops) ∧
    (∀ (working : Int) (index lvl : Nat) (data ops : List Int) (g : Int) (ops2 : List Int),
      computeTest working index lvl data ops = Run.ret (g, ops2) → 0 ≤ g →
      ∀ j, j < data.length - index → ops2.getD (index - 1 + j) 0 = 3 →
        data.getD (index + j) 0 ≠ 0 ∧
        (accBefore working (data.drop index) (ops2.drop (index - 1)) j).tmod
          (data.getD (index + j) 0) = 0) := by
  refine ⟨?_, ?_, ?_⟩
  · intro working d w2 h
    exact opArg_divide h
  · intro call call2 working d index ops h
    exact opLoop_congr call call2 working d index
      (fun i w2 harg o => h w2 o (opArg_cases harg)) 4 0 (-1) ops
  · intro working index lvl data ops g ops2 h hg j hj h3
    rcases soundPost_of_computeTest lvl data working index ops g ops2 h with ⟨hg1, _⟩ |
      ⟨_, _, hlen, os, hl, _, hev, hops⟩
    · omega
    · have hlen2 := hlen
      rw [hops] at hlen2
      simp only [List.length_append, List.length_take, List.length_drop] at hlen2
      have htake : (ops.take (index - 1)).length = index - 1 := by
        simp only [List.length_take]
        omega
      have hdrop : ops2.drop (index - 1) = os ++ ops.drop (data.length - 1) := by
        rw [hops, List.append_assoc, List.drop_left' htake]
      have hget : ops2.getD (index - 1 + j) 0 = (os ++ ops.drop (data.length - 1)).getD j 0 := by
        rw [← hdrop]
        simp only [List.getD_eq_getElem?_getD, List.getElem?_drop]
      have hdata : data.getD (index + j) 0 = (data.drop index).getD j 0 := by
        simp only [List.getD_eq_getElem?_getD, List.getElem?_drop]
      rw [hget] at h3
      rw [hdata, hdrop]
      exact evalFrom_divide (data.drop index) os working _ _ j hev (by omega) h3

/-- C8 at the data 6,2, tier 0, where Divide is recorded and `6 % 2 == 0`;
and for the dice in the order 1,3 no tier makes the search record a Divide
between 1 and 3. -/
theorem divide_only_when_exact_witness :
    computeTest 6 1 0 [6, 2] opsInit =
      Run.ret (0, [3, 0, 0, 0, 0, 0, 0, 0, 0, 0, 0, 0, 0, 0, 0, 0, 0, 0, 0, 0]) ∧
    (([6, 2] : List Int).getD (1 + 0) 0 ≠ 0 ∧
      (accBefore 6 (([6, 2] : List Int).drop 1)
        (([3, 0, 0, 0, 0, 0, 0, 0, 0, 0, 0, 0, 0, 0, 0, 0, 0, 0, 0, 0] : List Int).drop (1 - 1))
        0).tmod (([6, 2] : List Int).getD (1 + 0) 0) = 0) ∧
    (∀ lvl, lvl < 9 → ∃ g ops2, computeTest 1 1 lvl [1, 3] opsInit = Run.ret (g, ops2) ∧
      ops2.getD 0 0 ≠ 3) :=
  ⟨by decide,
    divide_only_when_exact.2.2 6 1 0 [6, 2] opsInit 0 _ (by decide) (by decide) 0 (by decide)
      (by decide),
    by
      intro lvl hlvl
      interval_cases lvl <;> exact ⟨_, _, rfl, by decide⟩⟩

/-- C9 (code as it is). On the line `3 5 7` not followed by a newline
`split` stores only 3 and 5 and sets `count` to 2: the run that ends the
string is never stored.  With the newline it stores 3, 5, 7. -/
theorem split_drops_last_run :
    split ['3', ' ', '5', ' ', '7'] = Run.ret ([3, 5], 2) ∧
    split ['3', ' ', '5', ' ', '7', '\n'] = Run.ret ([3, 5, 7], 3) :=
  ⟨by decide, by decide⟩

/-- C10 as stated fails: for dice 3,5,7 and tier 0 the line printed is
`Valid: 5 = 3 - 5 + 7`, which does not start with `Valid: 7 = 3`. -/
theorem output_357_is_not_seven :
    solve 1 [3, 5, 7] 0 = Run.ret (1, [3, 5, 7],
      [1, 0, 0, 0, 0, 0, 0, 0, 0, 0, 0, 0, 0, 0, 0, 0, 0, 0, 0, 0],
      "Valid: 5 = 3 - 5 + 7 \n") ∧
    ¬ List.IsPrefix "Valid: 7 = 3".data "Valid: 5 = 3 - 5 + 7 \n".data :=
  ⟨by decide, by decide⟩

/-- C10 amended. For dice 3,5,7 and tier 0 the search of the initial sorted
arrangement 3,5,7 already succeeds, with goal index 1, so the permutation
generator is never advanced; with any budget the program ends on the
arrangement 3,5,7 and prints `Valid: 5 = 3 - 5 + 7`: target 5, reached by
an expression that starts with 3. -/
theorem solve_three_five_seven :
    qsort [3, 5, 7] = [3, 5, 7] ∧
    computeTest 3 1 0 [3, 5, 7] opsInit =
      Run.ret (1, [1, 0, 0, 0, 0, 0, 0, 0, 0, 0, 0, 0, 0, 0, 0, 0, 0, 0, 0, 0]) ∧
    (∀ fuel : Nat, solve (fuel + 1) [3, 5, 7] 0 = Run.ret (1, [3, 5, 7],
      [1, 0, 0, 0, 0, 0, 0, 0, 0, 0, 0, 0, 0, 0, 0, 0, 0, 0, 0, 0],
      "Valid: 5 = 3 - 5 + 7 \n")) ∧
    goalValue 0 1 = 5 ∧ evalExpr [3, 5, 7] [1, 0] = some 5 := by
  refine ⟨by decide, by decide, ?_, by decide, by decide⟩
  intro fuel
  have h1 : qsort [3, 5, 7] = [3, 5, 7] := by decide
  have h2 : computeTest 3 1 0 [3, 5, 7] opsInit =
      Run.ret (1, [1, 0, 0, 0, 0, 0, 0, 0, 0, 0, 0, 0, 0, 0, 0, 0, 0, 0, 0, 0]) := by decide
  have h3 : report [3, 5, 7] [1, 0, 0, 0, 0, 0, 0, 0, 0, 0, 0, 0, 0, 0, 0, 0, 0, 0, 0, 0] 0 1
      = "Valid: 5 = 3 - 5 + 7 \n" := by decide
  simp only [solve, search, h1, List.getD_cons_zero, h2, searchLoop]
  rw [if_neg (by decide)]
  simp only [h3]

/-- C11 as stated fails. The level 4294967298 does not fit the `int` that
`scanf` fills: the value stored is 2, and the search uses tier 1, where
`min(9, max(1, level)) - 1` is 8. -/
theorem level_beyond_int_is_not_clamped :
    scanInt 4294967298 = 2 ∧ tierOf (scanInt 4294967298) = 1 ∧
    min 9 (max 1 (4294967298 : Int)) - 1 = 8 ∧
    tierOf (scanInt 4294967298) ≠ min 9 (max 1 (4294967298 : Int)) - 1 :=
  ⟨by decide, by decide, by decide, by decide⟩

/-- C11 amended. For every integer entered as the spell level that a 32-bit
`int` can hold, the tier index used by the search, computed by lines 82-84
of `main` from the value `scanf` stored, is `min(9, max(1, level)) - 1`, and
it is `level - 1` whenever `1 <= level <= 9`.  For every integer entered
whatsoever the tier index lies in 0..8, so `goals[lvl]` is a row of the
table, with three entries. -/
theorem tier_of_entered_level (level : Int) :
    (INT_MIN ≤ level → level ≤ INT_MAX →
      tierOf (scanInt level) = min 9 (max 1 level) - 1) ∧
    0 ≤ tierOf (scanInt level) ∧ tierOf (scanInt level) ≤ 8 ∧
    (∃ g0 g1 g2 : Int, goals[(tierOf (scanInt level)).toNat]? = some [g0, g1, g2]) ∧
    (1 ≤ level → level ≤ 9 → tierOf (scanInt level) = level - 1) := by
  have hs := tierOf_spec (scanInt level)
  refine ⟨?_, hs.2.1, hs.2.2.1, hs.2.2.2, ?_⟩
  · intro h1 h2
    rw [scanInt_of_int h1 h2]
    exact (tierOf_spec level).1
  · intro h1 h2
    have e : scanInt level = level :=
      scanInt_of_int (by unfold INT_MIN; omega) (by unfold INT_MAX; omega)
    rw [e, (tierOf_spec level).1]
    omega

/-- C11 amended at the levels 0, 5, 12 and -7: tiers 0, 4, 8 and 0; and
at the ends of the range of `int`. -/
theorem tier_of_entered_level_witness :
    tierOf (scanInt 0) = 0 ∧ tierOf (scanInt 5) = 4 ∧ tierOf (scanInt 12) = 8 ∧
    tierOf (scanInt (-7)) = 0 ∧ tierOf (scanInt 2147483647) = 8 ∧
    tierOf (scanInt (-2147483648)) = 0 ∧
    INT_MIN ≤ 12 ∧ (12 : Int) ≤ INT_MAX ∧ (1 : Int) ≤ 5 ∧ (5 : Int) ≤ 9 ∧
    tierOf (scanInt 12) = min 9 (max 1 12) - 1 ∧
    tierOf (scanInt 5) = 5 - 1 :=
  ⟨by decide, by decide, by decide, by decide, by decide, by decide, by decide, by decide,
    by decide, by decide,
    (tier_of_entered_level 12).1 (by decide) (by decide),
    (tier_of_entered_level 5).2.2.2.2 (by decide) (by decide)⟩

/-- C12. The table `goals` is the table of the spec: 9 tiers of exactly 3
targets each; every entry is a prime number; every row is strictly
ascending; and the 27 entries read row by row are strictly increasing, so
no target occurs twice. -/
theorem goals_table :
    goals = [[3, 5, 7], [11, 13, 17], [19, 23, 29], [31, 37, 41], [43, 47, 53],
      [59, 61, 67], [71, 73, 79], [83, 89, 97], [101, 103, 107]] ∧
    goals.length = 9 ∧ (∀ row ∈ goals, row.length = 3) ∧
    (∀ row ∈ goals, ∀ g ∈ row, 0 < g ∧ Nat.Prime g.toNat) ∧
    (∀ row ∈ goals, row.Pairwise (· < ·)) ∧
    goals.flatten.Pairwise (· < ·) ∧ goals.flatten.Nodup ∧ goals.flatten.length = 27 := by
  refine ⟨rfl, rfl, by decide, ?_, by decide, by decide, by decide, rfl⟩
  intro row hrow g hg
  simp only [goals, List.mem_cons, List.mem_singleton, List.not_mem_nil, or_false] at hrow
  rcases hrow with rfl | rfl | rfl | rfl | rfl | rfl | rfl | rfl | rfl <;>
    simp only [List.mem_cons, List.mem_singleton, List.not_mem_nil, or_false] at hg <;>
    rcases hg with rfl | rfl | rfl <;>
    exact ⟨by decide, by simp only [Int.toNat]; norm_num⟩

/-- C14. `computeTest` terminates on every call with `index <= length`: any
budget of at least `length - index + 1` nested activations, the call itself
and `length - index` recursive calls below it, is never used up and gives
the same result; the budget `length + 1` that `computeTest` runs with is
such a budget, and it is at most `MAXCOUNT + 1` for at most `MAXCOUNT` dice. -/
theorem computeTest_terminates (lvl : Nat) (data : List Int) (fuel : Nat) (working : Int)
    (index : Nat) (ops : List Int) (hidx : index ≤ data.length)
    (hfuel : data.length - index + 1 ≤ fuel) :
    computeTestFuel lvl data fuel working index ops ≠ Run.outOfFuel ∧
    computeTestFuel lvl data fuel working index ops =
      computeTestFuel lvl data (data.length - index + 1) working index ops ∧
    computeTest working index lvl data ops =
      computeTestFuel lvl data (data.length - index + 1) working index ops ∧
    (data.length ≤ MAXCOUNT → data.length - index + 1 ≤ MAXCOUNT + 1) := by
  refine ⟨?_, ?_, ?_, ?_⟩
  · exact computeTestFuel_ne_outOfFuel lvl data fuel working index ops (by omega) (by omega)
  · exact computeTestFuel_fuel lvl data fuel _ working index ops (by omega) (by omega)
      (by omega) (by omega)
  · exact computeTestFuel_fuel lvl data (data.length + 1) _ working index ops (by omega)
      (by omega) (by omega) (by omega)
  · intro h
    omega

/-- C14 at the data 3,5,7 called at index 1: three nested activations are
enough, and two are not. -/
theorem computeTest_terminates_witness :
    computeTestFuel 0 [3, 5, 7] 2 3 1 opsInit = Run.outOfFuel ∧
    (computeTestFuel 0 [3, 5, 7] 3 3 1 opsInit ≠ Run.outOfFuel ∧
    computeTestFuel 0 [3, 5, 7] 3 3 1 opsInit =
      computeTestFuel 0 [3, 5, 7] ([(3 : Int), 5, 7].length - 1 + 1) 3 1 opsInit ∧
    computeTest 3 1 0 [3, 5, 7] opsInit =
      computeTestFuel 0 [3, 5, 7] ([(3 : Int), 5, 7].length - 1 + 1) 3 1 opsInit ∧
    ([(3 : Int), 5, 7].length ≤ MAXCOUNT → [(3 : Int), 5, 7].length - 1 + 1 ≤ MAXCOUNT + 1)) :=
  ⟨by decide, computeTest_terminates 0 [3, 5, 7] 3 3 1 opsInit (by decide) (by decide)⟩

/-- C15. In `nextPermutation`, for every index `k` with
`data[k] < data[k+1]`, and so for the one the first scan finds, the second
scan ends on an index `l` with `k < l < length` and `data[k] < data[l]`
that is the largest such index; the guard `if (l <= k) return false` never
fires: a false return comes from the first guard alone. -/
theorem second_scan_finds (data : List Int) :
    (∀ k, k + 1 < data.length → data.getD k 0 < data.getD (k + 1) 0 →
      k < findL data k data.length ∧ findL data k data.length < data.length ∧
      data.getD k 0 < data.getD (findL data k data.length) 0 ∧
      ∀ i, findL data k data.length < i → i < data.length →
        ¬ data.getD k 0 < data.getD i 0) ∧
    (∀ k, findK data (data.length - 1) = some k →
      k + 1 < data.length ∧ data.getD k 0 < data.getD (k + 1) 0 ∧
      ¬ findL data k data.length ≤ k ∧ (nextPermutation data).1 = true) ∧
    ((nextPermutation data).1 = false → findK data (data.length - 1) = none) := by
  have hmid : ∀ k, findK data (data.length - 1) = some k →
      k + 1 < data.length ∧ data.getD k 0 < data.getD (k + 1) 0 ∧
      ¬ findL data k data.length ≤ k ∧ (nextPermutation data).1 = true := by
    intro k hK
    obtain ⟨h1, h2, _⟩ := findK_some hK
    obtain ⟨hl, _⟩ := findL_gt hK
    refine ⟨by omega, h2, by omega, ?_⟩
    unfold nextPermutation
    simp only [hK]
    rw [if_neg (by omega)]
  refine ⟨?_, hmid, ?_⟩
  · intro k hk hlt
    exact findL_spec data k data.length ⟨k + 1, by omega, hk, hlt⟩
  · intro hfalse
    cases hK : findK data (data.length - 1) with
    | none => rfl
    | some k =>
      have := (hmid k hK).2.2.2
      rw [hfalse] at this
      exact absurd this (by decide)

/-- C15 at the sequence 1,3,2,2: the first scan finds `k = 0`, the second
`l = 3`. -/
theorem second_scan_finds_witness :
    findK [1, 3, 2, 2] ([(1 : Int), 3, 2, 2].length - 1) = some 0 ∧
    findL [1, 3, 2, 2] 0 [(1 : Int), 3, 2, 2].length = 3 ∧
    (0 + 1 < [(1 : Int), 3, 2, 2].length ∧
      ([1, 3, 2, 2] : List Int).getD 0 0 < ([1, 3, 2, 2] : List Int).getD (0 + 1) 0 ∧
      ¬ findL [1, 3, 2, 2] 0 [(1 : Int), 3, 2, 2].length ≤ 0 ∧
      (nextPermutation [1, 3, 2, 2]).1 = true) :=
  ⟨by decide, by decide, (second_scan_finds [1, 3, 2, 2]).2.1 0 (by decide)⟩

/-- C18. `data` is an input only of `computeTest` (`const` in the source;
the embedding returns the value and the operator buffer, nothing else), and
`ops` is written only on success: a call that returns, returns `-1` or a
value `>= 0`; when it returns `-1` the buffer is exactly as before the call;
when it returns `g >= 0` the buffer keeps its length and every entry at a
position below `index - 1` or from `length - 1` on is as before. -/
theorem computeTest_frame (working : Int) (index lvl : Nat) (data ops : List Int) (g : Int)
    (ops2 : List Int) (h : computeTest working index lvl data ops = Run.ret (g, ops2)) :
    (g = -1 ∨ 0 ≤ g) ∧ (g = -1 → ops2 = ops) ∧
    (0 ≤ g → ops2.length = ops.length ∧
      ∀ i, i < index - 1 ∨ data.length - 1 ≤ i → ops2[i]? = ops[i]?) := by
  have hidx : index ≤ data.length := computeTestFuel_ret_index _ _ _ _ _ _ _ h
  rcases soundPost_of_computeTest lvl data working index ops g ops2 h with ⟨hg, ho⟩ |
    ⟨h0, _, hlen, os, hl, _, _, hops⟩
  · exact ⟨Or.inl hg, fun _ => ho, fun h0 => by omega⟩
  · refine ⟨Or.inr h0, fun hg => by omega, fun _ => ⟨hlen, ?_⟩⟩
    intro i hi
    rw [hops]
    rw [hops] at hlen
    refine getElem?_frame ops os _ _ i hlen ?_ hi
    by_cases hos : os = []
    · exact Or.inr hos
    · left
      have hpos : 0 < os.length := List.length_pos.2 hos
      simp only [List.length_append, List.length_take, List.length_drop] at hlen
      omega

/-- C18 at the data 3,5,7, tier 0, with a buffer that holds 9 everywhere:
the successful call writes the two tags and leaves the rest; the failing
call at tier 8 leaves the whole buffer. -/
theorem computeTest_frame_witness :
    computeTest 3 1 0 [3, 5, 7] [9, 9, 9, 9] = Run.ret (1, [1, 0, 9, 9]) ∧
    computeTest 3 1 8 [3, 5, 7] [9, 9, 9, 9] = Run.ret (-1, [9, 9, 9, 9]) ∧
    (((1 : Int) = -1 ∨ (0 : Int) ≤ 1) ∧ ((1 : Int) = -1 → ([1, 0, 9, 9] : List Int) = [9, 9, 9, 9]) ∧
    ((0 : Int) ≤ 1 → ([1, 0, 9, 9] : List Int).length = ([9, 9, 9, 9] : List Int).length ∧
      ∀ i, i < 1 - 1 ∨ [(3 : Int), 5, 7].length - 1 ≤ i →
        ([1, 0, 9, 9] : List Int)[i]? = ([9, 9, 9, 9] : List Int)[i]?)) :=
  ⟨by decide, by decide, computeTest_frame 3 1 0 [3, 5, 7] [9, 9, 9, 9] 1 [1, 0, 9, 9] (by decide)⟩

/-- C13 (code as it is). The input line `0 1` is accepted: `split` stores
the dice 0, 1 with `count` 2.  For every tier the search then reaches the
Divide branch with accumulator 1 and operand 0 on the arrangement 1,0, and
`1 % 0` is a division by zero: the run ends in a fault.  With no dice at
all, `count == 0`, the first call of `computeTest` reads `data[1]`. -/
theorem search_faults_on_zero_die :
    split ['0', ' ', '1', '\n'] = Run.ret ([0, 1], 2) ∧
    (∀ lvl, lvl < 9 → solve 2 [0, 1] lvl = Run.fault) ∧
    nextPermutation [0, 1] = (true, [1, 0]) ∧
    (∀ lvl, lvl < 9 → computeTest 1 1 lvl [1, 0] opsInit = Run.fault) ∧
    opArg 3 1 0 = Run.fault ∧
    split ['\n'] = Run.ret ([], 0) ∧
    (∀ lvl, lvl < 9 → solve 1 [] lvl = Run.fault) := by
  refine ⟨by decide, ?_, by decide, ?_, by decide, by decide, ?_⟩
  · intro lvl hlvl
    interval_cases lvl <;> decide
  · intro lvl hlvl
    interval_cases lvl <;> decide
  · intro lvl hlvl
    interval_cases lvl <;> decide

/-- C17. Whenever a call of `computeTest` returns `g >= 0`, whatever the
data, the operator tags it leaves in `ops[index-1 .. length-2]` are
lexicographically least, under Add < Subtract < Multiply < Divide, among
all operator sequences that lead from `working` over
`data[index .. length-1]`, with every division exact, to a goal of the
tier.  And whenever lines 106-121 of `main` end in success, the final
arrangement is lexicographically least among the rearrangements of the
dice that some operator sequence takes to a goal of the tier. -/
theorem first_success_is_least :
    (∀ (working : Int) (index lvl : Nat) (data ops : List Int) (g : Int) (ops2 : List Int),
      computeTest working index lvl data ops = Run.ret (g, ops2) → 0 ≤ g →
      ∀ os2 v, evalFrom working (data.drop index) os2 = some v → v ∈ tierGoals lvl →
        (ops2.drop (index - 1)).take (data.length - index) ≤ os2) ∧
    (∀ (dice : List Int) (lvl fuel : Nat) (goal : Int) (fin ops : List Int) (out : String),
      solve fuel dice lvl = Run.ret (goal, fin, ops, out) → 0 ≤ goal →
      ∀ p os v, p.Perm dice → evalExpr p os = some v → v ∈ tierGoals lvl → fin ≤ p) := by
  constructor
  · intro working index lvl data ops g ops2 h hg os2 v hev hv
    rcases computeTestFuel_least lvl data _ working index ops g ops2 h with ⟨hg1, _⟩ |
      ⟨_, _, hlen, os, hl, _, _, hops, hleast⟩
    · omega
    · rw [slice_of_post hlen hl hops]
      exact hleast os2 v hev hv
  · intro dice lvl fuel goal fin ops out h hg p os v hp hev hv
    simp only [solve] at h
    cases hs : search fuel dice lvl opsInit with
    | fault => rw [hs] at h; simp at h
    | outOfFuel => rw [hs] at h; simp at h
    | ret r =>
      obtain ⟨g, fin2, ops2⟩ := r
      rw [hs] at h
      simp only [Run.ret.injEq, Prod.mk.injEq] at h
      obtain ⟨rfl, rfl, rfl, rfl⟩ := h
      by_contra hcon
      exact (search_least lvl fuel dice opsInit g fin2 ops2 hs).1 p hp (not_le.1 hcon) os v hev hv

/-- C17 at the data 1,1,4, tier 0: the call records Multiply, Add although
Divide, Add reaches the goal 5 as well; and at the dice 5,9,2, tier 0: the
run ends on 5,9,2 although 9,5,2 has the solution `(9 + 5) / 2 = 7` too. -/
theorem first_success_is_least_witness :
    computeTest 1 1 0 [1, 1, 4] opsInit =
      Run.ret (1, [2, 0, 0, 0, 0, 0, 0, 0, 0, 0, 0, 0, 0, 0, 0, 0, 0, 0, 0, 0]) ∧
    evalFrom 1 [1, 4] [3, 0] = some 5 ∧
    ((([2, 0, 0, 0, 0, 0, 0, 0, 0, 0, 0, 0, 0, 0, 0, 0, 0, 0, 0, 0] : List Int).drop
      (1 - 1)).take ([(1 : Int), 1, 4].length - 1) ≤ [3, 0]) ∧
    evalExpr [9, 5, 2] [0, 3] = some 7 ∧
    (([5, 9, 2] : List Int) ≤ [9, 5, 2]) :=
  ⟨by decide, by decide,
    first_success_is_least.1 1 1 0 [1, 1, 4] opsInit 1 _ (by decide) (by decide) [3, 0] 5
      (by decide) (by decide),
    by decide,
    first_success_is_least.2 [5, 9, 2] 0 6 2 [5, 9, 2]
      [0, 3, 0, 0, 0, 0, 0, 0, 0, 0, 0, 0, 0, 0, 0, 0, 0, 0, 0, 0] "Valid: 7 = (5 + 9) / 2 \n"
      (by decide) (by decide)
      [9, 5, 2] [0, 3] 7 (by decide) (by decide) (by decide)⟩

/-- C16 as stated fails. With operators `*` then `+` (a high-to-low
transition) `printResult` writes no closing parenthesis at all, and with
operators `+` then `*` it closes the parenthesis after the operand that
follows the `+`, a low-to-high transition; the parentheses wrap `1 + 2`,
not a run of multiply/divide operators. -/
theorem printResult_closes_at_low_to_high :
    printResult [1, 2, 3] [2, 0, 0] 5 = "Valid: 5 = 1 * 2 + 3 \n" ∧
    ¬ (')' ∈ (printResult [1, 2, 3] [2, 0, 0] 5).data) ∧
    printResult [1, 2, 3] [0, 2, 0] 9 = "Valid: 9 = (1 + 2) * 3 \n" :=
  ⟨by decide, by decide, by decide⟩

/-- C16 amended. For dice `d0, ds` (at least one die) the text of
`printResult` is `Valid: `, the result, ` = `, then one opening parenthesis
for each position `i < N-1` with `ops[i] < 2` and `ops[i+1] >= 2` (a
transition from add/subtract to multiply/divide), all of them before the
first die, then the first die and the pieces of `tailPieces`: for each
further die its operator, the die, and a closing parenthesis exactly when
the die's operator is add/subtract and the next operator is
multiply/divide.  Nothing is written at a transition from multiply/divide
to add/subtract.  The closing parentheses are as many as the opening ones:
each pair wraps the whole expression up to the operand before a
multiply/divide that follows an add/subtract. -/
theorem printResult_parenthesis_rule (d0 : Int) (ds ops : List Int) (result : Int) :
    printResult (d0 :: ds) ops result =
      String.join (([Piece.lit "Valid: ", Piece.int result, Piece.lit " = "]
        ++ List.replicate (transitions ds.length ops) (Piece.lit "(")
        ++ [Piece.int d0, Piece.lit " "] ++ tailPieces ds ops ++ [Piece.lit "\n"]).map
          Piece.text) ∧
    transitions ds.length ops =
      (List.range ds.length).countP
        (fun i => decide (ops.getD i 0 < 2 ∧ ops.getD (i + 1) 0 ≥ 2)) ∧
    (tailPieces ds ops).count (Piece.lit ")") = transitions ds.length ops ∧
    (tailPieces ds ops).count (Piece.lit "(") = 0 :=
  ⟨printResult_shape d0 ds ops result, transitions_eq_countP ds.length ops,
    count_close_tailPieces ds ops, count_open_tailPieces ds ops⟩

/-- C20. For dice of length N >= 1 and an operator buffer whose first N-1
tags evaluate the dice strictly left to right to a value `v` (every tag in
0..3, every division exact), the expression written by `printResult`,
taken as the tokens of the pieces after `Valid: result = `, has as many
closing as opening parentheses, no prefix of it has more closing than
opening ones, and its value under the conventional reading (parentheses
first, `*` and `/` before `+` and `-`, equal precedence left to right) is
`v`.  This holds whatever `ops[N-1]` is. -/
theorem printed_expression_reads_left_to_right (dice ops : List Int) (result v : Int)
    (hev : evalExpr dice (ops.take (dice.length - 1)) = some v) :
    printResult dice ops result =
      String.join ((printResultPieces dice ops result).map Piece.text) ∧
    (exprTokens dice ops result).count Tok.lparen =
      (exprTokens dice ops result).count Tok.rparen ∧
    (∀ n, ((exprTokens dice ops result).take n).count Tok.rparen ≤
      ((exprTokens dice ops result).take n).count Tok.lparen) ∧
    convEval (exprTokens dice ops result) = some v :=
  ⟨by rw [printResult, printResultChunks_eq], exprTokens_spec dice ops result v hev⟩

/-- C20 at dice 1,6,2,4,3 with operators `+ * * +`: the text is
`(1 + 6) * 2 * 4 + 3`, read conventionally it is 59, the left-to-right
value; without the parentheses the conventional reading would differ, as
`1 + 2 * 3` is read as 7 where left to right it is 9. -/
theorem printed_expression_reads_left_to_right_witness :
    evalExpr [1, 6, 2, 4, 3] ([0, 2, 2, 0, 0].take ([1, 6, 2, 4, 3].length - 1)) = some 59 ∧
    printResult [1, 6, 2, 4, 3] [0, 2, 2, 0, 0] 59 = "Valid: 59 = (1 + 6) * 2 * 4 + 3 \n" ∧
    convEval [Tok.num 1, Tok.op 0, Tok.num 2, Tok.op 2, Tok.num 3] = some 7 ∧
    evalExpr [1, 2, 3] [0, 2] = some 9 ∧
    (printResult [1, 6, 2, 4, 3] [0, 2, 2, 0, 0] 59 =
      String.join ((printResultPieces [1, 6, 2, 4, 3] [0, 2, 2, 0, 0] 59).map Piece.text) ∧
    (exprTokens [1, 6, 2, 4, 3] [0, 2, 2, 0, 0] 59).count Tok.lparen =
      (exprTokens [1, 6, 2, 4, 3] [0, 2, 2, 0, 0] 59).count Tok.rparen ∧
    (∀ n, ((exprTokens [1, 6, 2, 4, 3] [0, 2, 2, 0, 0] 59).take n).count Tok.rparen ≤
      ((exprTokens [1, 6, 2, 4, 3] [0, 2, 2, 0, 0] 59).take n).count Tok.lparen) ∧
    convEval (exprTokens [1, 6, 2, 4, 3] [0, 2, 2, 0, 0] 59) = some 59) :=
  ⟨by decide, by decide, by decide, by decide,
    printed_expression_reads_left_to_right [1, 6, 2, 4, 3] [0, 2, 2, 0, 0] 59 59 (by decide)⟩

/-- C19. A die produced by `roll_d(6)` lies in 1..6.  For dice that all lie
in 1..6, of any number, every call of `computeTest` made during the search
(the recorded pairs of `index` and `working`, of the search on `int` whose
result is that of `search`, and of the search on exact integers alike) has
`|working| <= 6^index`.  With at most 11 dice every accumulator of the
search on exact integers is at most `6^11 = 362797056 < 2^31` in absolute
value, so no operation leaves the range of `int`, and the search on `int`
makes the same calls and ends the same as the search on exact integers. -/
theorem accumulator_bound (fuel : Nat) (dice ops : List Int) (lvl : Nat)
    (hd : ∀ d ∈ dice, 1 ≤ d ∧ d ≤ 6) :
    (∀ r, 0 ≤ r → ∃ d, roll_d r 6 = Run.ret d ∧ 1 ≤ d ∧ d ≤ 6) ∧
    (searchT wrapInt fuel dice lvl ops).2 = search fuel dice lvl ops ∧
    (∀ e ∈ (searchT wrapInt fuel dice lvl ops).1, |e.2| ≤ 6 ^ e.1) ∧
    (∀ e ∈ (searchT id fuel dice lvl ops).1, |e.2| ≤ 6 ^ e.1) ∧
    (dice.length ≤ 11 →
      (∀ e ∈ (searchT id fuel dice lvl ops).1, |e.2| ≤ 362797056) ∧
      searchT wrapInt fuel dice lvl ops = searchT id fuel dice lvl ops) ∧
    (362797056 : Int) = 6 ^ 11 ∧ (362797056 : Int) < 2 ^ 31 :=
  ⟨roll_d_range, (searchT_spec fuel dice ops lvl hd).1, (searchT_spec fuel dice ops lvl hd).2.1,
    (searchT_spec fuel dice ops lvl hd).2.2.1, (searchT_spec fuel dice ops lvl hd).2.2.2,
    by norm_num, by norm_num⟩

/-- C19 at the dice 6,6 and tier 0: the calls made are at index 1 with 6
and at index 2 with 12, 0, 36 and 1, the bound `6^2 = 36` being reached;
on larger values the two arithmetics differ, as `2147483647 * 2` shows. -/
theorem accumulator_bound_witness :
    (∀ d ∈ ([6, 6] : List Int), 1 ≤ d ∧ d ≤ 6) ∧
    (searchT wrapInt 2 [6, 6] 0 opsInit).1 = [(1, 6), (2, 12), (2, 0), (2, 36), (2, 1)] ∧
    opArgG id 2 2147483647 2 ≠ opArgG wrapInt 2 2147483647 2 ∧
    ((∀ r, 0 ≤ r → ∃ d, roll_d r 6 = Run.ret d ∧ 1 ≤ d ∧ d ≤ 6) ∧
    (searchT wrapInt 2 [6, 6] 0 opsInit).2 = search 2 [6, 6] 0 opsInit ∧
    (∀ e ∈ (searchT wrapInt 2 [6, 6] 0 opsInit).1, |e.2| ≤ 6 ^ e.1) ∧
    (∀ e ∈ (searchT id 2 [6, 6] 0 opsInit).1, |e.2| ≤ 6 ^ e.1) ∧
    (([6, 6] : List Int).length ≤ 11 →
      (∀ e ∈ (searchT id 2 [6, 6] 0 opsInit).1, |e.2| ≤ 362797056) ∧
      searchT wrapInt 2 [6, 6] 0 opsInit = searchT id 2 [6, 6] 0 opsInit) ∧
    (362797056 : Int) = 6 ^ 11 ∧ (362797056 : Int) < 2 ^ 31) :=
  ⟨by decide, by decide, by decide, accumulator_bound 2 [6, 6] opsInit 0 (by decide)⟩

end SacredGeometry
